import Mathlib

/-!
# Itchalyser: the jam ingestion pipeline

A shallow embedding of `processor/processor.go`, `fetcher/fetcher.go`,
`fetcher/types.go` and `config/config.go`.

* The record types of `fetcher/types.go` and `config/config.go` are structures.
* The storage manager and the fetcher are the external collaborators of the
  processor.  Their outcomes are given by a `World`, every operation of which
  may depend on the whole history of calls made so far, so a `World` ranges
  over every combination of outcomes.
* `Processor.ProcessJam` starts goroutines.  It is embedded as a transition
  system: a state holds the program counter of the jam loop, the program
  counter of every started goroutine, the dedup cache, the semaphore channel,
  the wait group and the history of calls.  Every step is one call to a
  collaborator or one access to the shared state.  A schedule (a list of
  goroutine choices) fixes one interleaving; statements quantify over all
  schedules.  One call of `ProcessJam` runs at a time on a processor.
* The fetcher operations are embedded a second time at the level of the
  effects they perform (sleep, request, file system), for the pacing rule.
-/

namespace Itchalyser

/-! ## fetcher/types.go -/

/-- The type `User` of `types.go`. -/
structure User where
  Name : String
  ID : Int
  URL : String
deriving DecidableEq, Repr

/-- The type `Contributor` of `types.go`. -/
structure Contributor where
  Name : String
  URL : String
deriving DecidableEq, Repr

/-- The type `Game` of `types.go`. -/
structure Game where
  CoverColor : String
  ID : Int
  User : User
  Platforms : List String
  URL : String
  Title : String
  ShortText : String
  Cover : String
deriving DecidableEq, Repr

/-- The type `JamGame` of `types.go`. -/
structure JamGame where
  CreatedAt : String
  ID : Int
  Contributors : List Contributor
  Coolness : Int
  RatingCount : Int
  URL : String
  Game : Game
deriving DecidableEq, Repr

/-- The type `JamEntriesResponse` of `types.go`.  The float field `GeneratedOn`
is never read by the program and is left out. -/
structure JamEntriesResponse where
  JamGames : List JamGame
deriving DecidableEq, Repr

/-- The type `Host` of `types.go`. -/
structure Host where
  Name : String
  URL : String
deriving DecidableEq, Repr

/-- The type `JamMetadata` of `types.go`. -/
structure JamMetadata where
  ID : String
  Title : String
  Hosts : List Host
  StartDate : String
  EndDate : String
  SubmissionDate : String
  Theme : String
  SubmissionCount : String
  RatingCount : String
  CommentsCount : String
  CoverImageURL : String
  InternalID : String
deriving DecidableEq, Repr

/-- The type `CoverImage` of `types.go`. -/
structure CoverImage where
  URL : String
  Color : String
deriving DecidableEq, Repr

/-- The type `Download` of `types.go`. -/
structure Download where
  Filename : String
  Size : String
  Platforms : List String
  UploadDate : String
deriving DecidableEq, Repr

/-- The type `Comment` of `types.go`; the map `Ratings` is an association list. -/
structure Comment where
  Author : String
  Content : String
  Timestamp : String
  Ratings : List (String × Int)
deriving DecidableEq, Repr

/-- The type `GameSubmission` of `types.go`.  Slices are lists (a nil slice is
the empty list) and the map `CriteriaResponses` is an association list (a nil
map is the empty list). -/
structure GameSubmission where
  ID : String
  Title : String
  URL : String
  Description : String
  Authors : List User
  Platforms : List String
  CreatedAt : String
  Coolness : Int
  RatingCount : Int
  Cover : CoverImage
  Screenshots : List String
  Downloads : List Download
  Comments : List Comment
  CriteriaResponses : List (String × String)
deriving DecidableEq, Repr

/-! ## config/config.go -/

/-- The type `Config` of `config.go`. -/
structure Config where
  OutputFormat : String
  OutputDir : String
  Workers : Int
  UserAgent : String
  RequestDelay : Int
  DownloadMedia : Bool
  DownloadGames : Bool
deriving DecidableEq, Repr

/-! ## Library functions used by the processor -/

/-- The function `strconv.Itoa`: the decimal representation of an integer. -/
def Itoa (n : Int) : String := toString n

/-- The two functions of the Go package `path/filepath` the program uses.
Both depend on the operating system (the separator), so the processor takes
them as a parameter. -/
structure filepath where
  Join : List String → String
  Ext : String → String

/-- Scan of `filepath.Ext` from the end of the path: `rev` is what is left of
the reversed path, `acc` the suffix already passed. -/
def extScan : List Char → List Char → List Char
  | [], _ => []
  | c :: rev, acc =>
    if c = '/' then [] else if c = '.' then '.' :: acc else extScan rev (c :: acc)

/-- The function `filepath.Ext` on Unix: the suffix starting at the last dot of
the last element of the path, empty when that element has no dot. -/
def unixExt (path : String) : String := ⟨extScan path.data.reverse []⟩

/-- One element of a path in `filepath.Clean`: `out` is the stack of elements
kept so far (last one first). -/
def cleanElem (rooted : Bool) (out : List String) (e : String) : List String :=
  if e = "" ∨ e = "." then out
  else if e = ".." then
    match out with
    | [] => if rooted then [] else [".."]
    | top :: below => if top = ".." then ".." :: top :: below else below
  else e :: out

/-- The elements of a path between its separators: `acc` is the element being
read, last character first. -/
def splitPath : List Char → List Char → List String
  | acc, [] => [String.mk acc.reverse]
  | acc, c :: cs =>
    if c = '/' then String.mk acc.reverse :: splitPath [] cs else splitPath (c :: acc) cs

/-- The function `filepath.Clean` on Unix. -/
def unixClean (path : String) : String :=
  if path = "" then "."
  else
    let rooted := path.data.head? = some '/'
    let out := (splitPath [] path.data).foldl (cleanElem rooted) []
    let body := String.intercalate "/" out.reverse
    if rooted then "/" ++ body else if body = "" then "." else body

/-- The function `filepath.Join` on Unix: the elements from the first non-empty
one on, joined by the separator and cleaned; empty when all are empty. -/
def unixJoin (elem : List String) : String :=
  match elem.dropWhile (fun e => e = "") with
  | [] => ""
  | es => unixClean (String.intercalate "/" es)

/-- The package `path/filepath` on Unix. -/
def filepath.unix : filepath := { Join := unixJoin, Ext := unixExt }

/-! ## The external collaborators -/

/-- A goroutine of one `ProcessJam` run: the jam loop itself, or the game
worker started `n`-th (counting from 0). -/
inductive Caller
  | jam
  | game (n : Nat)
deriving DecidableEq, Repr

/-- A call to the storage manager or to the fetcher, with its arguments. -/
inductive Call
  | CreateDirectory (path : String)
  | FetchJamMetadata (jamID : String)
  | SaveJamMetadata (jamID : String) (metadata : JamMetadata)
  | DownloadFile (url destPath : String)
  | FetchJamEntries (jamID : String)
  | FetchGameDetails (jamID gameID : String)
  | SaveGameSubmission (jamID gameID : String) (game : GameSubmission)
deriving DecidableEq, Repr

/-- What a call returned. -/
inductive Outcome
  | ok
  | error (msg : String)
  | metadata (m : JamMetadata)
  | entries (r : JamEntriesResponse)
  | details (g : GameSubmission)
deriving DecidableEq, Repr

/-- One entry of the history: who called what, and what came back. -/
structure Event where
  who : Caller
  call : Call
  out : Outcome
deriving DecidableEq, Repr

/-- A Go `error` result as an outcome: `none` is `nil`. -/
def Outcome.ofError : Option String → Outcome
  | none => Outcome.ok
  | some msg => Outcome.error msg

/-- The call failed. -/
def Event.failed (e : Event) : Bool :=
  match e.out with
  | Outcome.error _ => true
  | _ => false

/-- The outcomes of the external collaborators (`storage.Manager` and
`fetcher.JamFetcher`).  Every operation sees the history of calls made so far,
so its outcome may differ from one call to the next.  An `error` result is an
`Option String` (`none` is `nil`). -/
structure World where
  CreateDirectory : List Event → String → Option String
  FetchJamMetadata : List Event → String → Except String JamMetadata
  SaveJamMetadata : List Event → String → JamMetadata → Option String
  DownloadFile : List Event → String → String → Option String
  FetchJamEntries : List Event → String → Except String JamEntriesResponse
  FetchGameDetails : List Event → String → String → Except String GameSubmission
  SaveGameSubmission : List Event → String → String → GameSubmission → Option String

/-! ## processor/processor.go -/

/-- The type `Processor`: its configuration and its dedup cache.  The cache is
a Go `map[string]bool` in which only `true` is ever stored, so it is the list
of its keys.  The fetcher and the storage manager of the processor are the
`World` of a run. -/
structure Processor where
  config : Config
  gameCache : List String
deriving DecidableEq, Repr

/-- The function `NewProcessor`: the cache starts empty. -/
def NewProcessor (cfg : Config) : Processor := { config := cfg, gameCache := [] }

/-- One call `p.ProcessJam(jamID)`: the path library, the outcomes of the
collaborators, the processor as it is when the call is made, and the jam id. -/
structure Run where
  fp : filepath
  w : World
  p : Processor
  jamID : String

/-- The configuration `p.config` of the run. -/
abbrev Run.cfg (r : Run) : Config := r.p.config

/-- The authors of the basic submission (processor.go l.132-141): the owner is
appended to the empty list, then the loop over the contributors appends one
user per contributor. -/
def baseAuthors (jg : JamGame) : List User :=
  jg.Contributors.foldl
    (fun authors contributor =>
      authors ++ [{ Name := contributor.Name, ID := 0, URL := contributor.URL }])
    ([] ++ [jg.Game.User])

/-- The basic submission built from a feed entry (processor.go l.116-141):
the base fields of the entry, the authors, and every other field at its zero
value. -/
def baseSubmission (jg : JamGame) : GameSubmission :=
  { ID := Itoa jg.Game.ID
    Title := jg.Game.Title
    URL := jg.Game.URL
    Description := ""
    Authors := baseAuthors jg
    Platforms := jg.Game.Platforms
    CreatedAt := jg.CreatedAt
    Coolness := jg.Coolness
    RatingCount := jg.RatingCount
    Cover := { URL := jg.Game.Cover, Color := jg.Game.CoverColor }
    Screenshots := []
    Downloads := []
    Comments := []
    CriteriaResponses := [] }

/-- The update of the submission after a successful detail fetch
(processor.go l.150-154). -/
def enrich (submission gameDetails : GameSubmission) : GameSubmission :=
  { submission with
    Description := gameDetails.Description
    Screenshots := gameDetails.Screenshots
    Downloads := gameDetails.Downloads
    Comments := gameDetails.Comments
    CriteriaResponses := gameDetails.CriteriaResponses }

/-- The directory `jamDir` of `ProcessJam` (l.40). -/
def Run.jamDir (r : Run) : String := r.fp.Join [r.cfg.OutputDir, "jams", r.jamID]

/-- The path `coverPath` of the jam cover in `ProcessJam` (l.65). -/
def Run.jamCoverPath (r : Run) (metadata : JamMetadata) : String :=
  r.fp.Join [r.jamDir, "cover" ++ r.fp.Ext metadata.CoverImageURL]

/-- The directory `gameMediaDir` of `downloadGameMedia` (l.189). -/
def Run.gameMediaDir (r : Run) (gameID : String) : String :=
  r.fp.Join [r.cfg.OutputDir, "jams", r.jamID, "submissions", gameID, "media"]

/-- The path `coverPath` of `downloadGameMedia` (l.199). -/
def Run.coverPath (r : Run) (gameID : String) (game : GameSubmission) : String :=
  r.fp.Join [r.gameMediaDir gameID, "cover" ++ r.fp.Ext game.Cover.URL]

/-- The path `screenshotPath` of `downloadGameMedia` (l.207) for the
screenshot at index `i` (counted from 0). -/
def Run.screenshotPath (r : Run) (gameID : String) (i : Nat) (screenshot : String) : String :=
  r.fp.Join [r.gameMediaDir gameID, "screenshot" ++ Itoa (i + 1) ++ r.fp.Ext screenshot]

/-- The directory `gameFilesDir` of `downloadGameFiles` (l.216). -/
def Run.gameFilesDir (r : Run) (gameID : String) : String :=
  r.fp.Join [r.cfg.OutputDir, "jams", r.jamID, "submissions", gameID, "files"]

/-- Program counter of the goroutine that runs `ProcessJam` (the jam loop).
Each value names the statement the goroutine executes next. -/
inductive MainPC
  /-- Lines 40-45: `CreateDirectory(jamDir)`. -/
  | createDir
  /-- Lines 48-53: `FetchJamMetadata(jamID)`. -/
  | fetchMetadata
  /-- Lines 56-60: `SaveJamMetadata(jamID, metadata)`. -/
  | saveMetadata (metadata : JamMetadata)
  /-- Lines 63-71: the optional download of the jam cover. -/
  | cover (metadata : JamMetadata)
  /-- Lines 74-85: `FetchJamEntries(metadata.InternalID)`, then `make(chan, Workers)`. -/
  | fetchEntries (metadata : JamMetadata)
  /-- Lines 87-100: next iteration of the range loop over `rest`: the cache lookup
  under the read lock, then `continue` or `wg.Add(1)`. -/
  | loop (rest : List JamGame)
  /-- Line 101: the send on the semaphore channel. -/
  | acquire (jg : JamGame) (rest : List JamGame)
  /-- Line 103: the `go` statement. -/
  | spawn (jg : JamGame) (rest : List JamGame)
  /-- Lines 181-184: `wg.Wait()`, then `return nil`. -/
  | wait
  /-- The call `ProcessJam` has returned `err`. -/
  | returned (err : Option String)
  /-- The call `make` of a channel of negative size has panicked. -/
  | panicked
deriving DecidableEq, Repr

/-- Program counter of one game worker (the goroutine of l.103-178). -/
inductive WorkerPC
  /-- Lines 107-113: the claim of the game id under the write lock. -/
  | claim
  /-- Lines 116-142: the basic submission is built. -/
  | build
  /-- Lines 145-156: `FetchGameDetails`, then the update of the submission. -/
  | fetch (submission : GameSubmission)
  /-- Lines 159-163: `SaveGameSubmission`. -/
  | save (submission : GameSubmission)
  /-- Lines 166-169 and lines 189-195: the media flag, then `CreateDirectory(gameMediaDir)`. -/
  | media (submission : GameSubmission)
  /-- Lines 198-203: the download of the cover. -/
  | mediaCover (submission : GameSubmission)
  /-- Lines 206-211: iteration `i` of the loop over the screenshots. -/
  | mediaShots (submission : GameSubmission) (i : Nat)
  /-- Lines 172-175 and lines 216-229: the game-file stage. -/
  | files (submission : GameSubmission)
  /-- Line 105, deferred: the receive from the semaphore channel. -/
  | release
  /-- Line 104, deferred: `wg.Done()`. -/
  | wgDone
  /-- the goroutine has ended. -/
  | exited
deriving DecidableEq, Repr

/-- A started game worker: its argument `jg` and its program counter. -/
structure Worker where
  jg : JamGame
  pc : WorkerPC
deriving DecidableEq, Repr

/-- The state of one `ProcessJam` run. -/
structure State where
  /-- where the jam loop is -/
  main : MainPC
  /-- the goroutines started so far, in the order of their `go` statements -/
  workers : List Worker
  /-- the keys of `p.gameCache` -/
  gameCache : List String
  /-- the number of values in the channel `semaphore` -/
  semaphore : Nat
  /-- the counter of the wait group `wg` -/
  wg : Nat
  /-- the calls made to the collaborators so far, oldest first -/
  log : List Event
deriving DecidableEq, Repr

/-- The state in which `p.ProcessJam` is entered. -/
def State.start (p : Processor) : State :=
  { main := MainPC.createDir, workers := [], gameCache := p.gameCache,
    semaphore := 0, wg := 0, log := [] }

/-- The state after a call by `who` returned `out`. -/
def State.record (s : State) (who : Caller) (call : Call) (out : Outcome) : State :=
  { s with log := s.log ++ [{ who := who, call := call, out := out }] }

/-- One step of the jam loop; `none` when it is blocked or has ended. -/
def mainStep (r : Run) (s : State) : Option State :=
  match s.main with
  | MainPC.createDir =>
    match r.w.CreateDirectory s.log r.jamDir with
    | some err =>
      some { s.record Caller.jam (Call.CreateDirectory r.jamDir) (Outcome.error err) with
        main := MainPC.returned (some ("failed to create jam directory: " ++ err)) }
    | none =>
      some { s.record Caller.jam (Call.CreateDirectory r.jamDir) Outcome.ok with
        main := MainPC.fetchMetadata }
  | MainPC.fetchMetadata =>
    match r.w.FetchJamMetadata s.log r.jamID with
    | Except.error err =>
      some { s.record Caller.jam (Call.FetchJamMetadata r.jamID) (Outcome.error err) with
        main := MainPC.returned (some ("failed to fetch jam metadata: " ++ err)) }
    | Except.ok metadata =>
      some { s.record Caller.jam (Call.FetchJamMetadata r.jamID) (Outcome.metadata metadata) with
        main := MainPC.saveMetadata metadata }
  | MainPC.saveMetadata metadata =>
    match r.w.SaveJamMetadata s.log r.jamID metadata with
    | some err =>
      some { s.record Caller.jam (Call.SaveJamMetadata r.jamID metadata) (Outcome.error err) with
        main := MainPC.returned (some ("failed to save jam metadata: " ++ err)) }
    | none =>
      some { s.record Caller.jam (Call.SaveJamMetadata r.jamID metadata) Outcome.ok with
        main := MainPC.cover metadata }
  | MainPC.cover metadata =>
    if metadata.CoverImageURL ≠ "" ∧ r.cfg.DownloadMedia = true then
      some { s.record Caller.jam
          (Call.DownloadFile metadata.CoverImageURL (r.jamCoverPath metadata))
          (Outcome.ofError
            (r.w.DownloadFile s.log metadata.CoverImageURL (r.jamCoverPath metadata))) with
        main := MainPC.fetchEntries metadata }
    else some { s with main := MainPC.fetchEntries metadata }
  | MainPC.fetchEntries metadata =>
    match r.w.FetchJamEntries s.log metadata.InternalID with
    | Except.error err =>
      some { s.record Caller.jam (Call.FetchJamEntries metadata.InternalID) (Outcome.error err) with
        main := MainPC.returned (some ("failed to fetch jam entries: " ++ err)) }
    | Except.ok entriesResponse =>
      some { s.record Caller.jam (Call.FetchJamEntries metadata.InternalID)
          (Outcome.entries entriesResponse) with
        main :=
          if r.cfg.Workers < 0 then MainPC.panicked else MainPC.loop entriesResponse.JamGames }
  | MainPC.loop [] => some { s with main := MainPC.wait }
  | MainPC.loop (jamGame :: rest) =>
    if Itoa jamGame.Game.ID ∈ s.gameCache then some { s with main := MainPC.loop rest }
    else some { s with main := MainPC.acquire jamGame rest, wg := s.wg + 1 }
  | MainPC.acquire jamGame rest =>
    if (s.semaphore : Int) < r.cfg.Workers then
      some { s with main := MainPC.spawn jamGame rest, semaphore := s.semaphore + 1 }
    else none
  | MainPC.spawn jamGame rest =>
    some { s with main := MainPC.loop rest,
                  workers := s.workers ++ [{ jg := jamGame, pc := WorkerPC.claim }] }
  | MainPC.wait => if s.wg = 0 then some { s with main := MainPC.returned none } else none
  | MainPC.returned _ => none
  | MainPC.panicked => none

/-- One step of the game worker started `i`-th, whose argument is `jg` and
which is at `pc`: the statement it executes next and the shared state after
it; `none` when the worker is blocked or has ended. -/
def workerStep (r : Run) (i : Nat) (jg : JamGame) (pc : WorkerPC) (s : State) :
    Option (WorkerPC × State) :=
  let gameID := Itoa jg.Game.ID
  let me := Caller.game i
  match pc with
  | WorkerPC.claim => some (WorkerPC.build, { s with gameCache := gameID :: s.gameCache })
  | WorkerPC.build => some (WorkerPC.fetch (baseSubmission jg), s)
  | WorkerPC.fetch submission =>
    match r.w.FetchGameDetails s.log r.jamID gameID with
    | Except.error err =>
      some (WorkerPC.save submission,
        s.record me (Call.FetchGameDetails r.jamID gameID) (Outcome.error err))
    | Except.ok gameDetails =>
      some (WorkerPC.save (enrich submission gameDetails),
        s.record me (Call.FetchGameDetails r.jamID gameID) (Outcome.details gameDetails))
  | WorkerPC.save submission =>
    match r.w.SaveGameSubmission s.log r.jamID gameID submission with
    | some err =>
      some (WorkerPC.release,
        s.record me (Call.SaveGameSubmission r.jamID gameID submission) (Outcome.error err))
    | none =>
      some (WorkerPC.media submission,
        s.record me (Call.SaveGameSubmission r.jamID gameID submission) Outcome.ok)
  | WorkerPC.media game =>
    if r.cfg.DownloadMedia = true then
      match r.w.CreateDirectory s.log (r.gameMediaDir gameID) with
      | some err =>
        some (WorkerPC.files game,
          s.record me (Call.CreateDirectory (r.gameMediaDir gameID)) (Outcome.error err))
      | none =>
        some (WorkerPC.mediaCover game,
          s.record me (Call.CreateDirectory (r.gameMediaDir gameID)) Outcome.ok)
    else some (WorkerPC.files game, s)
  | WorkerPC.mediaCover game =>
    if game.Cover.URL ≠ "" then
      some (WorkerPC.mediaShots game 0,
        s.record me (Call.DownloadFile game.Cover.URL (r.coverPath gameID game))
          (Outcome.ofError (r.w.DownloadFile s.log game.Cover.URL (r.coverPath gameID game))))
    else some (WorkerPC.mediaShots game 0, s)
  | WorkerPC.mediaShots game k =>
    match game.Screenshots[k]? with
    | some screenshot =>
      some (WorkerPC.mediaShots game (k + 1),
        s.record me (Call.DownloadFile screenshot (r.screenshotPath gameID k screenshot))
          (Outcome.ofError
            (r.w.DownloadFile s.log screenshot (r.screenshotPath gameID k screenshot))))
    | none => some (WorkerPC.files game, s)
  | WorkerPC.files game =>
    if r.cfg.DownloadGames = true ∧ game.Downloads.length > 0 then
      some (WorkerPC.release,
        s.record me (Call.CreateDirectory (r.gameFilesDir gameID))
          (Outcome.ofError (r.w.CreateDirectory s.log (r.gameFilesDir gameID))))
    else some (WorkerPC.release, s)
  | WorkerPC.release =>
    if 0 < s.semaphore then some (WorkerPC.wgDone, { s with semaphore := s.semaphore - 1 })
    else none
  | WorkerPC.wgDone =>
    if 0 < s.wg then some (WorkerPC.exited, { s with wg := s.wg - 1 }) else none
  | WorkerPC.exited => none

/-- A scheduling choice: which goroutine moves next. -/
inductive Action
  | main
  | worker (i : Nat)
deriving DecidableEq, Repr

/-- One step of the run: the chosen goroutine of this call executes its next
statement; `none` when it cannot move.  What other calls of `ProcessJam` on
the same processor do to the cache meanwhile is in `sharedStep`. -/
def step (r : Run) (s : State) : Action → Option State
  | Action.main => mainStep r s
  | Action.worker i =>
    match s.workers[i]? with
    | some wk =>
      match workerStep r i wk.jg wk.pc s with
      | some (pc, s') => some { s' with workers := s'.workers.set i { jg := wk.jg, pc := pc } }
      | none => none
    | none => none

/-- The run under a schedule: `none` when the schedule picks a goroutine that
cannot move. -/
def exec (r : Run) : State → List Action → Option State
  | s, [] => some s
  | s, a :: sched =>
    match step r s a with
    | some s' => exec r s' sched
    | none => none

/-- The states the call can be in while no other call writes the cache of its
processor: those some schedule of its own goroutines leads to from its
entry. -/
def Reachable (r : Run) (s : State) : Prop :=
  ∃ sched, exec r (State.start r.p) sched = some s

/-! ## Notions used in the statements -/

/-- The calls of the history made by `who`, oldest first. -/
def own (who : Caller) (log : List Event) : List Event :=
  log.filter (fun e => decide (e.who = who))


/-- Every call of the history was made by the jam loop or by a started worker. -/
def LogWF (s : State) : Prop :=
  ∀ e ∈ s.log, ∀ i, e.who = Caller.game i → i < s.workers.length

/-- The worker holds a slot of the semaphore: the jam loop sent a value for it
(l.101) and its deferred receive (l.105) has not run yet. -/
def WorkerPC.holdsSlot : WorkerPC → Bool
  | WorkerPC.wgDone => false
  | WorkerPC.exited => false
  | _ => true

/-- The worker is still counted by the wait group: its deferred `wg.Done()`
(l.104) has not run yet. -/
def WorkerPC.counted : WorkerPC → Bool
  | WorkerPC.exited => false
  | _ => true

/-- The jam loop holds a slot for a goroutine it is about to start: it is
between the send (l.101) and the `go` statement (l.103). -/
def MainPC.slot : MainPC → Nat
  | MainPC.spawn _ _ => 1
  | _ => 0

/-- The jam loop has called `wg.Add(1)` (l.100) for a goroutine it has not
started yet. -/
def MainPC.added : MainPC → Nat
  | MainPC.acquire _ _ => 1
  | MainPC.spawn _ _ => 1
  | _ => 0

/-- The number of game tasks that have been admitted (a slot was acquired for
them) and have not yet given their slot back. -/
def admitted (s : State) : Nat :=
  s.workers.countP (fun wk => wk.pc.holdsSlot) + s.main.slot

/-- The bookkeeping of the semaphore and of the wait group. -/
def Accounted (r : Run) (s : State) : Prop :=
  s.semaphore = admitted s ∧
  s.wg = s.workers.countP (fun wk => wk.pc.counted) + s.main.added ∧
  (s.semaphore = 0 ∨ (s.semaphore : Int) ≤ r.cfg.Workers)

/-- Termination measure, first component: the statements of the jam loop
before the range loop that are still to run. -/
def MainPC.stage : MainPC → Nat
  | MainPC.createDir => 5
  | MainPC.fetchMetadata => 4
  | MainPC.saveMetadata _ => 3
  | MainPC.cover _ => 2
  | MainPC.fetchEntries _ => 1
  | _ => 0

/-- Termination measure, second component, for the jam loop: a bound on its
steps inside the range loop and on the steps up to the detail fetch of the
workers it has still to start. -/
def MainPC.early : MainPC → Nat
  | MainPC.loop rest => 6 * rest.length
  | MainPC.acquire _ rest => 6 * rest.length + 5
  | MainPC.spawn _ rest => 6 * rest.length + 4
  | _ => 0

/-- Termination measure, third component, for the jam loop. -/
def MainPC.late : MainPC → Nat
  | MainPC.loop _ => 2
  | MainPC.acquire _ _ => 2
  | MainPC.spawn _ _ => 2
  | MainPC.wait => 1
  | _ => 0

/-- Termination measure, second component, for a worker: its steps up to the
detail fetch. -/
def WorkerPC.early : WorkerPC → Nat
  | WorkerPC.claim => 3
  | WorkerPC.build => 2
  | WorkerPC.fetch _ => 1
  | _ => 0

/-- Termination measure, third component, for a worker: a bound on its steps
after the detail fetch, when the number of screenshots is known. -/
def WorkerPC.late : WorkerPC → Nat
  | WorkerPC.save game => game.Screenshots.length + 7
  | WorkerPC.media game => game.Screenshots.length + 6
  | WorkerPC.mediaCover game => game.Screenshots.length + 5
  | WorkerPC.mediaShots game k => (game.Screenshots.length - k) + 4
  | WorkerPC.files _ => 3
  | WorkerPC.release => 2
  | WorkerPC.wgDone => 1
  | _ => 0

/-- The termination measure of a state, ordered lexicographically. -/
def State.measure (s : State) : Nat × Nat × Nat :=
  (s.main.stage,
   s.main.early + (s.workers.map (fun wk => wk.pc.early)).sum,
   s.main.late + (s.workers.map (fun wk => wk.pc.late)).sum)

/-- The order in which the measure decreases. -/
def measureLt : Nat × Nat × Nat → Nat × Nat × Nat → Prop :=
  Prod.Lex (fun a b => a < b) (Prod.Lex (fun a b => a < b) (fun a b => a < b))

/-- One state follows another by a step of some goroutine. -/
def Follows (r : Run) (s' s : State) : Prop := ∃ a, step r s a = some s'

/-- The call `ProcessJam` has returned. -/
def State.returned (s : State) : Prop := ∃ err, s.main = MainPC.returned err

/-- What holds of the workers at the ends of the jam loop: none is started
before the range loop nor when an error is returned, all have ended when `nil`
is returned, and the panic of `make` needs a negative worker limit. -/
def Quiet (r : Run) (s : State) : Prop :=
  (0 < s.main.stage → s.workers = []) ∧
  (∀ err, s.main = MainPC.returned (some err) → s.workers = []) ∧
  (s.main = MainPC.returned none → ∀ wk ∈ s.workers, wk.pc = WorkerPC.exited) ∧
  (s.main = MainPC.panicked → r.cfg.Workers < 0)

/-- The calls of the four fatal steps of `ProcessJam`: the creation of the jam
directory, `FetchJamMetadata`, `SaveJamMetadata` and `FetchJamEntries`. -/
def Call.fatalStep : Call → Bool
  | Call.CreateDirectory _ => true
  | Call.FetchJamMetadata _ => true
  | Call.SaveJamMetadata _ _ => true
  | Call.FetchJamEntries _ => true
  | _ => false

/-- The entry records a failed fatal step: a failed call of one of the four
kinds made by the jam loop itself (the game workers create directories too). -/
def Event.fatal (e : Event) : Bool :=
  decide (e.who = Caller.jam) && e.call.fatalStep && e.failed

/-- At least one of the fatal steps has failed. -/
def fatalFailed (log : List Event) : Bool := log.any Event.fatal

/-! ## Sample data -/

/-- A scripted world: fixed answers, and the lists of what fails. -/
structure Script where
  metadata : JamMetadata
  feed : List JamGame
  details : GameSubmission
  failCreate : List String
  failMetadata : Bool
  failSaveMetadata : Bool
  failEntries : Bool
  failDetails : List String
  failSave : List String
  failDownload : List String

/-- The collaborators that follow a script. -/
def Script.world (k : Script) : World :=
  { CreateDirectory := fun _ path =>
      if path ∈ k.failCreate then some "permission denied" else none
    FetchJamMetadata := fun _ _ =>
      if k.failMetadata then Except.error "failed to fetch page, status code: 404"
      else Except.ok k.metadata
    SaveJamMetadata := fun _ _ _ => if k.failSaveMetadata then some "disk full" else none
    DownloadFile := fun _ url _ =>
      if url ∈ k.failDownload then some "failed to download file, status code: 404" else none
    FetchJamEntries := fun _ _ =>
      if k.failEntries then Except.error "failed to fetch jam entries, status code: 500"
      else Except.ok { JamGames := k.feed }
    FetchGameDetails := fun _ _ gameID =>
      if gameID ∈ k.failDetails then Except.error "failed to fetch page, status code: 500"
      else Except.ok k.details
    SaveGameSubmission := fun _ _ gameID _ =>
      if gameID ∈ k.failSave then some "disk full" else none }

/-- A feed entry with game id `id`. -/
def sampleGame (id : Int) (cover : String) (contributors : List Contributor) : JamGame :=
  { CreatedAt := "2025-02-16 10:00:00", ID := id + 1000, Contributors := contributors,
    Coolness := 3, RatingCount := 12, URL := "/jam/demo/rate/" ++ Itoa id,
    Game :=
      { CoverColor := "#ffffff", ID := id,
        User := { Name := "owner", ID := 1, URL := "https://owner.itch.io" },
        Platforms := ["windows"], URL := "https://owner.itch.io/game", Title := "Game",
        ShortText := "", Cover := cover } }

/-- Metadata of a jam with a cover image. -/
def sampleMetadata : JamMetadata :=
  { ID := "demo", Title := "Demo Jam", Hosts := [], StartDate := "", EndDate := "",
    SubmissionDate := "", Theme := "", SubmissionCount := "3", RatingCount := "",
    CommentsCount := "", CoverImageURL := "https://img.itch.zone/jam.png", InternalID := "42" }

/-- A detail record with two screenshots and one download. -/
def sampleDetails : GameSubmission :=
  { ID := "0", Title := "", URL := "", Description := "about the game", Authors := [],
    Platforms := [], CreatedAt := "", Coolness := 0, RatingCount := 0,
    Cover := { URL := "", Color := "" },
    Screenshots := ["https://img.itch.zone/a.png", "https://img.itch.zone/b.jpg"],
    Downloads := [{ Filename := "game.zip", Size := "3 MB", Platforms := [], UploadDate := "" }],
    Comments := [], CriteriaResponses := [("theme", "yes")] }

/-- The default configuration of `main.go`. -/
def sampleConfig : Config :=
  { OutputFormat := "json", OutputDir := "../data", Workers := 2,
    UserAgent := "Itchalyser/1.0 (https://github.com/Abstractmelon/Itchalyser)",
    RequestDelay := 1500, DownloadMedia := true, DownloadGames := false }

/-- A script in which nothing fails. -/
def sampleScript (feed : List JamGame) : Script :=
  { metadata := sampleMetadata, feed := feed, details := sampleDetails, failCreate := [],
    failMetadata := false, failSaveMetadata := false, failEntries := false, failDetails := [],
    failSave := [], failDownload := [] }

/-- The run of jam `demo` on Unix against a script. -/
def sampleRun (k : Script) : Run :=
  { fp := filepath.unix, w := k.world, p := NewProcessor sampleConfig, jamID := "demo" }

/-- The schedule that runs the jam loop up to the range loop. -/
def schedHead : List Action := List.replicate 5 Action.main

/-- The schedule that starts worker `i` and runs it alone for `n` steps. -/
def schedGame (i n : Nat) : List Action :=
  List.replicate 3 Action.main ++ List.replicate n (Action.worker i)

/-- The schedule that ends the range loop and waits. -/
def schedTail : List Action := List.replicate 2 Action.main

/-- A script in which every non-fatal step of some kind fails: every
download, the detail fetch of game 7 and the save of game 8. -/
def lossyScript : Script :=
  { sampleScript [sampleGame 7 "" [], sampleGame 8 "" [],
      sampleGame 9 "https://img.itch.zone/c.png" []] with
    failDetails := ["7"], failSave := ["8"],
    failDownload := ["https://img.itch.zone/jam.png", "https://img.itch.zone/c.png",
      "https://img.itch.zone/a.png", "https://img.itch.zone/b.jpg"] }

/-- A sequential schedule for `lossyScript`. -/
def lossySched : List Action :=
  schedHead ++ schedGame 0 10 ++ schedGame 1 6 ++ schedGame 2 12 ++ schedTail

/-- The call `ProcessJam` has returned an error. -/
def MainPC.failed : MainPC → Bool
  | MainPC.returned (some _) => true
  | _ => false

/-- The state `lossySched` leads to. -/
def lossyFinal : State :=
  (exec (sampleRun lossyScript) (State.start (sampleRun lossyScript).p) lossySched).getD
    (State.start (sampleRun lossyScript).p)

/-- The call is `FetchGameDetails`. -/
def Call.isDetails : Call → Bool
  | Call.FetchGameDetails _ _ => true
  | _ => false

/-- The call is `SaveGameSubmission`. -/
def Call.isSave : Call → Bool
  | Call.SaveGameSubmission _ _ _ => true
  | _ => false

/-- The call is `DownloadFile`. -/
def Call.isDownload : Call → Bool
  | Call.DownloadFile _ _ => true
  | _ => false

/-- The call is `CreateDirectory`. -/
def Call.isCreate : Call → Bool
  | Call.CreateDirectory _ => true
  | _ => false

/-- The history entry of the detail fetch of worker `i`. -/
def detailsEvent (r : Run) (i : Nat) (jg : JamGame) (out : Outcome) : Event :=
  { who := Caller.game i, call := Call.FetchGameDetails r.jamID (Itoa jg.Game.ID), out := out }

/-- The history entry of the save of `game` by worker `i`. -/
def saveEvent (r : Run) (i : Nat) (jg : JamGame) (game : GameSubmission) (out : Outcome) : Event :=
  { who := Caller.game i,
    call := Call.SaveGameSubmission r.jamID (Itoa jg.Game.ID) game, out := out }

/-- The submission a worker holds after its detail fetch returned `out`. -/
def submissionAfter (jg : JamGame) : Outcome → GameSubmission
  | Outcome.details gameDetails => enrich (baseSubmission jg) gameDetails
  | _ => baseSubmission jg

/-- The worker has passed the save of its record (l.159). -/
def WorkerPC.pastSave : WorkerPC → Bool
  | WorkerPC.claim => false
  | WorkerPC.build => false
  | WorkerPC.fetch _ => false
  | WorkerPC.save _ => false
  | _ => true

/-- The submission held at a program counter, when it holds one. -/
def WorkerPC.submission? : WorkerPC → Option GameSubmission
  | WorkerPC.fetch game => some game
  | WorkerPC.save game => some game
  | WorkerPC.media game => some game
  | WorkerPC.mediaCover game => some game
  | WorkerPC.mediaShots game _ => some game
  | WorkerPC.files game => some game
  | _ => none

/-- The history entry of a directory creation by worker `i`. -/
def createEvent (i : Nat) (path : String) (out : Outcome) : Event :=
  { who := Caller.game i, call := Call.CreateDirectory path, out := out }

/-- The history entry of a download by worker `i`. -/
def downloadEvent (i : Nat) (url destPath : String) (out : Outcome) : Event :=
  { who := Caller.game i, call := Call.DownloadFile url destPath, out := out }

/-- The moves of one game worker, read off `workerStep`: from one program
counter to the next, with the calls the move adds to the history.  The
outcomes of the calls are arbitrary. -/
inductive Move (r : Run) (i : Nat) (jg : JamGame) : WorkerPC → WorkerPC → List Event → Prop
  | claim : Move r i jg WorkerPC.claim WorkerPC.build []
  | build : Move r i jg WorkerPC.build (WorkerPC.fetch (baseSubmission jg)) []
  | fetchFailed (game : GameSubmission) (err : String) :
    Move r i jg (WorkerPC.fetch game) (WorkerPC.save game)
      [detailsEvent r i jg (Outcome.error err)]
  | fetched (game gameDetails : GameSubmission) :
    Move r i jg (WorkerPC.fetch game) (WorkerPC.save (enrich game gameDetails))
      [detailsEvent r i jg (Outcome.details gameDetails)]
  | saveFailed (game : GameSubmission) (err : String) :
    Move r i jg (WorkerPC.save game) WorkerPC.release
      [saveEvent r i jg game (Outcome.error err)]
  | saved (game : GameSubmission) :
    Move r i jg (WorkerPC.save game) (WorkerPC.media game) [saveEvent r i jg game Outcome.ok]
  | mediaOff (game : GameSubmission) (h : r.cfg.DownloadMedia = false) :
    Move r i jg (WorkerPC.media game) (WorkerPC.files game) []
  | mediaDirFailed (game : GameSubmission) (err : String) (h : r.cfg.DownloadMedia = true) :
    Move r i jg (WorkerPC.media game) (WorkerPC.files game)
      [createEvent i (r.gameMediaDir (Itoa jg.Game.ID)) (Outcome.error err)]
  | mediaDir (game : GameSubmission) (h : r.cfg.DownloadMedia = true) :
    Move r i jg (WorkerPC.media game) (WorkerPC.mediaCover game)
      [createEvent i (r.gameMediaDir (Itoa jg.Game.ID)) Outcome.ok]
  | noCover (game : GameSubmission) (h : game.Cover.URL = "") :
    Move r i jg (WorkerPC.mediaCover game) (WorkerPC.mediaShots game 0) []
  | cover (game : GameSubmission) (err : Option String) (h : game.Cover.URL ≠ "") :
    Move r i jg (WorkerPC.mediaCover game) (WorkerPC.mediaShots game 0)
      [downloadEvent i game.Cover.URL (r.coverPath (Itoa jg.Game.ID) game) (Outcome.ofError err)]
  | shot (game : GameSubmission) (k : Nat) (screenshot : String) (err : Option String)
      (h : game.Screenshots[k]? = some screenshot) :
    Move r i jg (WorkerPC.mediaShots game k) (WorkerPC.mediaShots game (k + 1))
      [downloadEvent i screenshot (r.screenshotPath (Itoa jg.Game.ID) k screenshot)
        (Outcome.ofError err)]
  | shotsDone (game : GameSubmission) (k : Nat) (h : game.Screenshots[k]? = none) :
    Move r i jg (WorkerPC.mediaShots game k) (WorkerPC.files game) []
  | filesOff (game : GameSubmission)
      (h : ¬ (r.cfg.DownloadGames = true ∧ game.Downloads.length > 0)) :
    Move r i jg (WorkerPC.files game) WorkerPC.release []
  | filesDir (game : GameSubmission) (err : Option String)
      (h : r.cfg.DownloadGames = true ∧ game.Downloads.length > 0) :
    Move r i jg (WorkerPC.files game) WorkerPC.release
      [createEvent i (r.gameFilesDir (Itoa jg.Game.ID)) (Outcome.ofError err)]
  | release : Move r i jg WorkerPC.release WorkerPC.wgDone []
  | wgDone : Move r i jg WorkerPC.wgDone WorkerPC.exited []

/-- The shape of the calls made by worker `i` after its save (`t`): the
detail fetch, one save of the submission the fetch produced, then calls that
are neither detail fetches nor saves; `held` is the submission the worker
still holds, if any. -/
def LateShape (r : Run) (i : Nat) (jg : JamGame) (held : Option GameSubmission)
    (t : List Event) : Prop :=
  ∃ out out' rest,
    t = detailsEvent r i jg out :: saveEvent r i jg (submissionAfter jg out) out' :: rest ∧
    (∀ e ∈ rest, e.call.isSave = false ∧ e.call.isDetails = false) ∧
    (∀ game, held = some game → game = submissionAfter jg out)

/-- The shape of the calls made by worker `i` so far (`t`), by program
counter: nothing up to the detail fetch, then the detail fetch alone, then
`LateShape`. -/
def TaskShape (r : Run) (i : Nat) (jg : JamGame) (pc : WorkerPC) (t : List Event) : Prop :=
  match pc with
  | WorkerPC.claim => t = []
  | WorkerPC.build => t = []
  | WorkerPC.fetch game => t = [] ∧ game = baseSubmission jg
  | WorkerPC.save game => ∃ out, t = [detailsEvent r i jg out] ∧ game = submissionAfter jg out
  | pc => LateShape r i jg pc.submission? t

/-- The saves of game records made by `who`, oldest first. -/
def savesOf (who : Caller) (log : List Event) : List Event :=
  (own who log).filter (fun e => e.call.isSave)

/-- The game id a call is about, for the two calls made per game. -/
def Call.gameID? : Call → Option String
  | Call.FetchGameDetails _ gameID => some gameID
  | Call.SaveGameSubmission _ gameID _ => some gameID
  | _ => none

/-- The processor after a call that ended in state `s`: the call leaves its
cache behind. -/
def Processor.after (p : Processor) (s : State) : Processor :=
  { p with gameCache := s.gameCache }

/-- A feed in which game id 7 appears twice. -/
def twiceScript : Script := sampleScript [sampleGame 7 "" [], sampleGame 7 "" []]

/-- An interleaving for `twiceScript`: the jam loop looks up both entries and
starts both workers before the first worker has claimed the id. -/
def raceSched : List Action :=
  schedHead ++ List.replicate 6 Action.main ++ List.replicate 12 (Action.worker 0) ++
    List.replicate 12 (Action.worker 1) ++ schedTail

/-- The state `raceSched` leads to. -/
def raceFinal : State :=
  (exec (sampleRun twiceScript) (State.start (sampleRun twiceScript).p) raceSched).getD
    (State.start (sampleRun twiceScript).p)

/-- Another interleaving for `twiceScript`: the first worker runs to its end
before the jam loop looks up the second entry. -/
def calmSched : List Action :=
  schedHead ++ schedGame 0 12 ++ List.replicate 1 Action.main ++ schedTail

/-- The state `calmSched` leads to. -/
def calmFinal : State :=
  (exec (sampleRun twiceScript) (State.start (sampleRun twiceScript).p) calmSched).getD
    (State.start (sampleRun twiceScript).p)

/-- What the run knows of the cache: it keeps what the processor had at the
entry, holds the id of every worker past its claim, and holds nothing else
than ids of started workers. -/
def CacheKept (r : Run) (s : State) : Prop :=
  (∀ g ∈ r.p.gameCache, g ∈ s.gameCache) ∧
  (∀ wk ∈ s.workers, wk.pc ≠ WorkerPC.claim → Itoa wk.jg.Game.ID ∈ s.gameCache) ∧
  (∀ g ∈ s.gameCache, g ∈ r.p.gameCache ∨ ∃ wk ∈ s.workers, Itoa wk.jg.Game.ID = g)

/-- The history entry of the creation of the jam directory. -/
def jamDirEvent (r : Run) (out : Outcome) : Event :=
  { who := Caller.jam, call := Call.CreateDirectory r.jamDir, out := out }

/-- The history entry of the metadata fetch. -/
def metadataEvent (r : Run) (out : Outcome) : Event :=
  { who := Caller.jam, call := Call.FetchJamMetadata r.jamID, out := out }

/-- A script in which the jam directory cannot be created. -/
def noDirScript : Script :=
  { sampleScript [sampleGame 7 "" []] with failCreate := ["../data/jams/demo"] }

/-- A script in which the metadata fetch fails. -/
def noMetadataScript : Script :=
  { sampleScript [sampleGame 7 "" []] with failMetadata := true }

/-- A feed entry with two contributors. -/
def teamGame : JamGame :=
  sampleGame 5 "" [{ Name := "ann", URL := "https://ann.itch.io" },
    { Name := "bob", URL := "https://bob.itch.io" }]

/-- Some save of a game record in `t` failed. -/
def anySaveFailed (t : List Event) : Bool := t.any (fun e => e.call.isSave && e.failed)

/-- No call of the media stage or of the game-file stage is in `t`: no
directory creation and no download. -/
def noStageCall (t : List Event) : Bool :=
  t.all (fun e => !e.call.isCreate && !e.call.isDownload)

/-- The part of the worker a program counter lies in: 0 up to the save of the
record, 1 in the media stage or the game-file stage, 2 in the deferred calls
and after. -/
def WorkerPC.part : WorkerPC → Nat
  | WorkerPC.claim => 0
  | WorkerPC.build => 0
  | WorkerPC.fetch _ => 0
  | WorkerPC.save _ => 0
  | WorkerPC.media _ => 1
  | WorkerPC.mediaCover _ => 1
  | WorkerPC.mediaShots _ _ => 1
  | WorkerPC.files _ => 1
  | _ => 2

/-- The guard of the save (l.159-162), on the calls `t` made by a worker so
far: up to the save no save has failed and no stage has run; a worker inside
a stage has no failed save; a worker past the stages with a failed save has
run no stage. -/
def SaveGuard (pc : WorkerPC) (t : List Event) : Prop :=
  (pc.part = 0 → anySaveFailed t = false ∧ noStageCall t = true) ∧
  (pc.part = 1 → anySaveFailed t = false) ∧
  (pc.part = 2 → anySaveFailed t = true → noStageCall t = true)

/-- The game records whose save succeeded, among the calls `t`. -/
def okSaves (t : List Event) : List GameSubmission :=
  t.filterMap (fun e =>
    match e.call, e.out with
    | Call.SaveGameSubmission _ _ game, Outcome.ok => some game
    | _, _ => none)

/-- The directory creations among the calls `t`, each with whether it failed. -/
def dirResults (t : List Event) : List Bool :=
  (t.filter (fun e => e.call.isCreate)).map Event.failed

/-- The `DownloadFile` calls among the calls `t`, in order. -/
def downloadCalls (t : List Event) : List Call :=
  (t.filter (fun e => e.call.isDownload)).map Event.call

/-- The downloads of the screenshot loop of `downloadGameMedia` (l.206-211)
for the screenshots `shots`, the first of which has index `k`. -/
def shotCalls (r : Run) (gameID : String) : Nat → List String → List Call
  | _, [] => []
  | k, screenshot :: shots =>
    Call.DownloadFile screenshot (r.screenshotPath gameID k screenshot) ::
      shotCalls r gameID (k + 1) shots

/-- The downloads `downloadGameMedia` is to attempt for `game` once the media
directory exists: the cover if its URL is not empty, then every screenshot in
list order. -/
def mediaCalls (r : Run) (gameID : String) (game : GameSubmission) : List Call :=
  (if game.Cover.URL ≠ "" then [Call.DownloadFile game.Cover.URL (r.coverPath gameID game)]
    else []) ++ shotCalls r gameID 0 game.Screenshots

/-- The media stage has run in full for `game`: if media download is enabled
and the first directory creation of the task (then the one of the media
directory, l.192) succeeded, the downloads made are exactly `mediaCalls`. -/
def MediaDone (r : Run) (jg : JamGame) (game : GameSubmission) (t : List Event) : Prop :=
  r.cfg.DownloadMedia = true → (dirResults t).head? = some false →
    downloadCalls t = mediaCalls r (Itoa jg.Game.ID) game

/-- The progress of the media stage of a worker, by program counter, on the
calls `t` it has made so far. -/
def MediaTrack (r : Run) (jg : JamGame) (pc : WorkerPC) (t : List Event) : Prop :=
  match pc with
  | WorkerPC.media game => okSaves t = [game] ∧ dirResults t = [] ∧ downloadCalls t = []
  | WorkerPC.mediaCover game =>
    okSaves t = [game] ∧ dirResults t = [false] ∧ downloadCalls t = []
  | WorkerPC.mediaShots game k =>
    okSaves t = [game] ∧ dirResults t = [false] ∧
      downloadCalls t ++ shotCalls r (Itoa jg.Game.ID) k (game.Screenshots.drop k) =
        mediaCalls r (Itoa jg.Game.ID) game
  | WorkerPC.files game =>
    okSaves t = [game] ∧ MediaDone r jg game t ∧
      (r.cfg.DownloadMedia = true → dirResults t ≠ [])
  | WorkerPC.release => ∀ game ∈ okSaves t, MediaDone r jg game t
  | WorkerPC.wgDone => ∀ game ∈ okSaves t, MediaDone r jg game t
  | WorkerPC.exited => ∀ game ∈ okSaves t, MediaDone r jg game t
  | _ => okSaves t = [] ∧ dirResults t = [] ∧ downloadCalls t = []

/-- The worker has left the media stage (or skipped it). -/
def WorkerPC.pastMedia : WorkerPC → Bool
  | WorkerPC.files _ => true
  | WorkerPC.release => true
  | WorkerPC.wgDone => true
  | WorkerPC.exited => true
  | _ => false

/-- The URL a `DownloadFile` call fetches. -/
def Call.url? : Call → Option String
  | Call.DownloadFile url _ => some url
  | _ => none

/-- The state of the run of `twiceScript` in which both workers have been
started and none has moved yet. -/
def busyState : State :=
  (exec (sampleRun twiceScript) (State.start (sampleRun twiceScript).p)
      (schedHead ++ List.replicate 6 Action.main)).getD
    (State.start (sampleRun twiceScript).p)

/-! ## fetcher/fetcher.go: the effects of the operations -/

/-- The type `JamFetcher`: the user agent and the request delay, a
`time.Duration` in nanoseconds.  The HTTP client is part of `Net`. -/
structure JamFetcher where
  userAgent : String
  requestDelay : Int
deriving DecidableEq, Repr

/-- The value of a Go `int64` computed without bound: two's complement
wrap-around. -/
def wrapInt64 (n : Int) : Int := (n + 2 ^ 63) % 2 ^ 64 - 2 ^ 63

/-- The function `NewFetcher` (l.27-39): a delay of at most 0 ms is replaced
by 500 ms; the duration is `delayMS * time.Millisecond`. -/
def NewFetcher (userAgent : String) (delayMS : Int) : JamFetcher :=
  let delayMS := if delayMS ≤ 0 then 500 else delayMS
  { userAgent := userAgent, requestDelay := wrapInt64 (delayMS * 1000000) }

/-- What the fetcher does to the outside, in the order it does it. -/
inductive Effect
  /-- The call `time.Sleep(d)`. -/
  | Sleep (d : Int)
  /-- The call `client.Do(req)`: a GET request for `url` is sent with the user agent. -/
  | Request (url userAgent : String)
  /-- The call `os.MkdirAll(filepath.Dir(destPath), 0755)`. -/
  | MkdirParent (destPath : String)
  /-- The call `os.Create(destPath)`. -/
  | Create (destPath : String)
  /-- The call `io.Copy(file, resp.Body)`. -/
  | Copy (destPath : String)
deriving DecidableEq, Repr

/-- The outcomes of what the fetcher calls: whether `http.NewRequest` accepts
a URL, what `client.Do` returns for it (`none` for an error, else the status
code and, for the page fetched by `ExtractJamID`, the `href` of its randomizer
link, empty when there is none), and whether the file system calls succeed. -/
structure Net where
  NewRequest : String → Bool
  Do : String → Option (Nat × String)
  MkdirAll : String → Bool
  Create : String → Bool

/-- The method `fetchHTMLDoc` (l.313-334): the request, unless it cannot be
built. -/
def JamFetcher.fetchHTMLDoc (f : JamFetcher) (net : Net) (url : String) : List Effect :=
  if net.NewRequest url then [Effect.Request url f.userAgent] else []

/-- The method `FetchJamEntries` (l.70-98): its effects. -/
def JamFetcher.FetchJamEntries (f : JamFetcher) (net : Net) (jamID : String) : List Effect :=
  let url := "https://itch.io/jam/" ++ jamID ++ "/entries.json"
  [Effect.Sleep f.requestDelay] ++
    (if net.NewRequest url then [Effect.Request url f.userAgent] else [])

/-- The method `FetchJamMetadata` (l.101-174): its effects. -/
def JamFetcher.FetchJamMetadata (f : JamFetcher) (net : Net) (jamID : String) : List Effect :=
  let url := "https://itch.io/jam/" ++ jamID
  [Effect.Sleep f.requestDelay] ++ f.fetchHTMLDoc net url

/-- The method `FetchGameDetails` (l.189-273): its effects. -/
def JamFetcher.FetchGameDetails (f : JamFetcher) (net : Net) (jamID gameID : String) :
    List Effect :=
  let url := "https://itch.io/jam/" ++ jamID ++ "/rate/" ++ gameID
  [Effect.Sleep f.requestDelay] ++ f.fetchHTMLDoc net url

/-- The method `DownloadFile` (l.276-310): its effects. -/
def JamFetcher.DownloadFile (f : JamFetcher) (net : Net) (url destPath : String) : List Effect :=
  [Effect.Sleep f.requestDelay, Effect.MkdirParent destPath] ++
    (if net.MkdirAll destPath then
      if net.NewRequest url then
        [Effect.Request url f.userAgent] ++
          (match net.Do url with
           | some (200, _) =>
             [Effect.Create destPath] ++
               (if net.Create destPath then [Effect.Copy destPath] else [])
           | _ => [])
      else []
    else [])

/-- The strings matched by `[^/]+` at the start of `cs`: the longest run of
characters other than `/`, when it is not empty. -/
def slugPrefix (cs : List Char) : Option (List Char) :=
  match cs.takeWhile (fun c => c ≠ '/') with
  | [] => none
  | slug => some slug

/-- The match of `prefix_ ++ [^/]+` at the start of `cs`: its group. -/
def matchHere (lead cs : List Char) : Option (List Char) :=
  if lead.isPrefixOf cs then slugPrefix (cs.drop lead.length) else none

/-- The group of the leftmost match of the regular expression
`itch\.io/jam/([^/]+)` in `cs` (`FindStringSubmatch`, l.44-45). -/
def findJamSlug : List Char → Option (List Char)
  | [] => none
  | c :: cs =>
    match matchHere "itch.io/jam/".data (c :: cs) with
    | some slug => some slug
    | none => findJamSlug cs

/-- The longest run of decimal digits at the start of `cs`, when not empty. -/
def digitsPrefix (cs : List Char) : Option (List Char) :=
  match cs.takeWhile (fun c => decide ('0' ≤ c ∧ c ≤ '9')) with
  | [] => none
  | ds => some ds

/-- The group of the leftmost match of the regular expression `jam_id=(\d+)`
in `cs` (l.59-60). -/
def findJamIDParam : List Char → Option (List Char)
  | [] => none
  | c :: cs =>
    match (if "jam_id=".data.isPrefixOf (c :: cs)
        then digitsPrefix ((c :: cs).drop "jam_id=".data.length) else none) with
    | some ds => some ds
    | none => findJamIDParam cs

/-- The function `fetchHTMLDoc` (l.337-358), the helper outside the methods:
its own client and its own user agent, and no delay. -/
def fetchHTMLDoc (net : Net) (url : String) : List Effect :=
  if net.NewRequest url then [Effect.Request url "ItchJamScraper/1.0"] else []

/-- The function `ExtractJamID` (l.42-67): its effects and its result.  When
the URL matches `itch\.io/jam/([^/]+)` nothing is fetched; otherwise the page
is fetched and the id is looked for in its randomizer link. -/
def ExtractJamID (net : Net) (jamURL : String) : List Effect × Except String String :=
  match findJamSlug jamURL.data with
  | some slug => ([], Except.ok (String.mk slug))
  | none =>
    if net.NewRequest jamURL then
      ([Effect.Request jamURL "ItchJamScraper/1.0"],
        match net.Do jamURL with
        | none => Except.error "request failed"
        | some (status, randomizerLink) =>
          if status ≠ 200 then
            Except.error ("failed to fetch page, status code: " ++ toString status)
          else
            match (if randomizerLink ≠ "" then findJamIDParam randomizerLink.data else none) with
            | some id => Except.ok (String.mk id)
            | none => Except.error "could not extract jam ID from URL")
    else ([], Except.error "invalid request")

/-- The pacing rule on the effects of one operation: every request is
preceded, inside the operation, by a sleep of `d`. -/
def Paced (d : Int) (tr : List Effect) : Prop :=
  ∀ k url userAgent, tr[k]? = some (Effect.Request url userAgent) →
    ∃ j : Nat, j < k ∧ tr[j]? = some (Effect.Sleep d)

/-- A network on which every call succeeds and every page is empty. -/
def sampleNet : Net :=
  { NewRequest := fun _ => true, Do := fun _ => some (200, ""), MkdirAll := fun _ => true,
    Create := fun _ => true }

/-- The base fields of a game record: the fields other than `Description`,
`Screenshots`, `Downloads`, `Comments` and `CriteriaResponses`. -/
structure BaseFields where
  ID : String
  Title : String
  URL : String
  Authors : List User
  Platforms : List String
  CreatedAt : String
  Coolness : Int
  RatingCount : Int
  Cover : CoverImage
deriving DecidableEq, Repr

/-- The base fields of `game`. -/
def GameSubmission.baseFields (game : GameSubmission) : BaseFields :=
  { ID := game.ID, Title := game.Title, URL := game.URL, Authors := game.Authors,
    Platforms := game.Platforms, CreatedAt := game.CreatedAt, Coolness := game.Coolness,
    RatingCount := game.RatingCount, Cover := game.Cover }

/-- The base fields the feed entry `jg` gives (processor.go l.117-141). -/
def entryFields (jg : JamGame) : BaseFields :=
  { ID := Itoa jg.Game.ID, Title := jg.Game.Title, URL := jg.Game.URL, Authors := baseAuthors jg,
    Platforms := jg.Game.Platforms, CreatedAt := jg.CreatedAt, Coolness := jg.Coolness,
    RatingCount := jg.RatingCount,
    Cover := { URL := jg.Game.Cover, Color := jg.Game.CoverColor } }

/-! ## Notions for the feed of a run -/

/-- The feed entries the jam loop still has to go through: the rest of the
range of l.87, with the entry a goroutine is being started for. -/
def MainPC.pending? : MainPC → Option (List JamGame)
  | MainPC.loop rest => some rest
  | MainPC.acquire jamGame rest => some (jamGame :: rest)
  | MainPC.spawn jamGame rest => some (jamGame :: rest)
  | MainPC.wait => some []
  | MainPC.returned none => some []
  | _ => none

/-- The feed a history entry carries: the games `FetchJamEntries` returned. -/
def Event.feed? (e : Event) : Option (List JamGame) :=
  match e.call, e.out with
  | Call.FetchJamEntries _, Outcome.entries entriesResponse => some entriesResponse.JamGames
  | _, _ => none

/-- The feed of the run: the games the call of `FetchJamEntries` (l.74)
returned, when it has been made and has succeeded. -/
def fetchedFeed (log : List Event) : Option (List JamGame) :=
  log.findSome? Event.feed?

/-- The game ids of a feed, as the keys the cache uses (l.88). -/
def feedIDs (feed : List JamGame) : List String :=
  feed.map (fun jg => Itoa jg.Game.ID)

/-- The feed has pairwise distinct game ids, none of which the cache of the
processor holds at the entry of the call. -/
def FreshFeed (r : Run) (feed : List JamGame) : Prop :=
  (feedIDs feed).Nodup ∧ ∀ g ∈ feedIDs feed, g ∉ r.p.gameCache

/-- How the jam loop goes through the feed: before the feed is fetched no
goroutine is started; afterwards the loop either panicked on the creation of
the semaphore, or the entries of the started goroutines followed by the
pending entries are the feed (when the feed is fresh: no entry is skipped). -/
def FeedTrack (r : Run) (s : State) : Prop :=
  (fetchedFeed s.log = none → s.main.pending? = none ∧ s.main ≠ MainPC.panicked) ∧
  (∀ feed, fetchedFeed s.log = some feed →
    (s.main = MainPC.panicked ∧ r.cfg.Workers < 0 ∧ s.workers = []) ∨
    ∃ pend, s.main.pending? = some pend ∧
      (FreshFeed r feed → s.workers.map (fun wk => wk.jg) ++ pend = feed))

/-- The call saves the record of a game whose id satisfies `q`. -/
def Call.savesWhere (q : String → Bool) : Call → Bool
  | Call.SaveGameSubmission _ gameID _ => q gameID
  | _ => false

/-- The number of calls of `SaveGameSubmission` in the history for game ids
that satisfy `q`. -/
def saveCount (q : String → Bool) (log : List Event) : Nat :=
  log.countP (fun e => e.call.savesWhere q)

/-- A script for three games in which the detail fetch of game 7 fails and
nothing else does. -/
def threeScript : Script :=
  { sampleScript [sampleGame 7 "" [], sampleGame 8 "" [], sampleGame 9 "" []] with
    failDetails := ["7"] }

/-- A schedule for `threeScript` in which the three game tasks overlap two by
two, as far as the two slots allow. -/
def threeSched : List Action :=
  schedHead ++ List.replicate 3 Action.main ++ List.replicate 3 (Action.worker 0) ++
    List.replicate 3 Action.main ++ List.replicate 12 (Action.worker 1) ++
    List.replicate 7 (Action.worker 0) ++ schedGame 2 12 ++ schedTail

/-- The state `threeSched` leads to. -/
def threeFinal : State :=
  (exec (sampleRun threeScript) (State.start (sampleRun threeScript).p) threeSched).getD
    (State.start (sampleRun threeScript).p)

/-- What holds of a finished run on a fresh feed: `ProcessJam` has returned
`nil`; one goroutine was started per entry, in the order of the feed;
`SaveGameSubmission` was called as many times as the feed has entries, once
for the id of each entry; and the save of the `i`-th entry succeeded and wrote
the submission its detail fetch left. -/
def SavedOnce (r : Run) (feed : List JamGame) (s : State) : Prop :=
  s.main = MainPC.returned none ∧
  s.workers.map (fun wk => wk.jg) = feed ∧
  saveCount (fun _ => true) s.log = feed.length ∧
  (∀ jg ∈ feed, saveCount (fun g => g == Itoa jg.Game.ID) s.log = 1) ∧
  ∀ i jg, feed[i]? = some jg → ∃ out,
    detailsEvent r i jg out ∈ s.log ∧
    savesOf (Caller.game i) s.log = [saveEvent r i jg (submissionAfter jg out) Outcome.ok]

/-- The number a string of decimal digits denotes (what `strconv.Atoi` reads
back from the output of `strconv.Itoa` for a natural number). -/
def decimalValue (cs : List Char) : Nat :=
  cs.foldl (fun n c => 10 * n + (c.toNat - 48)) 0

/-! ## main.go -/

/-- The command-line flags of `main.go` (l.21-28). -/
structure Flags where
  jam : String
  output : String
  dir : String
  workers : Int
  userAgent : String
  delay : Int
  media : Bool
  games : Bool
deriving DecidableEq, Repr

/-- The values of the flags when only `-jam` is given (l.18-28). -/
def Flags.default (jam : String) : Flags :=
  { jam := jam, output := "json", dir := "../data", workers := 2,
    userAgent := "Itchalyser/1.0 (https://github.com/Abstractmelon/Itchalyser)",
    delay := 1500, media := true, games := false }

/-- The configuration `cfg` of `main` (l.36-44). -/
def Flags.config (f : Flags) : Config :=
  { OutputFormat := f.output, OutputDir := f.dir, Workers := f.workers,
    UserAgent := f.userAgent, RequestDelay := f.delay, DownloadMedia := f.media,
    DownloadGames := f.games }

/-- The processor `proc` of `main` (l.50): the one processor on which every
jam run of the program is made. -/
def Flags.proc (f : Flags) : Processor := NewProcessor f.config

/-- The capacity of the jam-level semaphore: the size `main` makes its channel
with (main.go l.55). -/
def jamCapacity (cfg : Config) : Int := cfg.Workers

/-- The capacity of the game-level semaphore: the size `ProcessJam` makes its
channel with (processor.go l.83). -/
def Processor.gameCapacity (p : Processor) : Int := p.config.Workers

/-- Where the goroutine of one jam URL is (main.go l.61-80). -/
inductive JamPC
  /-- Lines 65-79: `TrimSpace`, `ExtractJamID` and, when it succeeds,
  `proc.ProcessJam`; none of them touches the semaphore or the wait group of
  `main`. -/
  | body
  /-- Line 63, deferred: the receive from the semaphore channel. -/
  | release
  /-- Line 62, deferred: `wg.Done()`. -/
  | wgDone
  /-- the goroutine has ended. -/
  | exited
deriving DecidableEq, Repr

/-- A started jam goroutine: its argument and its program counter. -/
structure JamTask where
  jamURL : String
  pc : JamPC
deriving DecidableEq, Repr

/-- Where `main` is from l.55 on. -/
inductive DriverPC
  /-- Line 57: the head of the range loop, with the URLs still to go through. -/
  | loop (rest : List String)
  /-- Line 59: after `wg.Add(1)`, at the send on the semaphore channel. -/
  | acquire (url : String) (rest : List String)
  /-- Line 61: the `go` statement. -/
  | spawn (url : String) (rest : List String)
  /-- Line 83: `wg.Wait()`. -/
  | wait
  /-- Line 84: every jam goroutine has ended. -/
  | finished
  /-- Line 55: `make` panicked on a negative size. -/
  | panicked
deriving DecidableEq, Repr

/-- The state of `main` from l.55 on. -/
structure Driver where
  pc : DriverPC
  tasks : List JamTask
  /-- the number of values in the channel `semaphore` of `main` -/
  semaphore : Nat
  /-- the counter of the wait group `wg` of `main` -/
  wg : Nat
deriving DecidableEq, Repr

/-- The state of `main` after l.55, for the URLs `strings.Split` gave. -/
def Driver.start (cfg : Config) (urls : List String) : Driver :=
  { pc := if jamCapacity cfg < 0 then DriverPC.panicked else DriverPC.loop urls,
    tasks := [], semaphore := 0, wg := 0 }

/-- One step of `main` or of a jam goroutine; `none` when the chosen one is
blocked or has ended. -/
def driverStep (cfg : Config) (d : Driver) : Action → Option Driver
  | Action.main =>
    match d.pc with
    | DriverPC.loop [] => some { d with pc := DriverPC.wait }
    | DriverPC.loop (url :: rest) => some { d with pc := DriverPC.acquire url rest, wg := d.wg + 1 }
    | DriverPC.acquire url rest =>
      if (d.semaphore : Int) < jamCapacity cfg then
        some { d with pc := DriverPC.spawn url rest, semaphore := d.semaphore + 1 }
      else none
    | DriverPC.spawn url rest =>
      some { d with pc := DriverPC.loop rest,
                    tasks := d.tasks ++ [{ jamURL := url, pc := JamPC.body }] }
    | DriverPC.wait => if d.wg = 0 then some { d with pc := DriverPC.finished } else none
    | DriverPC.finished => none
    | DriverPC.panicked => none
  | Action.worker i =>
    match d.tasks[i]? with
    | some t =>
      match t.pc with
      | JamPC.body => some { d with tasks := d.tasks.set i { t with pc := JamPC.release } }
      | JamPC.release =>
        if 0 < d.semaphore then
          some { d with tasks := d.tasks.set i { t with pc := JamPC.wgDone },
                        semaphore := d.semaphore - 1 }
        else none
      | JamPC.wgDone =>
        if 0 < d.wg then
          some { d with tasks := d.tasks.set i { t with pc := JamPC.exited }, wg := d.wg - 1 }
        else none
      | JamPC.exited => none
    | none => none

/-- The program under a schedule, from l.55 on. -/
def driverExec (cfg : Config) : Driver → List Action → Option Driver
  | d, [] => some d
  | d, a :: sched =>
    match driverStep cfg d a with
    | some d' => driverExec cfg d' sched
    | none => none

/-- The states `main` can be in for the URLs `urls`. -/
def DriverReachable (cfg : Config) (urls : List String) (d : Driver) : Prop :=
  ∃ sched, driverExec cfg (Driver.start cfg urls) sched = some d

/-- The jam goroutine holds a slot of the semaphore of `main`. -/
def JamPC.holdsSlot : JamPC → Bool
  | JamPC.body => true
  | JamPC.release => true
  | _ => false

/-- The slot `main` holds for the goroutine it is about to start. -/
def DriverPC.slot : DriverPC → Nat
  | DriverPC.spawn _ _ => 1
  | _ => 0

/-- The number of jam goroutines that have been admitted and have not given
their slot back yet: the simultaneous jam runs. -/
def Driver.admitted (d : Driver) : Nat :=
  d.tasks.countP (fun t => t.pc.holdsSlot) + d.pc.slot

/-! ## The criteria responses of `FetchGameDetails` -/

/-- Three tables of the Go package `unicode`: the two that `strings.ToLower`
and `strings.TrimSpace` are defined by, and `IsUpper`, which no function of
the program reads and which says what an upper-case letter is.  They come
from the Unicode standard and are taken as a parameter. -/
structure unicode where
  ToLower : Char → Char
  IsSpace : Char → Bool
  IsUpper : Char → Bool

/-- The function `strings.ToLower`: every character is mapped by
`unicode.ToLower`. -/
def ToLower (u : unicode) (s : String) : String := String.mk (s.data.map u.ToLower)

/-- The function `strings.TrimSpace`: the string without its leading and
trailing white space, as `unicode.IsSpace` defines it. -/
def TrimSpace (u : unicode) (s : String) : String :=
  String.mk ((s.data.dropWhile u.IsSpace).reverse.dropWhile u.IsSpace).reverse

/-- Replacement of every occurrence of the character `old` by the characters
`new`. -/
def replaceAll (old : Char) (new : List Char) : List Char → List Char
  | [] => []
  | c :: cs => if c = old then new ++ replaceAll old new cs else c :: replaceAll old new cs

/-- The call `strings.Replace(s, old, new, -1)` for a string `old` of one
character, as at l.247-248. -/
def Replace (s : String) (old : Char) (new : String) : String :=
  String.mk (replaceAll old new.data s.data)

/-- The key a question is stored under (l.246-248). -/
def criteriaKey (u : unicode) (questionText : String) : String :=
  let key := ToLower u questionText
  let key := Replace key '?' ""
  let key := Replace key ' ' "_"
  key

/-- The assignment `m[key] = value` on a Go map, as an association list. -/
def mapSet (m : List (String × String)) (key value : String) : List (String × String) :=
  (key, value) :: m.filter (fun kv => kv.1 ≠ key)

/-- The body of the loop over the elements `.field_responses p` (l.235-252)
for one element: `strong` is the text of its `strong` children and `text` its
text once they are removed; `m` is `game.CriteriaResponses`. -/
def criteriaStep (u : unicode) (m : List (String × String)) (strong text : String) :
    List (String × String) :=
  let questionText := TrimSpace u strong
  let answerText := TrimSpace u text
  if questionText ≠ "" ∧ answerText ≠ "" then
    mapSet m (criteriaKey u questionText) answerText
  else m

/-- The field `CriteriaResponses` of the record `FetchGameDetails` returns
(l.234-253), for the elements `.field_responses p` of the page in document
order, each given by the text of its `strong` children and its remaining
text. -/
def criteriaResponses (u : unicode) (paragraphs : List (String × String)) :
    List (String × String) :=
  paragraphs.foldl (fun m p => criteriaStep u m p.1 p.2) []

/-- The element is stored under `key`: its question and its answer are not
empty once trimmed, and the question normalises to `key`. -/
def storedUnder (u : unicode) (key : String) (p : String × String) : Bool :=
  decide (TrimSpace u p.1 ≠ "" ∧ TrimSpace u p.2 ≠ "" ∧ criteriaKey u (TrimSpace u p.1) = key)

/-- The restriction of the tables of `unicode` to ASCII: the letters `A` to
`Z` are the upper-case letters and have a lower-case form, and the white space
is the space and the characters from tab to carriage return. -/
def unicode.ascii : unicode :=
  { ToLower := fun c => if 65 ≤ c.toNat ∧ c.toNat ≤ 90 then Char.ofNat (c.toNat + 32) else c
    IsSpace := fun c => decide (c = ' ' ∨ (9 ≤ c.toNat ∧ c.toNat ≤ 13))
    IsUpper := fun c => decide (65 ≤ c.toNat ∧ c.toNat ≤ 90) }

/-- The restriction of the tables of `unicode` to ASCII and to the two letters
U+03D2 (Greek upsilon with hook symbol) and U+2102 (double-struck capital C).
Unicode puts both in the category of the upper-case letters and gives neither
a lower-case form: `unicode.IsUpper` is true of them and `unicode.ToLower`
leaves them as they are. -/
def unicode.capitals : unicode :=
  { unicode.ascii with
    IsUpper := fun c => unicode.ascii.IsUpper c || decide (c.toNat = 0x3D2 ∨ c.toNat = 0x2102) }

/-- The elements of a sample page: two answered questions, a question asked
twice in different letter case, a question without answer and an answer
without question. -/
def sampleParagraphs : List (String × String) :=
  [(" Theme? ", " yes "), ("Made Solo?", "No"), ("Engine", "   "), ("", "stray text"),
    ("MADE solo", "Yes")]

/-! ## Notions for the media paths -/

/-- A file name that `filepath.Clean` keeps as it is: not empty, without
separator, and neither `.` nor `..`. -/
def PlainName (name : String) : Prop :=
  '/' ∉ name.data ∧ name ≠ "" ∧ name ≠ "." ∧ name ≠ ".."

/-- The destination path of a `DownloadFile` call. -/
def Call.dest? : Call → Option String
  | Call.DownloadFile _ destPath => some destPath
  | _ => none

/-- The destination paths of the `DownloadFile` calls among the calls `t`, in
order. -/
def destsOf (t : List Event) : List String :=
  (downloadCalls t).filterMap Call.dest?

/-- The destinations of the downloads a worker has made so far, by program
counter: none before the cover download; pairwise distinct afterwards, and
inside the screenshot loop at index `k` each of them is the cover path or the
path of a screenshot at an index below `k`. -/
def DestTrack (r : Run) (jg : JamGame) (pc : WorkerPC) (t : List Event) : Prop :=
  match pc with
  | WorkerPC.mediaShots _ k =>
    (destsOf t).Nodup ∧
      ∀ p ∈ destsOf t, (∃ game, p = r.coverPath (Itoa jg.Game.ID) game) ∨
        ∃ j url, j < k ∧ p = r.screenshotPath (Itoa jg.Game.ID) j url
  | WorkerPC.files _ => (destsOf t).Nodup
  | WorkerPC.release => (destsOf t).Nodup
  | WorkerPC.wgDone => (destsOf t).Nodup
  | WorkerPC.exited => (destsOf t).Nodup
  | _ => destsOf t = []

/-! ## Calls that share the processor -/

/-- A scheduling choice when other calls of `ProcessJam` run at the same time
on the same processor, as `main` starts them (main.go l.50, l.57-81): a
goroutine of this call moves, or a game worker of another call claims a game
id (l.111-113 in that call), which writes the id into the cache the calls
share. -/
inductive SharedAction
  | own (a : Action)
  | other (gameID : String)
deriving DecidableEq, Repr

/-- One step of the run among the other calls on its processor: a step of one
of its own goroutines, or a write of another call into `p.gameCache`. -/
def sharedStep (r : Run) (s : State) : SharedAction → Option State
  | SharedAction.own a => step r s a
  | SharedAction.other gameID => some { s with gameCache := gameID :: s.gameCache }

/-- The run among the other calls on its processor, under a schedule. -/
def sharedExec (r : Run) : State → List SharedAction → Option State
  | s, [] => some s
  | s, a :: sched =>
    match sharedStep r s a with
    | some s' => sharedExec r s' sched
    | none => none

/-- The game ids the other calls claim under a schedule. -/
def claimedByOthers (sched : List SharedAction) : List String :=
  sched.filterMap (fun a =>
    match a with
    | SharedAction.other gameID => some gameID
    | SharedAction.own _ => none)

/-- The state of the call among other calls and the state of the call alone
that goes with it: they differ by the cache only, and the shared cache holds
what the cache of the call alone holds and what the others claimed. -/
def Alone (others : List String) (s t : State) : Prop :=
  s = { t with gameCache := s.gameCache } ∧
  ∀ g, g ∈ s.gameCache ↔ g ∈ t.gameCache ∨ g ∈ others

/-- The schedule `threeSched` for `threeScript`, with another call that claims
game id 5, which is not in the feed, once the feed is fetched. -/
def threeShared : List SharedAction :=
  schedHead.map SharedAction.own ++ [SharedAction.other "5"] ++
    (threeSched.drop 5).map SharedAction.own

/-- The state `threeShared` leads to. -/
def threeSharedFinal : State :=
  (sharedExec (sampleRun threeScript) (State.start (sampleRun threeScript).p) threeShared).getD
    (State.start (sampleRun threeScript).p)

/-- A schedule for `threeScript` in which another call claims game id 8, which
is in the feed, once the feed is fetched and before the jam loop reaches the
entry. -/
def lateClaimSched : List SharedAction :=
  schedHead.map SharedAction.own ++ [SharedAction.other "8"] ++
    (schedGame 0 10 ++ [Action.main] ++ schedGame 1 12 ++ schedTail).map SharedAction.own

/-- The state `lateClaimSched` leads to. -/
def lateClaimFinal : State :=
  (sharedExec (sampleRun threeScript) (State.start (sampleRun threeScript).p)
    lateClaimSched).getD (State.start (sampleRun threeScript).p)

/-! # Theorems -/

/-! ## The transition system: frames and induction -/

@[simp] theorem State.record_log (s : State) (who : Caller) (c : Call) (o : Outcome) :
    (s.record who c o).log = s.log ++ [{ who := who, call := c, out := o }] := rfl
@[simp] theorem State.record_main (s : State) (who : Caller) (c : Call) (o : Outcome) :
    (s.record who c o).main = s.main := rfl
@[simp] theorem State.record_workers (s : State) (who : Caller) (c : Call) (o : Outcome) :
    (s.record who c o).workers = s.workers := rfl
@[simp] theorem State.record_gameCache (s : State) (who : Caller) (c : Call) (o : Outcome) :
    (s.record who c o).gameCache = s.gameCache := rfl
@[simp] theorem State.record_semaphore (s : State) (who : Caller) (c : Call) (o : Outcome) :
    (s.record who c o).semaphore = s.semaphore := rfl
@[simp] theorem State.record_wg (s : State) (who : Caller) (c : Call) (o : Outcome) :
    (s.record who c o).wg = s.wg := rfl

@[simp] theorem own_nil (who : Caller) : own who [] = [] := rfl

theorem own_append (who : Caller) (l₁ l₂ : List Event) :
    own who (l₁ ++ l₂) = own who l₁ ++ own who l₂ := by
  simp [own]

@[simp] theorem own_single_self (who : Caller) (c : Call) (o : Outcome) :
    own who [{ who := who, call := c, out := o }] = [{ who := who, call := c, out := o }] := by
  simp [own]

theorem own_single_other {who who' : Caller} (h : who' ≠ who) (c : Call) (o : Outcome) :
    own who [{ who := who', call := c, out := o }] = [] := by
  simp [own, h]

/-- A worker step changes neither the jam loop nor the list of workers, and
adds to the history at most one call, made by that worker. -/
theorem workerStep_frame {r : Run} {i : Nat} {jg : JamGame} {pc pc' : WorkerPC} {s s' : State}
    (h : workerStep r i jg pc s = some (pc', s')) :
    s'.main = s.main ∧ s'.workers = s.workers ∧
    (s'.log = s.log ∨
      ∃ c o, s'.log = s.log ++ [{ who := Caller.game i, call := c, out := o }]) := by
  cases pc <;> simp only [workerStep] at h <;> (try split at h) <;> (try split at h) <;>
    cases h <;> simp

/-- A step of the jam loop leaves the cache and the started workers alone,
starts at most one worker, and adds to the history at most one call, made by
the jam loop. -/
theorem mainStep_frame {r : Run} {s s' : State} (h : mainStep r s = some s') :
    s'.gameCache = s.gameCache ∧
    (s'.workers = s.workers ∨ ∃ jg, s'.workers = s.workers ++ [{ jg := jg, pc := WorkerPC.claim }]) ∧
    (s'.log = s.log ∨ ∃ c o, s'.log = s.log ++ [{ who := Caller.jam, call := c, out := o }]) := by
  unfold mainStep at h
  split at h <;> (try split at h) <;> cases h <;> simp

theorem exec_append (r : Run) (s : State) (a b : List Action) :
    exec r s (a ++ b) = (exec r s a).bind (fun s' => exec r s' b) := by
  induction a generalizing s with
  | nil => rfl
  | cons x a ih =>
    simp only [List.cons_append, exec]
    cases step r s x with
    | none => rfl
    | some s' => exact ih s'

theorem reachable_start (r : Run) : Reachable r (State.start r.p) := ⟨[], rfl⟩

theorem reachable_step {r : Run} {s s' : State} {a : Action}
    (hs : Reachable r s) (h : step r s a = some s') : Reachable r s' := by
  obtain ⟨sched, hsched⟩ := hs
  refine ⟨sched ++ [a], ?_⟩
  rw [exec_append, hsched]
  simp [exec, h]

theorem reachable_exec {r : Run} {s s' : State} {sched : List Action}
    (hs : Reachable r s) (h : exec r s sched = some s') : Reachable r s' := by
  obtain ⟨sched0, hsched⟩ := hs
  refine ⟨sched0 ++ sched, ?_⟩
  rw [exec_append, hsched]
  simpa using h

/-- Induction over the reachable states. -/
theorem reachable_induction {r : Run} (P : State → Prop)
    (h0 : P (State.start r.p))
    (hstep : ∀ s a s', Reachable r s → P s → step r s a = some s' → P s') :
    ∀ s, Reachable r s → P s := by
  intro s ⟨sched, hsched⟩
  induction sched using List.reverseRecOn generalizing s with
  | nil => cases hsched; exact h0
  | append_singleton sched a ih =>
    rw [exec_append] at hsched
    cases hmid : exec r (State.start r.p) sched with
    | none => simp [hmid] at hsched
    | some m =>
      simp only [hmid, Option.some_bind, exec] at hsched
      cases hst : step r m a with
      | none => simp [hst] at hsched
      | some s'' =>
        simp only [hst, Option.some.injEq] at hsched
        subst hsched
        exact hstep m a _ ⟨sched, hmid⟩ (ih m hmid) hst

theorem step_worker_inv {r : Run} {s s' : State} {i : Nat} (h : step r s (Action.worker i) = some s') :
    ∃ wk pc' s'', s.workers[i]? = some wk ∧ workerStep r i wk.jg wk.pc s = some (pc', s'') ∧
      s' = { s'' with workers := s''.workers.set i { jg := wk.jg, pc := pc' } } := by
  simp only [step] at h
  split at h
  · rename_i wk hwk
    split at h
    · rename_i pc' s'' hw
      cases h
      exact ⟨wk, pc', s'', hwk, hw, rfl⟩
    · cases h
  · cases h

theorem logWF {r : Run} : ∀ s, Reachable r s → LogWF s := by
  apply reachable_induction
  · intro e he; simp [State.start] at he
  · intro s a s' _ ih h
    cases a with
    | main =>
      obtain ⟨-, hw, hl⟩ := mainStep_frame h
      intro e he i hi
      have hlen : s.workers.length ≤ s'.workers.length := by
        rcases hw with hw | ⟨jg, hw⟩ <;> simp [hw]
      rcases hl with hl | ⟨c, o, hl⟩
      · rw [hl] at he; exact lt_of_lt_of_le (ih e he i hi) hlen
      · rw [hl] at he
        simp only [List.mem_append, List.mem_singleton] at he
        rcases he with he | he
        · exact lt_of_lt_of_le (ih e he i hi) hlen
        · subst he; cases hi
    | worker j =>
      obtain ⟨wk, pc', s'', hwk, hw, rfl⟩ := step_worker_inv h
      obtain ⟨-, hws, hl⟩ := workerStep_frame hw
      have hj : j < s.workers.length := by
        exact (List.getElem?_eq_some_iff.mp hwk).1
      intro e he i hi
      simp only [List.length_set, hws] at he ⊢
      rcases hl with hl | ⟨c, o, hl⟩
      · rw [hl] at he; exact ih e he i hi
      · rw [hl] at he
        simp only [List.mem_append, List.mem_singleton] at he
        rcases he with he | he
        · exact ih e he i hi
        · subst he; cases hi; exact hj

theorem own_eq_nil_of_logWF {s : State} (h : LogWF s) {i : Nat} (hi : s.workers.length ≤ i) :
    own (Caller.game i) s.log = [] := by
  simp only [own, List.filter_eq_nil_iff, decide_eq_true_eq]
  intro e he hw
  exact absurd (h e he i hw) (by omega)

/-- Lifting of a property of one worker to the run: a property that holds
when the worker starts and that every step of the worker keeps holds of every
worker in every reachable state, whatever the other goroutines do. -/
theorem worker_invariant {r : Run}
    (Q : Nat → JamGame → WorkerPC → List Event → Prop)
    (hinit : ∀ i jg, Q i jg WorkerPC.claim [])
    (hstep : ∀ i jg pc s pc' s', workerStep r i jg pc s = some (pc', s') →
      Q i jg pc (own (Caller.game i) s.log) → Q i jg pc' (own (Caller.game i) s'.log)) :
    ∀ s, Reachable r s → ∀ i wk, s.workers[i]? = some wk →
      Q i wk.jg wk.pc (own (Caller.game i) s.log) := by
  apply reachable_induction
  · intro i wk h; simp [State.start] at h
  · intro s a s' hr ih h i wk hwk
    have hwf := logWF s hr
    cases a with
    | main =>
      obtain ⟨-, hw, hl⟩ := mainStep_frame h
      have hown : own (Caller.game i) s'.log = own (Caller.game i) s.log := by
        rcases hl with hl | ⟨c, o, hl⟩
        · rw [hl]
        · rw [hl, own_append, own_single_other (by simp), List.append_nil]
      rw [hown]
      rcases hw with hw | ⟨jg, hw⟩
      · rw [hw] at hwk; exact ih i wk hwk
      · rw [hw] at hwk
        by_cases hi : i < s.workers.length
        · rw [List.getElem?_append_left hi] at hwk
          exact ih i wk hwk
        · rw [List.getElem?_append_right (by omega)] at hwk
          have h0 : i - s.workers.length = 0 := by
            by_contra hne
            rw [List.getElem?_eq_none (by simp; omega)] at hwk
            cases hwk
          rw [h0] at hwk
          simp only [List.getElem?_cons_zero, Option.some.injEq] at hwk
          subst hwk
          rw [own_eq_nil_of_logWF hwf (by omega)]
          exact hinit i jg
    | worker j =>
      obtain ⟨wk0, pc', s'', hwk0, hw, rfl⟩ := step_worker_inv h
      obtain ⟨-, hws, hl⟩ := workerStep_frame hw
      simp only [hws] at hwk ⊢
      by_cases hij : j = i
      · subst hij
        have hj : j < s.workers.length := by
          exact (List.getElem?_eq_some_iff.mp hwk0).1
        rw [List.getElem?_set_self hj] at hwk
        cases hwk
        exact hstep j wk0.jg wk0.pc s pc' s'' hw (ih j wk0 hwk0)
      · rw [List.getElem?_set_ne hij] at hwk
        have hown : own (Caller.game i) s''.log = own (Caller.game i) s.log := by
          rcases hl with hl | ⟨c, o, hl⟩
          · rw [hl]
          · rw [hl, own_append, own_single_other (by simpa using hij), List.append_nil]
        rw [hown]
        exact ih i wk hwk

/-- Lifting of a property of the jam loop to the run. -/
theorem main_invariant {r : Run} (Q : MainPC → List Event → Prop)
    (hinit : Q MainPC.createDir [])
    (hstep : ∀ s s', mainStep r s = some s' →
      Q s.main (own Caller.jam s.log) → Q s'.main (own Caller.jam s'.log)) :
    ∀ s, Reachable r s → Q s.main (own Caller.jam s.log) := by
  apply reachable_induction
  · exact hinit
  · intro s a s' _ ih h
    cases a with
    | main => exact hstep s s' h ih
    | worker j =>
      obtain ⟨wk0, pc', s'', hwk0, hw, rfl⟩ := step_worker_inv h
      obtain ⟨hm, -, hl⟩ := workerStep_frame hw
      have hown : own Caller.jam s''.log = own Caller.jam s.log := by
        rcases hl with hl | ⟨c, o, hl⟩
        · rw [hl]
        · rw [hl, own_append, own_single_other (by simp), List.append_nil]
      simp only [hown, hm]
      exact ih

/-! ## The semaphore and the wait group -/

theorem countP_set_add {α : Type} (q : α → Bool) (l : List α) (i : Nat) (a b : α)
    (h : l[i]? = some b) :
    (l.set i a).countP q + (if q b then 1 else 0) = l.countP q + (if q a then 1 else 0) := by
  induction l generalizing i with
  | nil => simp at h
  | cons x l ih =>
    cases i with
    | zero =>
      simp only [List.getElem?_cons_zero, Option.some.injEq] at h
      subst h
      simp only [List.set_cons_zero, List.countP_cons]
      omega
    | succ i =>
      simp only [List.getElem?_cons_succ] at h
      have := ih i h
      simp only [List.set_cons_succ, List.countP_cons]
      omega

/-- How a worker step moves the semaphore and the wait group. -/
theorem workerStep_account {r : Run} {i : Nat} {jg : JamGame} {pc pc' : WorkerPC} {s s' : State}
    (h : workerStep r i jg pc s = some (pc', s')) :
    s'.semaphore + (if pc.holdsSlot then 1 else 0) = s.semaphore + (if pc'.holdsSlot then 1 else 0) ∧
    s'.wg + (if pc.counted then 1 else 0) = s.wg + (if pc'.counted then 1 else 0) ∧
    s'.semaphore ≤ s.semaphore := by
  cases pc <;> simp only [workerStep] at h <;> (try split at h) <;> (try split at h) <;>
    cases h <;> simp [WorkerPC.holdsSlot, WorkerPC.counted] <;> omega

theorem accounted {r : Run} : ∀ s, Reachable r s → Accounted r s := by
  apply reachable_induction
  · simp [Accounted, State.start, admitted, MainPC.slot, MainPC.added]
  · intro s a s' _ ih h
    obtain ⟨h1, h2, h3⟩ := ih
    cases a with
    | main =>
      simp only [step, mainStep] at h
      split at h <;> (try split at h) <;> cases h <;>
        simp_all [Accounted, admitted, MainPC.slot, MainPC.added, WorkerPC.holdsSlot,
          WorkerPC.counted] <;> (try split_ifs) <;> first | omega | simp
    | worker j =>
      obtain ⟨wk, pc', s'', hwk, hw, rfl⟩ := step_worker_inv h
      obtain ⟨hm, hws, -⟩ := workerStep_frame hw
      obtain ⟨ha, hb, hc⟩ := workerStep_account hw
      have e1 := countP_set_add (fun wk : Worker => wk.pc.holdsSlot) s.workers j
        { jg := wk.jg, pc := pc' } wk hwk
      have e2 := countP_set_add (fun wk : Worker => wk.pc.counted) s.workers j
        { jg := wk.jg, pc := pc' } wk hwk
      dsimp only at e1 e2
      simp only [Accounted, admitted, hm, hws] at h1 h2 ⊢
      refine ⟨by omega, by omega, ?_⟩
      rcases h3 with h3 | h3
      · left; omega
      · right; omega

/-! ## Termination -/

theorem sum_map_set_add {α : Type} (f : α → Nat) (l : List α) (i : Nat) (a b : α)
    (h : l[i]? = some b) :
    ((l.set i a).map f).sum + f b = (l.map f).sum + f a := by
  induction l generalizing i with
  | nil => simp at h
  | cons x l ih =>
    cases i with
    | zero =>
      simp only [List.getElem?_cons_zero, Option.some.injEq] at h
      subst h
      simp only [List.set_cons_zero, List.map_cons, List.sum_cons]
      omega
    | succ i =>
      simp only [List.getElem?_cons_succ] at h
      have := ih i h
      simp only [List.set_cons_succ, List.map_cons, List.sum_cons]
      omega

theorem measureLt_wf : WellFounded measureLt :=
  WellFounded.prod_lex Nat.lt_wfRel.wf (WellFounded.prod_lex Nat.lt_wfRel.wf Nat.lt_wfRel.wf)

theorem measureLt_iff (a b c a' b' c' : Nat) :
    measureLt (a', b', c') (a, b, c) ↔ a' < a ∨ (a' = a ∧ (b' < b ∨ (b' = b ∧ c' < c))) := by
  simp [measureLt, Prod.lex_def]

/-- A worker step decreases the measure of the worker. -/
theorem workerStep_measure {r : Run} {i : Nat} {jg : JamGame} {pc pc' : WorkerPC} {s s' : State}
    (h : workerStep r i jg pc s = some (pc', s')) :
    pc'.early < pc.early ∨ (pc'.early = pc.early ∧ pc'.late < pc.late) := by
  cases pc <;> simp only [workerStep] at h <;> (try split at h) <;> (try split at h) <;>
    cases h <;> simp [WorkerPC.early, WorkerPC.late]
  rename_i game k _ screenshot hk
  have := (List.getElem?_eq_some_iff.mp hk).1
  omega

theorem step_measure {r : Run} {s s' : State} (h : Follows r s' s) :
    measureLt s'.measure s.measure := by
  obtain ⟨a, h⟩ := h
  rw [State.measure, State.measure, measureLt_iff]
  cases a with
  | main =>
    simp only [step, mainStep] at h
    split at h <;> (try split at h) <;> cases h <;>
      simp_all [MainPC.stage, MainPC.early, MainPC.late, WorkerPC.early, WorkerPC.late] <;>
      (try split_ifs) <;> (try simp) <;> omega
  | worker j =>
    obtain ⟨wk, pc', s'', hwk, hw, rfl⟩ := step_worker_inv h
    obtain ⟨hm, hws, -⟩ := workerStep_frame hw
    have e1 := sum_map_set_add (fun wk : Worker => wk.pc.early) s.workers j
      { jg := wk.jg, pc := pc' } wk hwk
    have e2 := sum_map_set_add (fun wk : Worker => wk.pc.late) s.workers j
      { jg := wk.jg, pc := pc' } wk hwk
    dsimp only at e1 e2
    have := workerStep_measure hw
    refine Or.inr ⟨by simp only [hm], ?_⟩
    simp only [hm, hws]
    omega

/-- No run goes on forever. -/
theorem follows_wf (r : Run) : WellFounded (Follows r) :=
  Subrelation.wf (fun h => step_measure h) (InvImage.wf State.measure measureLt_wf)

/-! ## Progress -/

theorem step_worker_of {r : Run} {s s'' : State} {j : Nat} {wk : Worker} {pc' : WorkerPC}
    (hwk : s.workers[j]? = some wk) (hw : workerStep r j wk.jg wk.pc s = some (pc', s'')) :
    step r s (Action.worker j) =
      some { s'' with workers := s''.workers.set j { jg := wk.jg, pc := pc' } } := by
  simp [step, hwk, hw]

theorem all_exited_of_wg_zero {r : Run} {s : State} (h : Accounted r s) (hwg : s.wg = 0) :
    ∀ wk ∈ s.workers, wk.pc = WorkerPC.exited := by
  obtain ⟨-, h2, -⟩ := h
  have hc : s.workers.countP (fun wk => wk.pc.counted) = 0 := by omega
  rw [List.countP_eq_zero] at hc
  intro wk hwk
  have := hc wk hwk
  cases hpc : wk.pc <;> simp [hpc, WorkerPC.counted] at this ⊢

theorem quiet {r : Run} : ∀ s, Reachable r s → Quiet r s := by
  apply reachable_induction
  · simp [Quiet, State.start, MainPC.stage]
  · intro s a s' hr ih h
    obtain ⟨h1, h2, h3, h4⟩ := ih
    cases a with
    | main =>
      have hacc := accounted s hr
      by_cases hwait : s.main = MainPC.wait
      · simp only [step, mainStep, hwait] at h
        split at h
        · cases h
          simpa [Quiet, MainPC.stage] using all_exited_of_wg_zero hacc (by assumption)
        · cases h
      · simp only [step, mainStep] at h
        split at h <;> (try split at h) <;> cases h <;> simp_all [Quiet, MainPC.stage]
    | worker j =>
      obtain ⟨wk, pc', s'', hwk, hw, rfl⟩ := step_worker_inv h
      obtain ⟨hm, hws, -⟩ := workerStep_frame hw
      have hmem : wk ∈ s.workers := List.getElem?_mem hwk
      refine ⟨?_, ?_, ?_, ?_⟩
      · intro hs; simp only [hm] at hs; rw [h1 hs] at hmem; cases hmem
      · intro err hs; simp only [hm] at hs; rw [h2 err hs] at hmem; cases hmem
      · intro hs; simp only [hm] at hs
        have := h3 hs wk hmem
        rw [this] at hw
        simp [workerStep] at hw
      · intro hs; simp only [hm] at hs; exact h4 hs

theorem workerStep_enabled (r : Run) (i : Nat) (jg : JamGame) (pc : WorkerPC) (s : State)
    (h1 : pc ≠ WorkerPC.exited) (h2 : pc = WorkerPC.release → 0 < s.semaphore)
    (h3 : pc = WorkerPC.wgDone → 0 < s.wg) : ∃ out, workerStep r i jg pc s = some out := by
  cases pc <;> simp only [workerStep] <;> (try split) <;> (try split) <;> simp_all

theorem mainStep_enabled (r : Run) (s : State)
    (h1 : ∀ jg rest, s.main = MainPC.acquire jg rest → (s.semaphore : Int) < r.cfg.Workers)
    (h2 : s.main = MainPC.wait → s.wg = 0)
    (h3 : ∀ err, s.main ≠ MainPC.returned err) (h4 : s.main ≠ MainPC.panicked) :
    ∃ s', mainStep r s = some s' := by
  unfold mainStep
  split <;> (try split) <;> simp_all

/-- No deadlock: with a worker limit of at least 1, a reachable state in which
`ProcessJam` has not returned has a goroutine that can move. -/
theorem progress {r : Run} (hW : 1 ≤ r.cfg.Workers) (s : State)
    (hr : Reachable r s) : s.returned ∨ ∃ a s', step r s a = some s' := by
  have hacc := accounted s hr
  obtain ⟨hsem, hwg, -⟩ := hacc
  have hq := quiet s hr
  by_cases hret : s.returned
  · exact Or.inl hret
  right
  have hnr : ∀ err, s.main ≠ MainPC.returned err := fun err h => hret ⟨err, h⟩
  have hnp : s.main ≠ MainPC.panicked := fun h => by have := hq.2.2.2 h; omega
  -- a worker that is still counted by the wait group can move
  have hworker : ∀ wk ∈ s.workers, wk.pc.counted = true → ∃ a s', step r s a = some s' := by
    intro wk hmem hc
    obtain ⟨j, hj⟩ := List.mem_iff_getElem?.mp hmem
    have hen : ∃ out, workerStep r j wk.jg wk.pc s = some out := by
      apply workerStep_enabled
      · intro h; simp [h, WorkerPC.counted] at hc
      · intro h
        have : 0 < s.workers.countP (fun wk => wk.pc.holdsSlot) :=
          List.countP_pos_iff.mpr ⟨wk, hmem, by simp [h, WorkerPC.holdsSlot]⟩
        simp only [admitted] at hsem
        omega
      · intro h
        have : 0 < s.workers.countP (fun wk => wk.pc.counted) :=
          List.countP_pos_iff.mpr ⟨wk, hmem, hc⟩
        omega
    obtain ⟨⟨pc', s''⟩, hw⟩ := hen
    exact ⟨Action.worker j, _, step_worker_of hj hw⟩
  by_cases hacq : ∃ jg rest, s.main = MainPC.acquire jg rest ∧ ¬ (s.semaphore : Int) < r.cfg.Workers
  · obtain ⟨jg, rest, hm, hfull⟩ := hacq
    have hpos : 0 < s.workers.countP (fun wk => wk.pc.holdsSlot) := by
      simp only [admitted, hm, MainPC.slot] at hsem
      omega
    obtain ⟨wk, hmem, hh⟩ := List.countP_pos_iff.mp hpos
    refine hworker wk hmem ?_
    cases hpc : wk.pc <;> simp [hpc, WorkerPC.holdsSlot, WorkerPC.counted] at hh ⊢
  by_cases hwait : s.main = MainPC.wait ∧ s.wg ≠ 0
  · have hpos : 0 < s.workers.countP (fun wk => wk.pc.counted) := by
      simp only [hwait.1, MainPC.added] at hwg
      omega
    obtain ⟨wk, hmem, hh⟩ := List.countP_pos_iff.mp hpos
    exact hworker wk hmem hh
  obtain ⟨s', hs'⟩ := mainStep_enabled r s
    (fun jg rest hm => by by_contra hc; exact hacq ⟨jg, rest, hm, hc⟩)
    (fun hm => by by_contra hc; exact hwait ⟨hm, hc⟩) hnr hnp
  exact ⟨Action.main, s', hs'⟩

/-- With a worker limit of at least 1, every reachable state can be run on
until `ProcessJam` returns. -/
theorem can_return {r : Run} (hW : 1 ≤ r.cfg.Workers) (s : State)
    (hr : Reachable r s) : ∃ sched s', exec r s sched = some s' ∧ s'.returned := by
  induction s using (follows_wf r).induction with
  | _ s ih =>
    rcases progress hW s hr with hret | ⟨a, s', hstep⟩
    · exact ⟨[], s, rfl, hret⟩
    · obtain ⟨sched, s'', hex, hret⟩ := ih s' ⟨a, hstep⟩ (reachable_step hr hstep)
      exact ⟨a :: sched, s'', by simp [exec, hstep, hex], hret⟩

/-! ## Fatal steps -/

theorem fatalFailed_append (l₁ l₂ : List Event) :
    fatalFailed (l₁ ++ l₂) = (fatalFailed l₁ || fatalFailed l₂) := by
  simp [fatalFailed]

theorem MainPC.failed_iff (pc : MainPC) :
    pc.failed = true ↔ ∃ err, pc = MainPC.returned (some err) := by
  cases pc with
  | returned err => cases err <;> simp [MainPC.failed]
  | _ => simp [MainPC.failed]

/-- In every reachable state, `ProcessJam` has returned an error exactly when
a fatal step has failed. -/
theorem failed_eq_fatalFailed {r : Run} :
    ∀ s, Reachable r s → s.main.failed = fatalFailed s.log := by
  apply reachable_induction
  · simp [State.start, fatalFailed, MainPC.failed]
  · intro s a s' _ ih h
    cases a with
    | main =>
      simp only [step, mainStep] at h
      split at h <;> (try split at h) <;> cases h <;> (try split_ifs) <;>
        simp_all [fatalFailed_append, MainPC.failed] <;>
        simp [fatalFailed, Event.fatal, Call.fatalStep, Event.failed]
    | worker j =>
      obtain ⟨wk, pc', s'', hwk, hw, rfl⟩ := step_worker_inv h
      obtain ⟨hm, -, hl⟩ := workerStep_frame hw
      simp only [hm]
      rcases hl with hl | ⟨c, o, hl⟩
      · rw [hl]; exact ih
      · rw [hl, fatalFailed_append, ih]
        simp [fatalFailed, Event.fatal]

/-! ## The moves of a game worker -/

/-- Every step of a worker is a move. -/
theorem workerStep_move {r : Run} {i : Nat} {jg : JamGame} {pc pc' : WorkerPC} {s s' : State}
    (h : workerStep r i jg pc s = some (pc', s')) :
    ∃ evs, s'.log = s.log ++ evs ∧ Move r i jg pc pc' evs := by
  cases pc with
  | claim => cases h; exact ⟨[], (List.append_nil _).symm, Move.claim⟩
  | build => cases h; exact ⟨[], (List.append_nil _).symm, Move.build⟩
  | fetch game =>
    simp only [workerStep] at h
    split at h <;> cases h
    · exact ⟨[_], rfl, Move.fetchFailed _ _⟩
    · exact ⟨[_], rfl, Move.fetched _ _⟩
  | save game =>
    simp only [workerStep] at h
    split at h <;> cases h
    · exact ⟨[_], rfl, Move.saveFailed _ _⟩
    · exact ⟨[_], rfl, Move.saved _⟩
  | media game =>
    simp only [workerStep] at h
    split at h
    · rename_i hm
      split at h <;> cases h
      · exact ⟨[_], rfl, Move.mediaDirFailed _ _ hm⟩
      · exact ⟨[_], rfl, Move.mediaDir _ hm⟩
    · rename_i hm
      cases h
      exact ⟨[], (List.append_nil _).symm, Move.mediaOff _ (by simpa using hm)⟩
  | mediaCover game =>
    simp only [workerStep] at h
    split at h
    · rename_i hc
      cases h
      exact ⟨[_], rfl, Move.cover _ _ hc⟩
    · rename_i hc
      cases h
      exact ⟨[], (List.append_nil _).symm, Move.noCover _ (by simpa using hc)⟩
  | mediaShots game k =>
    simp only [workerStep] at h
    split at h
    · rename_i screenshot hk
      cases h
      exact ⟨[_], rfl, Move.shot _ _ _ _ hk⟩
    · rename_i hk
      cases h
      exact ⟨[], (List.append_nil _).symm, Move.shotsDone _ _ hk⟩
  | files game =>
    simp only [workerStep] at h
    split at h
    · rename_i hf
      cases h
      exact ⟨[_], rfl, Move.filesDir _ _ hf⟩
    · rename_i hf
      cases h
      exact ⟨[], (List.append_nil _).symm, Move.filesOff _ hf⟩
  | release =>
    simp only [workerStep] at h
    split at h <;> cases h
    exact ⟨[], (List.append_nil _).symm, Move.release⟩
  | wgDone =>
    simp only [workerStep] at h
    split at h <;> cases h
    exact ⟨[], (List.append_nil _).symm, Move.wgDone⟩
  | exited => cases h

theorem Move.who {r : Run} {i : Nat} {jg : JamGame} {pc pc' : WorkerPC} {evs : List Event}
    (h : Move r i jg pc pc' evs) : ∀ e ∈ evs, e.who = Caller.game i := by
  cases h <;> simp [detailsEvent, saveEvent, createEvent, downloadEvent]

theorem own_eq_self {who : Caller} {evs : List Event} (h : ∀ e ∈ evs, e.who = who) :
    own who evs = evs := by
  simp only [own, List.filter_eq_self, decide_eq_true_eq]
  exact h

/-- Lifting of a property of one worker to the run, by moves: a property of
the program counter and of the calls made so far that holds at the start and
that every move keeps holds of every worker in every reachable state. -/
theorem move_invariant {r : Run}
    (Q : Nat → JamGame → WorkerPC → List Event → Prop)
    (hinit : ∀ i jg, Q i jg WorkerPC.claim [])
    (hmove : ∀ i jg pc pc' evs t, Move r i jg pc pc' evs → Q i jg pc t → Q i jg pc' (t ++ evs)) :
    ∀ s, Reachable r s → ∀ i wk, s.workers[i]? = some wk →
      Q i wk.jg wk.pc (own (Caller.game i) s.log) := by
  apply worker_invariant Q hinit
  intro i jg pc s pc' s' h hq
  obtain ⟨evs, hl, hm⟩ := workerStep_move h
  rw [hl, own_append, own_eq_self hm.who]
  exact hmove i jg pc pc' evs _ hm hq

theorem LateShape.keep {r : Run} {i : Nat} {jg : JamGame} {held held' : Option GameSubmission}
    {t evs : List Event} (h : LateShape r i jg held t)
    (hheld : ∀ game, held' = some game → held = some game)
    (hevs : ∀ e ∈ evs, e.call.isSave = false ∧ e.call.isDetails = false) :
    LateShape r i jg held' (t ++ evs) := by
  obtain ⟨out, out', rest, ht, hrest, hg⟩ := h
  refine ⟨out, out', rest ++ evs, by simp [ht], ?_, fun game hgame => hg game (hheld game hgame)⟩
  intro e he
  rcases List.mem_append.mp he with he | he
  · exact hrest e he
  · exact hevs e he

theorem taskShape {r : Run} :
    ∀ s, Reachable r s → ∀ i wk, s.workers[i]? = some wk →
      TaskShape r i wk.jg wk.pc (own (Caller.game i) s.log) := by
  apply move_invariant
  · intro i jg; simp [TaskShape]
  · intro i jg pc pc' evs t hm hq
    cases hm with
    | claim => simpa [TaskShape] using hq
    | build => simpa [TaskShape] using hq
    | fetchFailed game err =>
      obtain ⟨rfl, rfl⟩ := hq
      exact ⟨_, rfl, rfl⟩
    | fetched game gameDetails =>
      obtain ⟨rfl, rfl⟩ := hq
      exact ⟨_, rfl, rfl⟩
    | saveFailed game err =>
      obtain ⟨out, rfl, rfl⟩ := hq
      exact ⟨out, _, [], rfl, by simp, by simp [WorkerPC.submission?]⟩
    | saved game =>
      obtain ⟨out, rfl, rfl⟩ := hq
      exact ⟨out, _, [], rfl, by simp, by simp [WorkerPC.submission?]⟩
    | _ =>
      refine LateShape.keep hq ?_ ?_ <;>
        simp [WorkerPC.submission?, createEvent, downloadEvent, Call.isSave, Call.isDetails]

theorem mem_own {who : Caller} {log : List Event} {e : Event} (he : e ∈ log) (hw : e.who = who) :
    e ∈ own who log := by
  simp [own, he, hw]

/-- A worker has exited once `ProcessJam` has returned. -/
theorem exited_of_returned {r : Run} {s : State} (hs : Reachable r s)
    (hret : s.returned) {i : Nat} {wk : Worker} (hwk : s.workers[i]? = some wk) :
    wk.pc = WorkerPC.exited := by
  obtain ⟨-, h2, h3, -⟩ := quiet s hs
  obtain ⟨err, herr⟩ := hret
  have hmem : wk ∈ s.workers := List.getElem?_mem hwk
  cases err with
  | none => exact h3 herr wk hmem
  | some e => rw [h2 e herr] at hmem; cases hmem

/-- What the shape of the calls of a worker gives once its detail fetch has
failed: the worker is at the save of the basic submission and has not saved
yet, or it is past the save and has saved the basic submission once. -/
theorem saves_of_failed_details {r : Run} {i : Nat} {jg : JamGame} {pc : WorkerPC}
    {t : List Event} (h : TaskShape r i jg pc t) {e : Event} (he : e ∈ t)
    (hcall : e.call.isDetails = true) (hfailed : e.failed = true) :
    (pc = WorkerPC.save (baseSubmission jg) ∧ t.filter (fun e => e.call.isSave) = []) ∨
    (pc.pastSave = true ∧
      ∃ out, t.filter (fun e => e.call.isSave) = [saveEvent r i jg (baseSubmission jg) out]) := by
  have hbase : ∀ out, (detailsEvent r i jg out).failed = true →
      submissionAfter jg out = baseSubmission jg := by
    intro out hf
    cases out <;> first | rfl | simp [detailsEvent, Event.failed] at hf
  have hlate : ∀ held, LateShape r i jg held t →
      ∃ out, t.filter (fun e => e.call.isSave) = [saveEvent r i jg (baseSubmission jg) out] := by
    rintro held ⟨out, out', rest, rfl, hrest, -⟩
    have hrest' : rest.filter (fun e => e.call.isSave) = [] := by
      simp only [List.filter_eq_nil_iff]
      intro x hx
      simp [(hrest x hx).1]
    have he' : e = detailsEvent r i jg out := by
      simp only [List.mem_cons] at he
      rcases he with he | he | he
      · exact he
      · subst he; simp [saveEvent, Call.isDetails] at hcall
      · have := (hrest e he).2; simp [this] at hcall
    subst he'
    refine ⟨out', ?_⟩
    rw [← hbase out hfailed]
    rw [List.filter_cons_of_neg (by simp [detailsEvent, Call.isSave]),
      List.filter_cons_of_pos (by simp [saveEvent, Call.isSave]), hrest']
  cases pc with
  | claim => simp only [TaskShape] at h; subst h; cases he
  | build => simp only [TaskShape] at h; subst h; cases he
  | fetch game => obtain ⟨rfl, -⟩ := h; cases he
  | save game =>
    obtain ⟨out, rfl, rfl⟩ := h
    simp only [List.mem_singleton] at he
    subst he
    left
    exact ⟨by rw [hbase out hfailed], by simp [detailsEvent, Call.isSave]⟩
  | media game => exact Or.inr ⟨rfl, hlate _ h⟩
  | mediaCover game => exact Or.inr ⟨rfl, hlate _ h⟩
  | mediaShots game k => exact Or.inr ⟨rfl, hlate _ h⟩
  | files game => exact Or.inr ⟨rfl, hlate _ h⟩
  | release => exact Or.inr ⟨rfl, hlate _ h⟩
  | wgDone => exact Or.inr ⟨rfl, hlate _ h⟩
  | exited => exact Or.inr ⟨rfl, hlate _ h⟩

/-! ## The dedup cache -/

theorem workerStep_cache {r : Run} {i : Nat} {jg : JamGame} {pc pc' : WorkerPC} {s s' : State}
    (h : workerStep r i jg pc s = some (pc', s')) :
    pc' ≠ WorkerPC.claim ∧
    ((pc = WorkerPC.claim ∧ s'.gameCache = Itoa jg.Game.ID :: s.gameCache) ∨
      (pc ≠ WorkerPC.claim ∧ s'.gameCache = s.gameCache)) := by
  cases pc <;> simp only [workerStep] at h <;> (try split at h) <;> (try split at h) <;>
    cases h <;> simp

theorem mem_set_cases {α : Type} {l : List α} {j : Nat} {a b x : α} (hj : l[j]? = some b)
    (hx : x ∈ l) : x ∈ l.set j a ∨ x = b := by
  obtain ⟨n, hn⟩ := List.mem_iff_getElem?.mp hx
  by_cases h : j = n
  · subst h; right; rw [hj] at hn; cases hn; rfl
  · left
    apply List.mem_iff_getElem?.mpr
    exact ⟨n, by rw [List.getElem?_set_ne h]; exact hn⟩

theorem self_mem_set {α : Type} {l : List α} {j : Nat} {a b : α} (hj : l[j]? = some b) :
    a ∈ l.set j a := by
  have hlt : j < l.length := (List.getElem?_eq_some_iff.mp hj).1
  exact List.mem_iff_getElem?.mpr ⟨j, List.getElem?_set_self hlt⟩

theorem cacheKept {r : Run} : ∀ s, Reachable r s → CacheKept r s := by
  apply reachable_induction
  · refine ⟨fun g hg => hg, ?_, fun g hg => Or.inl hg⟩
    intro wk hwk; simp [State.start] at hwk
  · intro s a s' _ ih h
    obtain ⟨h1, h2, h3⟩ := ih
    cases a with
    | main =>
      obtain ⟨hc, hw, -⟩ := mainStep_frame h
      rw [CacheKept, hc]
      rcases hw with hw | ⟨jg, hw⟩
      · rw [hw]; exact ⟨h1, h2, h3⟩
      · rw [hw]
        refine ⟨h1, ?_, ?_⟩
        · intro wk hwk hpc
          rcases List.mem_append.mp hwk with hwk | hwk
          · exact h2 wk hwk hpc
          · simp only [List.mem_singleton] at hwk; subst hwk; exact absurd rfl hpc
        · intro g hg
          rcases h3 g hg with hp | ⟨wk, hwk, hid⟩
          · exact Or.inl hp
          · exact Or.inr ⟨wk, List.mem_append_left _ hwk, hid⟩
    | worker j =>
      obtain ⟨wk0, pc', s'', hwk0, hw, rfl⟩ := step_worker_inv h
      obtain ⟨-, hws, -⟩ := workerStep_frame hw
      obtain ⟨hpc', hcache⟩ := workerStep_cache hw
      have hmem0 : wk0 ∈ s.workers := List.getElem?_mem hwk0
      have hsub : ∀ g ∈ s.gameCache, g ∈ s''.gameCache := by
        intro g hg
        rcases hcache with ⟨-, hc⟩ | ⟨-, hc⟩ <;> rw [hc]
        · exact List.mem_cons_of_mem _ hg
        · exact hg
      simp only [CacheKept, hws]
      refine ⟨fun g hg => hsub g (h1 g hg), ?_, ?_⟩
      · intro wk hwk hpc
        rcases List.mem_or_eq_of_mem_set hwk with hold | hnew
        · exact hsub _ (h2 wk hold hpc)
        · subst hnew
          rcases hcache with ⟨-, hc⟩ | ⟨hne, hc⟩ <;> rw [hc]
          · exact List.mem_cons_self _ _
          · exact h2 wk0 hmem0 hne
      · intro g hg
        have hself : ({ jg := wk0.jg, pc := pc' } : Worker) ∈
            s.workers.set j { jg := wk0.jg, pc := pc' } := self_mem_set hwk0
        have hold : g ∈ s.gameCache → g ∈ r.p.gameCache ∨
            ∃ wk ∈ s.workers.set j { jg := wk0.jg, pc := pc' }, Itoa wk.jg.Game.ID = g := by
          intro hg
          rcases h3 g hg with hp | ⟨wk, hwk, hid⟩
          · exact Or.inl hp
          · rcases mem_set_cases (a := { jg := wk0.jg, pc := pc' }) hwk0 hwk with hin | heq
            · exact Or.inr ⟨wk, hin, hid⟩
            · subst heq; exact Or.inr ⟨_, hself, hid⟩
        rcases hcache with ⟨-, hc⟩ | ⟨-, hc⟩ <;> rw [hc] at hg
        · rcases List.mem_cons.mp hg with hg | hg
          · exact Or.inr ⟨_, hself, hg.symm⟩
          · exact hold hg
        · exact hold hg

/-- The jam loop makes no call about a game. -/
theorem mainStep_calls {r : Run} {s s' : State} (h : mainStep r s = some s') :
    s'.log = s.log ∨
    ∃ c o, s'.log = s.log ++ [{ who := Caller.jam, call := c, out := o }] ∧ c.gameID? = none := by
  unfold mainStep at h
  split at h <;> (try split at h) <;> cases h <;> simp [Call.gameID?]

theorem Move.gameID {r : Run} {i : Nat} {jg : JamGame} {pc pc' : WorkerPC} {evs : List Event}
    (h : Move r i jg pc pc' evs) :
    ∀ e ∈ evs, ∀ g, e.call.gameID? = some g → g = Itoa jg.Game.ID := by
  cases h <;>
    simp [detailsEvent, saveEvent, createEvent, downloadEvent, Call.gameID?]

theorem step_worker_none {r : Run} {s : State} (h : s.workers = []) (j : Nat) :
    step r s (Action.worker j) = none := by
  simp [step, h]

/-- The run when the creation of the jam directory fails. -/
theorem createDir_failed_states {r : Run} {err : String}
    (h : r.w.CreateDirectory [] r.jamDir = some err) :
    ∀ s, Reachable r s → s.workers = [] ∧
      ((s.main = MainPC.createDir ∧ s.log = []) ∨
        (s.main = MainPC.returned (some ("failed to create jam directory: " ++ err)) ∧
          s.log = [jamDirEvent r (Outcome.error err)])) := by
  apply reachable_induction
  · exact ⟨rfl, Or.inl ⟨rfl, rfl⟩⟩
  · intro s a s' _ ih hstep
    obtain ⟨hw, hcase⟩ := ih
    cases a with
    | worker j => rw [step_worker_none hw] at hstep; cases hstep
    | main =>
      rcases hcase with ⟨hm, hl⟩ | ⟨hm, hl⟩
      · simp only [step, mainStep, hm, hl, h] at hstep
        cases hstep
        exact ⟨hw, Or.inr ⟨rfl, by simp [State.record, hl, jamDirEvent]⟩⟩
      · simp [step, mainStep, hm] at hstep

/-- The run when the jam directory is created and the metadata fetch fails. -/
theorem fetchMetadata_failed_states {r : Run} {err : String}
    (h1 : r.w.CreateDirectory [] r.jamDir = none)
    (h2 : r.w.FetchJamMetadata [jamDirEvent r Outcome.ok] r.jamID = Except.error err) :
    ∀ s, Reachable r s → s.workers = [] ∧
      ((s.main = MainPC.createDir ∧ s.log = []) ∨
        (s.main = MainPC.fetchMetadata ∧ s.log = [jamDirEvent r Outcome.ok]) ∨
        (s.main = MainPC.returned (some ("failed to fetch jam metadata: " ++ err)) ∧
          s.log = [jamDirEvent r Outcome.ok, metadataEvent r (Outcome.error err)])) := by
  apply reachable_induction
  · exact ⟨rfl, Or.inl ⟨rfl, rfl⟩⟩
  · intro s a s' _ ih hstep
    obtain ⟨hw, hcase⟩ := ih
    cases a with
    | worker j => rw [step_worker_none hw] at hstep; cases hstep
    | main =>
      rcases hcase with ⟨hm, hl⟩ | ⟨hm, hl⟩ | ⟨hm, hl⟩
      · simp only [step, mainStep, hm, hl, h1] at hstep
        cases hstep
        exact ⟨hw, Or.inr (Or.inl ⟨rfl, by simp [State.record, hl, jamDirEvent]⟩)⟩
      · simp only [step, mainStep, hm, hl, h2] at hstep
        cases hstep
        exact ⟨hw, Or.inr (Or.inr ⟨rfl, by simp [State.record, hl, jamDirEvent, metadataEvent]⟩)⟩
      · simp [step, mainStep, hm] at hstep

/-! ## The basic submission -/

theorem foldl_append_user (cs : List Contributor) (acc : List User) :
    cs.foldl (fun authors contributor =>
        authors ++ [({ Name := contributor.Name, ID := 0, URL := contributor.URL } : User)]) acc =
      acc ++ cs.map (fun c => ({ Name := c.Name, ID := 0, URL := c.URL } : User)) := by
  induction cs generalizing acc with
  | nil => simp
  | cons c cs ih => simp [List.foldl_cons, ih]

theorem baseAuthors_eq (jg : JamGame) :
    baseAuthors jg =
      jg.Game.User :: jg.Contributors.map (fun c => ({ Name := c.Name, ID := 0, URL := c.URL } : User)) := by
  simp [baseAuthors, foldl_append_user]

/-! ## The guard of the save -/

theorem anySaveFailed_append (t evs : List Event) :
    anySaveFailed (t ++ evs) = (anySaveFailed t || anySaveFailed evs) := by
  simp [anySaveFailed]

theorem noStageCall_append (t evs : List Event) :
    noStageCall (t ++ evs) = (noStageCall t && noStageCall evs) := by
  simp [noStageCall]

/-- What a move does at the guard of the save. -/
theorem Move.guard {r : Run} {i : Nat} {jg : JamGame} {pc pc' : WorkerPC} {evs : List Event}
    (h : Move r i jg pc pc' evs) :
    (pc'.part = 0 → pc.part = 0 ∧ anySaveFailed evs = false ∧ noStageCall evs = true) ∧
    (pc'.part = 1 → pc.part ≤ 1 ∧ anySaveFailed evs = false) ∧
    (pc'.part = 2 →
      (pc.part = 0 ∧ noStageCall evs = true) ∨ (pc.part = 1 ∧ anySaveFailed evs = false) ∨
        (pc.part = 2 ∧ evs = [])) := by
  cases h <;>
    simp [WorkerPC.part, anySaveFailed, noStageCall, detailsEvent, saveEvent, createEvent,
      downloadEvent, Call.isSave, Call.isCreate, Call.isDownload, Event.failed]

theorem saveGuard {r : Run} :
    ∀ s, Reachable r s → ∀ i wk, s.workers[i]? = some wk →
      SaveGuard wk.pc (own (Caller.game i) s.log) := by
  apply move_invariant (fun _ _ pc t => SaveGuard pc t)
  · intro i jg; simp [SaveGuard, WorkerPC.part, anySaveFailed, noStageCall]
  · intro i jg pc pc' evs t hm hq
    obtain ⟨h0, h1, h2⟩ := hq
    obtain ⟨k1, k2, k3⟩ := hm.guard
    simp only [SaveGuard, anySaveFailed_append, noStageCall_append]
    refine ⟨?_, ?_, ?_⟩
    · intro hp
      obtain ⟨hp0, e1, e2⟩ := k1 hp
      obtain ⟨f1, f2⟩ := h0 hp0
      simp [e1, e2, f1, f2]
    · intro hp
      obtain ⟨hle, e1⟩ := k2 hp
      have f1 : anySaveFailed t = false := by
        rcases Nat.le_one_iff_eq_zero_or_eq_one.mp hle with hp0 | hp1
        · exact (h0 hp0).1
        · exact h1 hp1
      simp [e1, f1]
    · intro hp hsf
      rcases k3 hp with ⟨hp0, e2⟩ | ⟨hp1, e1⟩ | ⟨hp2, rfl⟩
      · simp [(h0 hp0).2, e2]
      · simp [h1 hp1, e1] at hsf
      · have hsf' : anySaveFailed t = true := by simpa [anySaveFailed] using hsf
        have hns : noStageCall [] = true := rfl
        rw [h2 hp2 hsf', hns]
        rfl

/-! ## The media stage -/

theorem okSaves_append (t evs : List Event) : okSaves (t ++ evs) = okSaves t ++ okSaves evs := by
  simp [okSaves]

theorem dirResults_append (t evs : List Event) :
    dirResults (t ++ evs) = dirResults t ++ dirResults evs := by
  simp [dirResults]

theorem downloadCalls_append (t evs : List Event) :
    downloadCalls (t ++ evs) = downloadCalls t ++ downloadCalls evs := by
  simp [downloadCalls]

theorem drop_of_getElem? {α : Type} {l : List α} {k : Nat} {a : α} (h : l[k]? = some a) :
    l.drop k = a :: l.drop (k + 1) := by
  obtain ⟨hk, rfl⟩ := List.getElem?_eq_some_iff.mp h
  exact List.drop_eq_getElem_cons hk

theorem drop_of_getElem?_none {α : Type} {l : List α} {k : Nat} (h : l[k]? = none) :
    l.drop k = [] := by
  rw [List.getElem?_eq_none_iff] at h
  exact List.drop_of_length_le h

theorem okSaves_details (r : Run) (i : Nat) (jg : JamGame) (out : Outcome) :
    okSaves [detailsEvent r i jg out] = [] := rfl

theorem okSaves_saved (r : Run) (i : Nat) (jg : JamGame) (game : GameSubmission) :
    okSaves [saveEvent r i jg game Outcome.ok] = [game] := rfl

theorem okSaves_saveFailed (r : Run) (i : Nat) (jg : JamGame) (game : GameSubmission)
    (err : String) : okSaves [saveEvent r i jg game (Outcome.error err)] = [] := rfl

theorem okSaves_create (i : Nat) (path : String) (out : Outcome) :
    okSaves [createEvent i path out] = [] := rfl

theorem okSaves_download (i : Nat) (url destPath : String) (out : Outcome) :
    okSaves [downloadEvent i url destPath out] = [] := rfl

theorem dirResults_details (r : Run) (i : Nat) (jg : JamGame) (out : Outcome) :
    dirResults [detailsEvent r i jg out] = [] := rfl

theorem dirResults_save (r : Run) (i : Nat) (jg : JamGame) (game : GameSubmission)
    (out : Outcome) : dirResults [saveEvent r i jg game out] = [] := rfl

theorem dirResults_create (i : Nat) (path : String) (out : Outcome) :
    dirResults [createEvent i path out] = [(createEvent i path out).failed] := rfl

theorem dirResults_download (i : Nat) (url destPath : String) (out : Outcome) :
    dirResults [downloadEvent i url destPath out] = [] := rfl

theorem downloadCalls_details (r : Run) (i : Nat) (jg : JamGame) (out : Outcome) :
    downloadCalls [detailsEvent r i jg out] = [] := rfl

theorem downloadCalls_save (r : Run) (i : Nat) (jg : JamGame) (game : GameSubmission)
    (out : Outcome) : downloadCalls [saveEvent r i jg game out] = [] := rfl

theorem downloadCalls_create (i : Nat) (path : String) (out : Outcome) :
    downloadCalls [createEvent i path out] = [] := rfl

theorem downloadCalls_download (i : Nat) (url destPath : String) (out : Outcome) :
    downloadCalls [downloadEvent i url destPath out] = [Call.DownloadFile url destPath] := rfl

theorem mediaTrack {r : Run} :
    ∀ s, Reachable r s → ∀ i wk, s.workers[i]? = some wk →
      MediaTrack r wk.jg wk.pc (own (Caller.game i) s.log) := by
  apply move_invariant (fun _ jg pc t => MediaTrack r jg pc t)
  · intro i jg; exact ⟨rfl, rfl, rfl⟩
  · intro i jg pc pc' evs t hm hq
    cases hm with
    | claim => simpa [MediaTrack] using hq
    | build => simpa [MediaTrack] using hq
    | fetchFailed game err =>
      obtain ⟨h1, h2, h3⟩ := hq
      simp only [MediaTrack, okSaves_append, dirResults_append, downloadCalls_append, h1, h2, h3,
        okSaves_details, dirResults_details, downloadCalls_details, List.append_nil, and_self]
    | fetched game gameDetails =>
      obtain ⟨h1, h2, h3⟩ := hq
      simp only [MediaTrack, okSaves_append, dirResults_append, downloadCalls_append, h1, h2, h3,
        okSaves_details, dirResults_details, downloadCalls_details, List.append_nil, and_self]
    | saveFailed game err =>
      obtain ⟨h1, h2, h3⟩ := hq
      simp only [MediaTrack, okSaves_append, h1, okSaves_saveFailed, List.append_nil,
        List.not_mem_nil, false_imp_iff, implies_true]
    | saved game =>
      obtain ⟨h1, h2, h3⟩ := hq
      simp only [MediaTrack, okSaves_append, dirResults_append, downloadCalls_append, h1, h2, h3,
        okSaves_saved, dirResults_save, downloadCalls_save, List.append_nil, List.nil_append,
        and_self]
    | mediaOff game hoff =>
      obtain ⟨h1, h2, h3⟩ := hq
      show okSaves (t ++ []) = [game] ∧ MediaDone r jg game (t ++ []) ∧ (_ → _)
      rw [List.append_nil]
      have hno : ¬ r.cfg.DownloadMedia = true := by rw [hoff]; simp
      exact ⟨h1, fun hon => absurd hon hno, fun hon => absurd hon hno⟩
    | mediaDirFailed game err hon =>
      obtain ⟨h1, h2, h3⟩ := hq
      refine ⟨?_, ?_, ?_⟩
      · rw [okSaves_append, h1, okSaves_create, List.append_nil]
      · intro _ hhead
        rw [dirResults_append, h2, List.nil_append, dirResults_create] at hhead
        cases hhead
      · intro _
        rw [dirResults_append, h2, List.nil_append, dirResults_create]
        exact List.cons_ne_nil _ _
    | mediaDir game hon =>
      obtain ⟨h1, h2, h3⟩ := hq
      simp only [MediaTrack, okSaves_append, dirResults_append, downloadCalls_append, h1, h2, h3,
        okSaves_create, dirResults_create, downloadCalls_create, List.append_nil,
        List.nil_append, true_and, and_true]
      rfl
    | noCover game hc =>
      obtain ⟨h1, h2, h3⟩ := hq
      simp only [MediaTrack, List.append_nil, h1, h2, h3, true_and, List.nil_append,
        List.drop_zero, mediaCalls, hc, ne_eq, not_true_eq_false, ite_false]
    | cover game err hc =>
      obtain ⟨h1, h2, h3⟩ := hq
      simp only [MediaTrack, okSaves_append, dirResults_append, downloadCalls_append, h1, h2, h3,
        okSaves_download, dirResults_download, downloadCalls_download, List.append_nil,
        List.nil_append, true_and, List.drop_zero, mediaCalls, hc, ne_eq, not_false_eq_true,
        ite_true]
    | shot game k screenshot err hk =>
      obtain ⟨h1, h2, h3⟩ := hq
      simp only [MediaTrack, okSaves_append, dirResults_append, downloadCalls_append, h1, h2,
        okSaves_download, dirResults_download, downloadCalls_download, List.append_nil,
        true_and]
      rw [← h3, drop_of_getElem? hk, shotCalls, List.append_assoc]
      rfl
    | shotsDone game k hk =>
      obtain ⟨h1, h2, h3⟩ := hq
      rw [drop_of_getElem?_none hk, shotCalls, List.append_nil] at h3
      simp only [MediaTrack, List.append_nil, h1, true_and]
      exact ⟨fun _ _ => h3, fun _ => by simp [h2]⟩
    | filesOff game hf =>
      obtain ⟨h1, h2, -⟩ := hq
      simp only [MediaTrack, List.append_nil, h1, List.mem_singleton, forall_eq]
      exact h2
    | filesDir game err hf =>
      obtain ⟨h1, h2, h3⟩ := hq
      simp only [MediaTrack, okSaves_append, okSaves_create, List.append_nil, h1,
        List.mem_singleton, forall_eq]
      intro hon hhead
      have hne := h3 hon
      rw [dirResults_append, List.head?_append_of_ne_nil _ hne] at hhead
      rw [downloadCalls_append, downloadCalls_create, List.append_nil]
      exact h2 hon hhead
    | release => simpa [MediaTrack] using hq
    | wgDone => simpa [MediaTrack] using hq

theorem mem_okSaves {t : List Event} {e : Event} (he : e ∈ t) {jamID gameID : String}
    {game : GameSubmission} (hcall : e.call = Call.SaveGameSubmission jamID gameID game)
    (hout : e.out = Outcome.ok) : game ∈ okSaves t := by
  simp only [okSaves, List.mem_filterMap]
  exact ⟨e, he, by rw [hcall, hout]⟩

theorem shotCalls_urls (r : Run) (gameID : String) (k : Nat) (shots : List String) :
    (shotCalls r gameID k shots).filterMap Call.url? = shots := by
  induction shots generalizing k with
  | nil => rfl
  | cons u us ih => simp [shotCalls, Call.url?, ih]

theorem mediaCalls_urls (r : Run) (gameID : String) (game : GameSubmission) :
    (mediaCalls r gameID game).filterMap Call.url? =
      (if game.Cover.URL ≠ "" then [game.Cover.URL] else []) ++ game.Screenshots := by
  unfold mediaCalls
  rw [List.filterMap_append, shotCalls_urls]
  split <;> simp [Call.url?]

/-! ## The pacing of requests -/

/-- An operation that starts with the sleep is paced. -/
theorem paced_of_sleep_first (d : Int) (rest : List Effect) :
    Paced d (Effect.Sleep d :: rest) := by
  intro k url userAgent hk
  cases k with
  | zero => simp at hk
  | succ k => exact ⟨0, Nat.succ_pos k, by simp⟩

theorem ExtractJamID_no_sleep (net : Net) (jamURL : String) :
    ∀ e ∈ (ExtractJamID net jamURL).1, ∀ d, e ≠ Effect.Sleep d := by
  intro e he d
  unfold ExtractJamID at he
  split at he
  · cases he
  · split at he
    · simp only [List.mem_singleton] at he
      subst he
      exact fun h => by cases h
    · cases he

/-- A product that fits in an `int64` is not changed by the wrap-around. -/
theorem wrapInt64_small (n : Int) (h1 : -9223372036854775808 ≤ n)
    (h2 : n ≤ 9223372036854775807) : wrapInt64 n = n := by
  unfold wrapInt64
  norm_num
  omega

/-! ## The base fields -/

/-- The record of every save made by a worker is the submission its detail
fetch left. -/
theorem save_record_of_shape {r : Run} {i : Nat} {jg : JamGame} {pc : WorkerPC}
    {t : List Event} (h : TaskShape r i jg pc t) {e : Event} (he : e ∈ t)
    {jamID gameID : String} {game : GameSubmission}
    (hcall : e.call = Call.SaveGameSubmission jamID gameID game) :
    ∃ out, game = submissionAfter jg out ∧ detailsEvent r i jg out ∈ t := by
  have hlate : ∀ held, LateShape r i jg held t →
      ∃ out, game = submissionAfter jg out ∧ detailsEvent r i jg out ∈ t := by
    rintro held ⟨out, out', rest, rfl, hrest, -⟩
    simp only [List.mem_cons] at he
    rcases he with he | he | he
    · subst he; simp [detailsEvent] at hcall
    · subst he
      simp only [saveEvent, Call.SaveGameSubmission.injEq] at hcall
      exact ⟨out, hcall.2.2.symm, List.mem_cons_self _ _⟩
    · have := (hrest e he).1
      rw [hcall] at this
      simp [Call.isSave] at this
  cases pc with
  | claim => simp only [TaskShape] at h; subst h; cases he
  | build => simp only [TaskShape] at h; subst h; cases he
  | fetch g => obtain ⟨rfl, -⟩ := h; cases he
  | save g =>
    obtain ⟨out, rfl, -⟩ := h
    simp only [List.mem_singleton] at he
    subst he
    simp [detailsEvent] at hcall
  | media g => exact hlate _ h
  | mediaCover g => exact hlate _ h
  | mediaShots g k => exact hlate _ h
  | files g => exact hlate _ h
  | release => exact hlate _ h
  | wgDone => exact hlate _ h
  | exited => exact hlate _ h

theorem submissionAfter_baseFields (jg : JamGame) (out : Outcome) :
    (submissionAfter jg out).baseFields = entryFields jg := by
  cases out <;> rfl

/-! ## Decimal numerals -/

theorem digitChar_isDigit (d : Nat) (h : d < 10) :
    (Nat.digitChar d).isDigit = true ∧ (Nat.digitChar d).toNat - 48 = d := by
  interval_cases d <;> decide

theorem decimalValue_append (xs : List Char) (c : Char) :
    decimalValue (xs ++ [c]) = 10 * decimalValue xs + (c.toNat - 48) := by
  simp [decimalValue, List.foldl_append]

/-- The digits `Nat.toDigitsCore` puts in front of its accumulator: a
non-empty string of decimal digits that denotes the number. -/
theorem toDigitsCore_spec (fuel : Nat) : ∀ n, n < fuel →
    ∃ xs : List Char, (∀ ds, Nat.toDigitsCore 10 fuel n ds = xs ++ ds) ∧ xs ≠ [] ∧
      (∀ c ∈ xs, c.isDigit = true) ∧ decimalValue xs = n := by
  induction fuel with
  | zero => intro n h; omega
  | succ fuel ih =>
    intro n hn
    have hd := digitChar_isDigit (n % 10) (Nat.mod_lt _ (by decide))
    by_cases h0 : n / 10 = 0
    · refine ⟨[Nat.digitChar (n % 10)], ?_, by simp, ?_, ?_⟩
      · intro ds; simp [Nat.toDigitsCore, h0]
      · intro c hc; simp only [List.mem_singleton] at hc; subst hc; exact hd.1
      · simp only [decimalValue, List.foldl_cons, List.foldl_nil, hd.2]; omega
    · obtain ⟨xs, hxs, hne, hdig, hval⟩ := ih (n / 10) (by omega)
      refine ⟨xs ++ [Nat.digitChar (n % 10)], ?_, by simp, ?_, ?_⟩
      · intro ds; simp [Nat.toDigitsCore, h0, hxs]
      · intro c hc
        rcases List.mem_append.mp hc with hc | hc
        · exact hdig c hc
        · simp only [List.mem_singleton] at hc; subst hc; exact hd.1
      · rw [decimalValue_append, hval, hd.2]; omega

/-- The decimal representation of a natural number, as `strconv.Itoa` and the
verb `%d` print it: a non-empty string of digits that denotes the number. -/
theorem Itoa_nat (n : Nat) :
    ∃ xs : List Char, Itoa (n : Int) = String.mk xs ∧ xs ≠ [] ∧
      (∀ c ∈ xs, c.isDigit = true) ∧ decimalValue xs = n := by
  obtain ⟨xs, hxs, hne, hdig, hval⟩ := toDigitsCore_spec (n + 1) n (by omega)
  refine ⟨xs, ?_, hne, hdig, hval⟩
  show toString (Int.ofNat n) = _
  have : Nat.toDigits 10 n = xs := by simpa [Nat.toDigits] using hxs []
  show (Nat.toDigits 10 n).asString = _
  rw [this]; rfl

theorem Itoa_negSucc (n : Nat) : Itoa (Int.negSucc n) = "-" ++ Itoa ((n + 1 : Nat) : Int) := rfl

/-- The function `strconv.Itoa` gives different strings for different
numbers. -/
theorem Itoa_injective : Function.Injective Itoa := by
  intro a b h
  have hnat : ∀ m n : Nat, Itoa (m : Int) = Itoa (n : Int) → m = n := by
    intro m n h
    obtain ⟨xs, hx, -, -, hvx⟩ := Itoa_nat m
    obtain ⟨ys, hy, -, -, hvy⟩ := Itoa_nat n
    rw [hx, hy] at h
    have : xs = ys := congrArg String.data h
    rw [← hvx, ← hvy, this]
  have hmix : ∀ m n : Nat, Itoa (m : Int) ≠ Itoa (Int.negSucc n) := by
    intro m n h
    obtain ⟨xs, hx, hne, hdig, -⟩ := Itoa_nat m
    obtain ⟨ys, hy, -, -, -⟩ := Itoa_nat (n + 1)
    rw [Itoa_negSucc, hx, hy] at h
    have h' : xs = '-' :: ys := by
      have := congrArg String.data h
      simpa using this
    have := hdig '-' (by rw [h']; exact List.mem_cons_self _ _)
    exact absurd this (by decide)
  cases a with
  | ofNat m =>
    cases b with
    | ofNat n => exact congrArg _ (hnat m n h)
    | negSucc n => exact absurd h (hmix m n)
  | negSucc m =>
    cases b with
    | ofNat n => exact absurd h.symm (hmix n m)
    | negSucc n =>
      rw [Itoa_negSucc, Itoa_negSucc] at h
      have h' : Itoa ((m + 1 : Nat) : Int) = Itoa ((n + 1 : Nat) : Int) := by
        have := congrArg String.data h
        simp only [String.data_append] at this
        exact String.ext (List.append_cancel_left this)
      have := hnat _ _ h'
      congr 1
      omega

/-! ## The feed -/

theorem fetchedFeed_append (l : List Event) (e : Event) :
    fetchedFeed (l ++ [e]) = (fetchedFeed l).or e.feed? := by
  simp only [fetchedFeed, List.findSome?_append]
  congr 1
  simp only [List.findSome?_cons, List.findSome?_nil]
  cases e.feed? <;> rfl

theorem map_jg_set (l : List Worker) (j : Nat) (wk : Worker) (pc : WorkerPC)
    (h : l[j]? = some wk) :
    (l.set j { jg := wk.jg, pc := pc }).map (fun wk => wk.jg) = l.map (fun wk => wk.jg) := by
  rw [List.map_set]
  apply List.ext_getElem? 
  intro n
  by_cases hn : j = n
  · subst hn
    have hlt : j < l.length := (List.getElem?_eq_some_iff.mp h).1
    rw [List.getElem?_set_self (by simpa using hlt)]
    simp [h]
  · rw [List.getElem?_set_ne hn]

theorem Move.feed {r : Run} {i : Nat} {jg : JamGame} {pc pc' : WorkerPC} {evs : List Event}
    (h : Move r i jg pc pc' evs) : fetchedFeed evs = none := by
  cases h <;>
    simp [fetchedFeed, detailsEvent, saveEvent, createEvent, downloadEvent, Event.feed?]

theorem feedTrack {r : Run} : ∀ s, Reachable r s → FeedTrack r s := by
  apply reachable_induction
  · refine ⟨fun _ => ⟨rfl, by simp [State.start]⟩, ?_⟩
    intro feed h
    simp [State.start, fetchedFeed] at h
  · intro s a s' hr ih h
    obtain ⟨h1, h2⟩ := ih
    cases a with
    | worker j =>
      obtain ⟨wk0, pc', s'', hwk0, hw, rfl⟩ := step_worker_inv h
      obtain ⟨evs, hlog, hmove⟩ := workerStep_move hw
      obtain ⟨hm, hws, -⟩ := workerStep_frame hw
      have hfeed : fetchedFeed s''.log = fetchedFeed s.log := by
        rw [hlog, fetchedFeed, List.findSome?_append, ← fetchedFeed, ← fetchedFeed, hmove.feed]
        cases fetchedFeed s.log <;> rfl
      simp only [FeedTrack, hfeed, hm, hws]
      refine ⟨h1, ?_⟩
      intro feed hf
      rcases h2 feed hf with ⟨hp, hW, hnil⟩ | ⟨pend, hp, heq⟩
      · rw [hnil] at hwk0; simp at hwk0
      · right
        refine ⟨pend, hp, ?_⟩
        rw [map_jg_set _ _ _ _ hwk0]
        exact heq
    | main =>
      have hkept := (cacheKept s hr).2.2
      have hpre : s.main.pending? = none → s.main ≠ MainPC.panicked → fetchedFeed s.log = none := by
        intro hp hne
        cases hf : fetchedFeed s.log with
        | none => rfl
        | some feed =>
          rcases h2 feed hf with ⟨hp', -⟩ | ⟨pend, hp', -⟩
          · exact absurd hp' hne
          · rw [hp] at hp'; cases hp'
      simp only [step, mainStep] at h
      split at h
      · next hm =>
        have h0 := hpre (by rw [hm]; rfl) (by rw [hm]; simp)
        split at h <;> cases h <;>
          simp [FeedTrack, State.record, fetchedFeed_append, h0, Event.feed?, MainPC.pending?]
      · next hm =>
        have h0 := hpre (by rw [hm]; rfl) (by rw [hm]; simp)
        split at h <;> cases h <;>
          simp [FeedTrack, State.record, fetchedFeed_append, h0, Event.feed?, MainPC.pending?]
      · next hm =>
        have h0 := hpre (by rw [hm]; rfl) (by rw [hm]; simp)
        split at h <;> cases h <;>
          simp [FeedTrack, State.record, fetchedFeed_append, h0, Event.feed?, MainPC.pending?]
      · next hm =>
        have h0 := hpre (by rw [hm]; rfl) (by rw [hm]; simp)
        split at h <;> cases h <;>
          simp [FeedTrack, State.record, fetchedFeed_append, h0, Event.feed?, MainPC.pending?]
      · next md hm =>
        have h0 := hpre (by rw [hm]; rfl) (by rw [hm]; simp)
        have hq := (quiet s hr).1
        split at h <;> cases h
        · simp [FeedTrack, State.record, fetchedFeed_append, h0, Event.feed?, MainPC.pending?]
        · next resp _ =>
          have hnil : s.workers = [] := hq (by rw [hm]; simp [MainPC.stage])
          refine ⟨?_, ?_⟩
          · simp [State.record, fetchedFeed_append, h0, Event.feed?]
          · intro feed hf
            simp only [State.record, fetchedFeed_append, h0, Event.feed?, Option.or,
              Option.some.injEq] at hf
            subst hf
            by_cases hW : r.cfg.Workers < 0
            · left; simp [hW, hnil]
            · right
              refine ⟨resp.JamGames, by simp [hW, MainPC.pending?], fun _ => ?_⟩
              simp [hnil]
      · next hm =>
        cases h
        refine ⟨fun hn => ?_, fun feed hf => ?_⟩
        · have := (h1 hn).1; rw [hm] at this; cases this
        · rcases h2 feed hf with ⟨hp, -⟩ | ⟨pend, hp, heq⟩
          · rw [hm] at hp; cases hp
          · rw [hm] at hp; cases hp
            exact Or.inr ⟨[], rfl, heq⟩
      · next jamGame rest hm =>
        have hstep : ∀ feed, FreshFeed r feed →
            s.workers.map (fun wk => wk.jg) ++ jamGame :: rest = feed →
            Itoa jamGame.Game.ID ∉ s.gameCache := by
          rintro feed ⟨hnd, hfresh⟩ heq hin
          subst heq
          rcases hkept _ hin with hp | ⟨wk, hwk, hid⟩
          · exact hfresh _ (by simp [feedIDs]) hp
          · simp only [feedIDs, List.map_append, List.map_map, List.map_cons] at hnd
            have := (List.nodup_append.mp hnd).2.2
            exact this (List.mem_map.mpr ⟨wk, hwk, hid⟩) (List.mem_cons_self _ _)
        split at h <;> cases h
        · next hin =>
          refine ⟨fun hn => ?_, fun feed hf => ?_⟩
          · have := (h1 hn).1; rw [hm] at this; cases this
          · rcases h2 feed hf with ⟨hp, -⟩ | ⟨pend, hp, heq⟩
            · rw [hm] at hp; cases hp
            · rw [hm] at hp; cases hp
              exact Or.inr ⟨rest, rfl, fun hfr => absurd hin (hstep feed hfr (heq hfr))⟩
        · refine ⟨fun hn => ?_, fun feed hf => ?_⟩
          · have := (h1 hn).1; rw [hm] at this; cases this
          · rcases h2 feed hf with ⟨hp, -⟩ | ⟨pend, hp, heq⟩
            · rw [hm] at hp; cases hp
            · rw [hm] at hp; cases hp
              exact Or.inr ⟨_, rfl, heq⟩
      · next jamGame rest hm =>
        split at h <;> cases h
        refine ⟨fun hn => ?_, fun feed hf => ?_⟩
        · have := (h1 hn).1; rw [hm] at this; cases this
        · rcases h2 feed hf with ⟨hp, -⟩ | ⟨pend, hp, heq⟩
          · rw [hm] at hp; cases hp
          · rw [hm] at hp; cases hp
            exact Or.inr ⟨_, rfl, heq⟩
      · next jamGame rest hm =>
        cases h
        refine ⟨fun hn => ?_, fun feed hf => ?_⟩
        · have := (h1 hn).1; rw [hm] at this; cases this
        · rcases h2 feed hf with ⟨hp, -⟩ | ⟨pend, hp, heq⟩
          · rw [hm] at hp; cases hp
          · rw [hm] at hp; cases hp
            refine Or.inr ⟨rest, rfl, fun hfr => ?_⟩
            rw [← heq hfr]
            simp
      · next hm =>
        split at h <;> cases h
        refine ⟨fun hn => ?_, fun feed hf => ?_⟩
        · have := (h1 hn).1; rw [hm] at this; cases this
        · rcases h2 feed hf with ⟨hp, -⟩ | ⟨pend, hp, heq⟩
          · rw [hm] at hp; cases hp
          · rw [hm] at hp; cases hp
            exact Or.inr ⟨[], rfl, heq⟩
      · cases h
      · cases h

theorem Move.saveCount {r : Run} {i : Nat} {jg : JamGame} {pc pc' : WorkerPC} {evs : List Event}
    (h : Move r i jg pc pc' evs) (q : String → Bool) :
    saveCount q evs + (if (pc.pastSave && q (Itoa jg.Game.ID)) = true then 1 else 0) =
      if (pc'.pastSave && q (Itoa jg.Game.ID)) = true then 1 else 0 := by
  cases h <;>
    simp [Itchalyser.saveCount, detailsEvent, saveEvent, createEvent, downloadEvent,
      Call.savesWhere, WorkerPC.pastSave, List.countP_cons]

/-- The saves in the history are those of the workers past their save: one
call of `SaveGameSubmission` per such worker, for the id of its entry. -/
theorem saveCount_workers {r : Run} (q : String → Bool) :
    ∀ s, Reachable r s →
      saveCount q s.log =
        s.workers.countP (fun wk => wk.pc.pastSave && q (Itoa wk.jg.Game.ID)) := by
  apply reachable_induction
  · rfl
  · intro s a s' _ ih h
    cases a with
    | main =>
      obtain ⟨-, hw, -⟩ := mainStep_frame h
      have hlog : saveCount q s'.log = saveCount q s.log := by
        rcases mainStep_calls h with hl | ⟨c, o, hl, hc⟩
        · rw [hl]
        · rw [hl]
          cases c <;> simp [saveCount, Call.savesWhere, Call.gameID?] at hc ⊢
      rw [hlog, ih]
      rcases hw with hw | ⟨jg, hw⟩ <;> rw [hw]
      simp [WorkerPC.pastSave]
    | worker j =>
      obtain ⟨wk0, pc', s'', hwk0, hw, rfl⟩ := step_worker_inv h
      obtain ⟨evs, hlog, hmove⟩ := workerStep_move hw
      obtain ⟨-, hws, -⟩ := workerStep_frame hw
      have hc := countP_set_add (fun wk : Worker => wk.pc.pastSave && q (Itoa wk.jg.Game.ID))
        s.workers j { jg := wk0.jg, pc := pc' } wk0 hwk0
      have hm := hmove.saveCount q
      dsimp only at hc
      simp only [hlog, hws, saveCount, List.countP_append] at hm ih ⊢
      omega

theorem workerStep_save_ok {r : Run} {i : Nat} {jg : JamGame} {pc pc' : WorkerPC} {s s' : State}
    (hsave : ∀ log jamID gameID game, r.w.SaveGameSubmission log jamID gameID game = none)
    (h : workerStep r i jg pc s = some (pc', s')) :
    s'.log = s.log ∨
      ∃ c o, s'.log = s.log ++ [{ who := Caller.game i, call := c, out := o }] ∧
        (c.isSave = true → o = Outcome.ok) := by
  cases pc <;> simp only [workerStep, hsave] at h <;> (try split at h) <;> (try split at h) <;>
    cases h <;>
    first
    | exact Or.inl rfl
    | exact Or.inr ⟨_, _, rfl, by simp [Call.isSave]⟩

/-- When the storage never fails to save a game record, every call of
`SaveGameSubmission` in the history has succeeded. -/
theorem saves_ok {r : Run}
    (hsave : ∀ log jamID gameID game, r.w.SaveGameSubmission log jamID gameID game = none) :
    ∀ s, Reachable r s → ∀ e ∈ s.log, e.call.isSave = true → e.out = Outcome.ok := by
  apply reachable_induction
  · intro e he; cases he
  · intro s a s' _ ih h e he hcall
    cases a with
    | main =>
      rcases mainStep_calls h with hl | ⟨c, o, hl, hc⟩
      · rw [hl] at he; exact ih e he hcall
      · rw [hl] at he
        rcases List.mem_append.mp he with he | he
        · exact ih e he hcall
        · simp only [List.mem_singleton] at he
          subst he
          cases c <;> simp [Call.isSave, Call.gameID?] at hc hcall
    | worker j =>
      obtain ⟨wk0, pc', s'', hwk0, hw, rfl⟩ := step_worker_inv h
      rcases workerStep_save_ok hsave hw with hl | ⟨c, o, hl, hc⟩
      · rw [show s''.log = s.log from hl] at he; exact ih e he hcall
      · rw [show s''.log = _ from hl] at he
        rcases List.mem_append.mp he with he | he
        · exact ih e he hcall
        · simp only [List.mem_singleton] at he
          subst he
          exact hc hcall

/-- The calls of a worker that is past its save hold one save: that of the
submission its detail fetch left. -/
theorem saves_of_late {r : Run} {i : Nat} {jg : JamGame} {pc : WorkerPC} {t : List Event}
    (h : TaskShape r i jg pc t) (hpc : pc.pastSave = true) :
    ∃ out out', detailsEvent r i jg out ∈ t ∧
      t.filter (fun e => e.call.isSave) = [saveEvent r i jg (submissionAfter jg out) out'] := by
  have hlate : ∀ held, LateShape r i jg held t →
      ∃ out out', detailsEvent r i jg out ∈ t ∧
        t.filter (fun e => e.call.isSave) = [saveEvent r i jg (submissionAfter jg out) out'] := by
    rintro held ⟨out, out', rest, rfl, hrest, -⟩
    have hrest' : rest.filter (fun e => e.call.isSave) = [] := by
      simp only [List.filter_eq_nil_iff]
      intro x hx
      simp [(hrest x hx).1]
    refine ⟨out, out', List.mem_cons_self _ _, ?_⟩
    rw [List.filter_cons_of_neg (by simp [detailsEvent, Call.isSave]),
      List.filter_cons_of_pos (by simp [saveEvent, Call.isSave]), hrest']
  cases pc with
  | claim => cases hpc
  | build => cases hpc
  | fetch game => cases hpc
  | save game => cases hpc
  | media game => exact hlate _ h
  | mediaCover game => exact hlate _ h
  | mediaShots game k => exact hlate _ h
  | files game => exact hlate _ h
  | release => exact hlate _ h
  | wgDone => exact hlate _ h
  | exited => exact hlate _ h

theorem step_fetchedFeed {r : Run} {s s' : State} {a : Action} (h : step r s a = some s')
    {feed : List JamGame} (hf : fetchedFeed s.log = some feed) :
    fetchedFeed s'.log = some feed := by
  have hlog : ∃ evs, s'.log = s.log ++ evs := by
    cases a with
    | main =>
      rcases (mainStep_frame h).2.2 with hl | ⟨c, o, hl⟩
      · exact ⟨[], by rw [hl, List.append_nil]⟩
      · exact ⟨_, hl⟩
    | worker j =>
      obtain ⟨wk0, pc', s'', -, hw, rfl⟩ := step_worker_inv h
      obtain ⟨evs, hl, -⟩ := workerStep_move hw
      exact ⟨evs, hl⟩
  obtain ⟨evs, hl⟩ := hlog
  rw [hl, fetchedFeed, List.findSome?_append, ← fetchedFeed, hf]
  rfl

theorem exec_fetchedFeed {r : Run} {feed : List JamGame} :
    ∀ (sched : List Action) (s s' : State), exec r s sched = some s' →
      fetchedFeed s.log = some feed → fetchedFeed s'.log = some feed := by
  intro sched
  induction sched with
  | nil => intro s s' h hf; cases h; exact hf
  | cons a sched ih =>
    intro s s' h hf
    simp only [exec] at h
    cases hst : step r s a with
    | none => simp [hst] at h
    | some m =>
      simp only [hst] at h
      exact ih m s' h (step_fetchedFeed hst hf)

theorem freshFeed_of_distinct {r : Run} {feed : List JamGame}
    (hdistinct : (feed.map (fun jg => jg.Game.ID)).Nodup)
    (hcache : ∀ jg ∈ feed, Itoa jg.Game.ID ∉ r.p.gameCache) : FreshFeed r feed := by
  refine ⟨?_, ?_⟩
  · have := List.Nodup.map Itoa_injective hdistinct
    simpa [feedIDs, List.map_map] using this
  · intro g hg
    obtain ⟨jg, hjg, rfl⟩ := List.mem_map.mp hg
    exact hcache jg hjg

/-- A finished run on a fresh feed, with a storage that saves every game
record, has saved every entry of the feed once. -/
theorem savedOnce_of_returned {r : Run} {feed : List JamGame} (hfresh : FreshFeed r feed)
    (hsave : ∀ log jamID gameID game, r.w.SaveGameSubmission log jamID gameID game = none)
    {s : State} (hs : Reachable r s) (hfeed : fetchedFeed s.log = some feed)
    (hret : s.returned) : SavedOnce r feed s := by
  obtain ⟨err, herr⟩ := hret
  have hworkers : s.main = MainPC.returned none ∧ s.workers.map (fun wk => wk.jg) = feed := by
    rcases (feedTrack s hs).2 feed hfeed with ⟨hp, -⟩ | ⟨pend, hp, heq⟩
    · rw [herr] at hp; cases hp
    · rw [herr] at hp
      cases err with
      | some e => cases hp
      | none =>
        cases hp
        exact ⟨herr, by simpa using heq hfresh⟩
  obtain ⟨hmain, hmap⟩ := hworkers
  have hexit : ∀ wk ∈ s.workers, wk.pc = WorkerPC.exited := (quiet s hs).2.2.1 hmain
  have hcount : ∀ q : String → Bool, saveCount q s.log =
      (feedIDs feed).countP q := by
    intro q
    rw [saveCount_workers q s hs, ← hmap, feedIDs, List.map_map, List.countP_map]
    apply List.countP_congr
    intro wk hwk
    simp [hexit wk hwk, WorkerPC.pastSave]
  refine ⟨hmain, hmap, ?_, ?_, ?_⟩
  · rw [hcount]; simp [feedIDs]
  · intro jg hjg
    rw [hcount]
    have hmem : Itoa jg.Game.ID ∈ feedIDs feed := List.mem_map.mpr ⟨jg, hjg, rfl⟩
    have := List.count_eq_one_of_mem hfresh.1 hmem
    rw [List.count] at this
    exact this
  · intro i jg hi
    have hwk : ∃ wk, s.workers[i]? = some wk ∧ wk.jg = jg := by
      rw [← hmap, List.getElem?_map] at hi
      cases hw : s.workers[i]? with
      | none => simp [hw] at hi
      | some wk => exact ⟨wk, rfl, by simpa [hw] using hi⟩
    obtain ⟨wk, hwk, rfl⟩ := hwk
    have hshape := taskShape s hs i wk hwk
    have hex := hexit wk (List.getElem?_mem hwk)
    obtain ⟨out, out', hd, hsaves⟩ := saves_of_late hshape (by rw [hex]; rfl)
    have hdlog : detailsEvent r i wk.jg out ∈ s.log := by
      simp only [own, List.mem_filter] at hd
      exact hd.1
    have hslog : saveEvent r i wk.jg (submissionAfter wk.jg out) out' ∈ s.log := by
      have : saveEvent r i wk.jg (submissionAfter wk.jg out) out' ∈
          (own (Caller.game i) s.log).filter (fun e => e.call.isSave) := by
        rw [hsaves]; exact List.mem_singleton_self _
      simp only [own, List.mem_filter] at this
      exact this.1.1
    have hok := saves_ok hsave s hs _ hslog rfl
    have hout : out' = Outcome.ok := hok
    subst hout
    exact ⟨out, hdlog, hsaves⟩

/-! ## The two semaphores -/

theorem driverExec_append (cfg : Config) (d : Driver) (a b : List Action) :
    driverExec cfg d (a ++ b) = (driverExec cfg d a).bind (fun d' => driverExec cfg d' b) := by
  induction a generalizing d with
  | nil => rfl
  | cons x a ih =>
    simp only [List.cons_append, driverExec]
    cases driverStep cfg d x with
    | none => rfl
    | some d' => exact ih d'

theorem driver_induction {cfg : Config} {urls : List String} (P : Driver → Prop)
    (h0 : P (Driver.start cfg urls))
    (hstep : ∀ d a d', P d → driverStep cfg d a = some d' → P d') :
    ∀ d, DriverReachable cfg urls d → P d := by
  intro d ⟨sched, hsched⟩
  induction sched using List.reverseRecOn generalizing d with
  | nil => cases hsched; exact h0
  | append_singleton sched a ih =>
    rw [driverExec_append] at hsched
    cases hmid : driverExec cfg (Driver.start cfg urls) sched with
    | none => simp [hmid] at hsched
    | some m =>
      simp only [hmid, Option.some_bind, driverExec] at hsched
      cases hst : driverStep cfg m a with
      | none => simp [hst] at hsched
      | some d' =>
        simp only [hst, Option.some.injEq] at hsched
        subst hsched
        exact hstep m a _ (ih m hmid) hst

/-- The bookkeeping of the semaphore of `main`: the channel holds one value
per admitted jam goroutine, and never more than its capacity. -/
theorem driver_accounted {cfg : Config} {urls : List String} :
    ∀ d, DriverReachable cfg urls d →
      d.semaphore = d.admitted ∧ (d.semaphore = 0 ∨ (d.semaphore : Int) ≤ jamCapacity cfg) := by
  apply driver_induction
  · simp only [Driver.start, Driver.admitted]
    split_ifs <;> simp [DriverPC.slot]
  · intro m a d' ⟨h1, h2⟩ hst
    cases a with
    | main =>
      simp only [driverStep] at hst
      split at hst <;> (try split at hst) <;> cases hst <;>
        (simp_all [Driver.admitted, DriverPC.slot, JamPC.holdsSlot]; all_goals omega)
    | worker j =>
      simp only [driverStep] at hst
      cases ht : m.tasks[j]? with
      | none => simp [ht] at hst
      | some t =>
        have e1 := fun pc => countP_set_add (fun t : JamTask => t.pc.holdsSlot) m.tasks j
          { t with pc := pc } t ht
        simp only [ht] at hst
        cases hpc : t.pc <;> simp only [hpc] at hst e1
        · cases hst
          have := e1 JamPC.release
          simp only [Driver.admitted, JamPC.holdsSlot] at h1 this ⊢
          exact ⟨by omega, h2⟩
        · split at hst <;> cases hst
          have := e1 JamPC.wgDone
          simp only [Driver.admitted, JamPC.holdsSlot] at h1 this ⊢
          simp only [if_true, Bool.false_eq_true, if_false] at this
          refine ⟨by omega, ?_⟩
          rcases h2 with h2 | h2
          · left; omega
          · right; omega
        · split at hst <;> cases hst
          have := e1 JamPC.exited
          simp only [Driver.admitted, JamPC.holdsSlot] at h1 this ⊢
          exact ⟨by omega, h2⟩
        · cases hst

/-- The program starts a jam goroutine, and so makes a call of `ProcessJam`,
only with a worker limit of at least 1: with the limit 0 the send of l.59
blocks, with a negative limit `make` panics at l.55. -/
theorem jam_runs_need_workers {cfg : Config} {urls : List String} :
    ∀ d, DriverReachable cfg urls d → (d.tasks ≠ [] ∨ d.pc.slot = 1) → 1 ≤ cfg.Workers := by
  apply driver_induction (P := fun d => (d.tasks ≠ [] ∨ d.pc.slot = 1) → 1 ≤ cfg.Workers)
  · simp only [Driver.start]
    split_ifs <;> simp [DriverPC.slot]
  · intro m a d' ih hst
    cases a with
    | main =>
      simp only [driverStep] at hst
      split at hst <;> (try split at hst) <;> cases hst <;>
        simp_all [DriverPC.slot, jamCapacity]
      omega
    | worker j =>
      simp only [driverStep] at hst
      cases ht : m.tasks[j]? with
      | none => simp [ht] at hst
      | some t =>
        have hne : m.tasks ≠ [] := by
          intro h; rw [h] at ht; simp at ht
        intro _
        exact ih (Or.inl hne)

/-! ## The jam id of a URL -/

theorem matchHere_append (lead t : List Char) :
    matchHere lead (lead ++ t) = slugPrefix t := by
  have hp : lead.isPrefixOf (lead ++ t) = true :=
    List.isPrefixOf_iff_prefix.mpr (List.prefix_append _ _)
  simp [matchHere, hp]

theorem dropWhile_head_false {α : Type} (q : α → Bool) :
    ∀ (t : List α) (y : α) (ys : List α), t.dropWhile q = y :: ys → q y = false := by
  intro t
  induction t with
  | nil => intro y ys h; cases h
  | cons x xs ih =>
    intro y ys h
    by_cases hx : q x = true
    · rw [List.dropWhile_cons_of_pos hx] at h
      exact ih y ys h
    · rw [List.dropWhile_cons_of_neg hx] at h
      cases h
      simpa using hx

theorem matchHere_some {lead cs slug : List Char} (h : matchHere lead cs = some slug) :
    ∃ after, cs = lead ++ slug ++ after ∧ slug ≠ [] ∧ (∀ x ∈ slug, x ≠ '/') ∧
      (after = [] ∨ after.head? = some '/') := by
  unfold matchHere at h
  split_ifs at h with hp
  obtain ⟨t, rfl⟩ := List.isPrefixOf_iff_prefix.mp hp
  simp only [List.drop_left] at h
  unfold slugPrefix at h
  split at h
  · cases h
  · next hne =>
    cases h
    refine ⟨t.dropWhile (fun c => c ≠ '/'), ?_, ?_, ?_, ?_⟩
    · rw [List.append_assoc, List.takeWhile_append_dropWhile]
    · intro h0; exact hne h0
    · intro x hx
      have := List.mem_takeWhile_imp hx
      simpa using this
    · cases hd : t.dropWhile (fun c => c ≠ '/') with
      | nil => exact Or.inl rfl
      | cons y ys =>
        right
        have := dropWhile_head_false _ t y ys hd
        simp only [ne_eq, decide_not, Bool.not_eq_false', decide_eq_true_eq] at this
        simp [this]

theorem slugPrefix_cons {c : Char} (hc : c ≠ '/') (rest : List Char) :
    ∃ slug, slugPrefix (c :: rest) = some slug := by
  unfold slugPrefix
  rw [List.takeWhile_cons_of_pos (by simpa using hc)]
  exact ⟨_, rfl⟩

/-- What `findJamSlug` returns on a string that holds `lead` followed by a
character other than `/`: the longest run of such characters after the
leftmost such place. -/
theorem findJamSlug_spec : ∀ cs : List Char,
    (∃ p c r, cs = p ++ "itch.io/jam/".data ++ c :: r ∧ c ≠ '/') →
    ∃ pre slug after, cs = pre ++ "itch.io/jam/".data ++ slug ++ after ∧
      slug ≠ [] ∧ (∀ x ∈ slug, x ≠ '/') ∧ (after = [] ∨ after.head? = some '/') ∧
      (∀ p c r, cs = p ++ "itch.io/jam/".data ++ c :: r → c ≠ '/' → pre.length ≤ p.length) ∧
      findJamSlug cs = some slug := by
  intro cs
  induction cs with
  | nil =>
    rintro ⟨p, c, r, h, -⟩
    have := congrArg List.length h
    simp at this
    omega
  | cons x xs ih =>
    intro hex
    cases hm : matchHere "itch.io/jam/".data (x :: xs) with
    | some slug =>
      obtain ⟨after, hcs, hne, hall, hafter⟩ := matchHere_some hm
      refine ⟨[], slug, after, by simpa using hcs, hne, hall, hafter, ?_, ?_⟩
      · intro p c r _ _; exact Nat.zero_le _
      · simp [findJamSlug, hm]
    | none =>
      have hshift : ∀ p c r, x :: xs = p ++ "itch.io/jam/".data ++ c :: r → c ≠ '/' →
          ∃ p', p = x :: p' ∧ xs = p' ++ "itch.io/jam/".data ++ c :: r := by
        intro p c r h hc
        cases p with
        | nil =>
          exfalso
          rw [h, List.nil_append, matchHere_append] at hm
          obtain ⟨slug, hs⟩ := slugPrefix_cons hc r
          rw [hs] at hm
          cases hm
        | cons y p' =>
          simp only [List.cons_append, List.cons.injEq] at h
          obtain ⟨rfl, h⟩ := h
          exact ⟨p', rfl, by simpa using h⟩
      obtain ⟨p, c, r, h, hc⟩ := hex
      obtain ⟨p', rfl, hxs⟩ := hshift p c r h hc
      obtain ⟨pre, slug, after, hcs, hne, hall, hafter, hleft, hfind⟩ := ih ⟨p', c, r, hxs, hc⟩
      refine ⟨x :: pre, slug, after, by simp [hcs], hne, hall, hafter, ?_, ?_⟩
      · intro q c' r' h' hc'
        obtain ⟨q', rfl, hq⟩ := hshift q c' r' h' hc'
        simpa using hleft q' c' r' hq hc'
      · simp [findJamSlug, hm, hfind]

/-! ## The criteria responses -/

theorem mem_replaceAll {old : Char} {new cs : List Char} {x : Char}
    (h : x ∈ replaceAll old new cs) : x ∈ new ∨ (x ∈ cs ∧ x ≠ old) := by
  induction cs with
  | nil => cases h
  | cons c cs ih =>
    simp only [replaceAll] at h
    split_ifs at h with hc
    · rcases List.mem_append.mp h with h | h
      · exact Or.inl h
      · rcases ih h with h | ⟨h, hne⟩
        · exact Or.inl h
        · exact Or.inr ⟨List.mem_cons_of_mem _ h, hne⟩
    · rcases List.mem_cons.mp h with h | h
      · subst h; exact Or.inr ⟨List.mem_cons_self _ _, hc⟩
      · rcases ih h with h | ⟨h, hne⟩
        · exact Or.inl h
        · exact Or.inr ⟨List.mem_cons_of_mem _ h, hne⟩

theorem replaceAll_absent {old : Char} {new cs : List Char} (h : old ∉ cs) :
    replaceAll old new cs = cs := by
  induction cs with
  | nil => rfl
  | cons c cs ih =>
    have hc : c ≠ old := fun hc => h (by rw [hc]; exact List.mem_cons_self _ _)
    have hcs : old ∉ cs := fun hcs => h (List.mem_cons_of_mem _ hcs)
    simp [replaceAll, hc, ih hcs]

theorem replaceAll_delete (old : Char) (cs : List Char) :
    replaceAll old [] cs = cs.filter (fun c => c ≠ old) := by
  induction cs with
  | nil => rfl
  | cons c cs ih =>
    by_cases hc : c = old <;> simp [replaceAll, hc, ih]

theorem replaceAll_single (old new : Char) (cs : List Char) :
    replaceAll old [new] cs = cs.map (fun c => if c = old then new else c) := by
  induction cs with
  | nil => rfl
  | cons c cs ih =>
    by_cases hc : c = old <;> simp [replaceAll, hc, ih]

theorem criteriaKey_data (u : unicode) (q : String) :
    (criteriaKey u q).data =
      replaceAll ' ' ['_'] (replaceAll '?' [] (q.data.map u.ToLower)) := rfl

/-- The characters of a key: lower-case forms other than `?` and the space,
and the underscore. -/
theorem mem_criteriaKey {u : unicode} {q : String} {x : Char} (h : x ∈ (criteriaKey u q).data) :
    x ≠ ' ' ∧ x ≠ '?' ∧ (x = '_' ∨ ∃ c, x = u.ToLower c) := by
  rw [criteriaKey_data] at h
  rcases mem_replaceAll h with h | ⟨h, hne⟩
  · simp only [List.mem_singleton] at h
    subst h
    exact ⟨by decide, by decide, Or.inl rfl⟩
  · rcases mem_replaceAll h with h | ⟨h, hne'⟩
    · cases h
    · obtain ⟨c, -, rfl⟩ := List.mem_map.mp h
      exact ⟨hne, hne', Or.inr ⟨c, rfl⟩⟩

theorem lookup_filter (f : String × String → Bool) (k : String)
    (hf : ∀ kv, f kv = false → kv.1 ≠ k) (m : List (String × String)) :
    List.lookup k (m.filter f) = List.lookup k m := by
  induction m with
  | nil => rfl
  | cons kv m ih =>
    obtain ⟨a, b⟩ := kv
    cases hfa : f (a, b) with
    | true =>
      rw [List.filter_cons_of_pos hfa]
      simp only [List.lookup_cons, ih]
    | false =>
      rw [List.filter_cons_of_neg (by simp [hfa])]
      have hk : (k == a) = false := by
        have := hf (a, b) hfa
        simpa using fun h : k = a => this h.symm
      simp only [List.lookup_cons, hk, ih]

theorem lookup_mapSet (m : List (String × String)) (key value k : String) :
    List.lookup k (mapSet m key value) = if k = key then some value else List.lookup k m := by
  by_cases h : k = key
  · subst h; simp [mapSet, List.lookup_cons]
  · have hk : (k == key) = false := by simpa using h
    rw [mapSet, List.lookup_cons, hk, if_neg h]
    apply lookup_filter
    intro kv hkv
    have : kv.1 = key := by simpa using hkv
    rw [this]
    exact fun h' => h h'.symm

theorem criteriaStep_stored (u : unicode) (m : List (String × String)) (strong text : String)
    (hq : TrimSpace u strong ≠ "") (ha : TrimSpace u text ≠ "") :
    criteriaStep u m strong text =
      mapSet m (criteriaKey u (TrimSpace u strong)) (TrimSpace u text) := by
  simp [criteriaStep, hq, ha]

theorem criteriaStep_skipped (u : unicode) (m : List (String × String)) (strong text : String)
    (h : TrimSpace u strong = "" ∨ TrimSpace u text = "") :
    criteriaStep u m strong text = m := by
  rcases h with h | h <;> simp [criteriaStep, h]

theorem criteriaResponses_append (u : unicode) (ps : List (String × String))
    (p : String × String) :
    criteriaResponses u (ps ++ [p]) = criteriaStep u (criteriaResponses u ps) p.1 p.2 := by
  simp [criteriaResponses, List.foldl_append]

/-- What the map of `FetchGameDetails` holds for a key at the end of the
loop: the trimmed answer of the last element stored under that key. -/
theorem lookup_criteriaResponses (u : unicode) (paragraphs : List (String × String))
    (key : String) :
    List.lookup key (criteriaResponses u paragraphs) =
      (paragraphs.reverse.find? (storedUnder u key)).map (fun p => TrimSpace u p.2) := by
  induction paragraphs using List.reverseRecOn with
  | nil => rfl
  | append_singleton ps p ih =>
    rw [criteriaResponses_append, List.reverse_append, List.reverse_singleton,
      List.singleton_append, List.find?_cons]
    by_cases hs : TrimSpace u p.1 ≠ "" ∧ TrimSpace u p.2 ≠ ""
    · rw [criteriaStep_stored u _ _ _ hs.1 hs.2, lookup_mapSet]
      by_cases hk : key = criteriaKey u (TrimSpace u p.1)
      · have : storedUnder u key p = true := by simp [storedUnder, hs, hk]
        rw [this, if_pos hk]; rfl
      · have : storedUnder u key p = false := by
          simp only [storedUnder, decide_eq_false_iff_not]
          exact fun h => hk h.2.2.symm
        rw [this, if_neg hk]
        exact ih
    · have : storedUnder u key p = false := by
        simp only [storedUnder, decide_eq_false_iff_not]
        exact fun h => hs ⟨h.1, h.2.1⟩
      rw [this, criteriaStep_skipped u _ _ _ (by
        by_cases h1 : TrimSpace u p.1 = ""
        · exact Or.inl h1
        · exact Or.inr (by_contra fun h2 => hs ⟨h1, h2⟩))]
      exact ih

theorem ascii_toLower_idem (c : Char) :
    unicode.ascii.ToLower (unicode.ascii.ToLower c) = unicode.ascii.ToLower c := by
  simp only [unicode.ascii]
  by_cases h : 65 ≤ c.toNat ∧ c.toNat ≤ 90
  · simp only [h, and_self, if_true]
    obtain ⟨h1, h2⟩ := h
    interval_cases c.toNat <;> rfl
  · simp only [h, if_false]

/-! ## The media paths -/

theorem extScan_shape : ∀ (rev acc : List Char), '/' ∉ acc →
    extScan rev acc = [] ∨ ∃ t, extScan rev acc = '.' :: t ∧ '/' ∉ t := by
  intro rev
  induction rev with
  | nil => intro acc _; exact Or.inl rfl
  | cons c rev ih =>
    intro acc hacc
    simp only [extScan]
    split_ifs with h1 h2
    · exact Or.inl rfl
    · exact Or.inr ⟨acc, rfl, hacc⟩
    · apply ih
      intro hin
      rcases List.mem_cons.mp hin with hin | hin
      · exact h1 hin.symm
      · exact hacc hin

/-- The result of `filepath.Ext` on Unix: empty, or a dot followed by
characters among which there is no separator. -/
theorem unixExt_shape (path : String) :
    (unixExt path).data = [] ∨ ∃ t, (unixExt path).data = '.' :: t ∧ '/' ∉ t :=
  extScan_shape path.data.reverse [] (by simp)

theorem splitPath_append : ∀ (xs acc ys : List Char),
    splitPath acc (xs ++ '/' :: ys) = splitPath acc xs ++ splitPath [] ys := by
  intro xs
  induction xs with
  | nil => intro acc ys; simp [splitPath]
  | cons c xs ih =>
    intro acc ys
    simp only [List.cons_append, splitPath]
    split_ifs with hc
    · exact congrArg _ (ih [] ys)
    · exact ih _ _

theorem splitPath_plain : ∀ (n acc : List Char), '/' ∉ n →
    splitPath acc n = [String.mk (acc.reverse ++ n)] := by
  intro n
  induction n with
  | nil => intro acc _; simp [splitPath]
  | cons c n ih =>
    intro acc h
    have hc : c ≠ '/' := fun hc => h (by rw [hc]; exact List.mem_cons_self _ _)
    have hn : '/' ∉ n := fun hn => h (List.mem_cons_of_mem _ hn)
    simp only [splitPath, hc, if_false]
    rw [ih _ hn]
    simp

theorem intercalate_go_append (s : String) : ∀ (l : List String) (acc a : String),
    String.intercalate.go acc s (l ++ [a]) = String.intercalate.go acc s l ++ s ++ a := by
  intro l
  induction l with
  | nil => intro acc a; rfl
  | cons x l ih => intro acc a; exact ih _ _

theorem intercalate_append_single (s : String) (l : List String) (a : String) :
    String.intercalate s (l ++ [a]) =
      (match l with
        | [] => ""
        | _ :: _ => String.intercalate s l ++ s) ++ a := by
  cases l with
  | nil => show String.intercalate.go a s [] = "" ++ a; simp [String.intercalate.go]
  | cons x l => exact intercalate_go_append s l x a
theorem cleanElem_plain (rooted : Bool) (out : List String) {name : String}
    (h : PlainName name) : cleanElem rooted out name = name :: out := by
  obtain ⟨-, h1, h2, h3⟩ := h
  simp [cleanElem, h1, h2, h3]

theorem unixClean_plain {name : String} (h : PlainName name) : unixClean name = name := by
  have hne : name ≠ "" := h.2.1
  have hroot : ¬ (name.data.head? = some '/') := by
    intro hh
    cases hd : name.data with
    | nil => rw [hd] at hh; cases hh
    | cons c cs =>
      rw [hd] at hh
      simp only [List.head?_cons, Option.some.injEq] at hh
      exact h.1 (by rw [hd, hh]; exact List.mem_cons_self _ _)
  have hsplit : splitPath [] name.data = [name] := by
    rw [splitPath_plain _ _ h.1]; rfl
  simp only [unixClean, hne, if_false, hroot, hsplit, decide_False, List.foldl_cons,
    List.foldl_nil, cleanElem_plain _ _ h, List.reverse_cons, List.reverse_nil, List.nil_append,
    String.intercalate, String.intercalate.go]

/-- The function `filepath.Join` on Unix, for a directory and a plain file
name: a string that depends on the directory alone, followed by the name. -/
theorem unixJoin_pair (dir : String) :
    ∃ lead : String, ∀ name, PlainName name → unixJoin [dir, name] = lead ++ name := by
  by_cases hdir : dir = ""
  · refine ⟨"", fun name h => ?_⟩
    subst hdir
    have hne : name ≠ "" := h.2.1
    simp only [unixJoin, List.dropWhile, decide_True, hne, decide_False]
    simp only [String.intercalate, String.intercalate.go]
    rw [unixClean_plain h]
    simp
  · have hdata : dir.data ≠ [] := fun h => hdir (String.ext h)
    refine ⟨(if dir.data.head? = some '/' then "/" else "") ++
      (match ((splitPath [] dir.data).foldl
          (cleanElem (decide (dir.data.head? = some '/'))) []).reverse with
        | [] => ""
        | x :: l => String.intercalate "/" (x :: l) ++ "/"), fun name h => ?_⟩
    have hpath : String.intercalate "/" [dir, name] = dir ++ "/" ++ name := rfl
    have hne : dir ++ "/" ++ name ≠ "" := by
      intro h0
      have := congrArg String.data h0
      simp only [String.data_append] at this
      cases hd : dir.data with
      | nil => exact hdata hd
      | cons c cs => rw [hd] at this; cases this
    have hhead : (dir ++ "/" ++ name).data.head? = dir.data.head? := by
      simp only [String.data_append]
      cases hd : dir.data with
      | nil => exact absurd hd hdata
      | cons c cs => rfl
    have hsplit : splitPath [] (dir ++ "/" ++ name).data = splitPath [] dir.data ++ [name] := by
      have : (dir ++ "/" ++ name).data = dir.data ++ '/' :: name.data := by
        simp only [String.data_append]
        rw [List.append_assoc]; rfl
      rw [this, splitPath_append, splitPath_plain _ _ h.1]
      rfl
    have hbody : ∀ l : List String, String.intercalate "/" (l ++ [name]) ≠ "" := by
      intro l h0
      rw [intercalate_append_single] at h0
      have := congrArg String.data h0
      simp only [String.data_append] at this
      have hn : name.data = [] := (List.append_eq_nil.mp this).2
      exact h.2.1 (String.ext hn)
    simp only [unixJoin, List.dropWhile, hdir, decide_False, hpath]
    simp only [unixClean, hne, if_false, hhead, hsplit, List.foldl_append, List.foldl_cons,
      List.foldl_nil, cleanElem_plain _ _ h, List.reverse_cons]
    by_cases hroot : dir.data.head? = some '/'
    · simp only [hroot, if_true, decide_True]
      rw [intercalate_append_single, String.append_assoc]
      generalize (List.foldl (cleanElem true) [] (splitPath [] dir.data)).reverse = l
      cases l <;> rfl
    · simp only [hroot, if_false, decide_False, hbody]
      rw [intercalate_append_single]
      generalize (List.foldl (cleanElem false) [] (splitPath [] dir.data)).reverse = l
      cases l <;> rfl
/-- The file name of the screenshot at index `i` on Unix: `screenshot`, the
decimal digits of `i + 1`, then nothing or a dot and characters without
separator. -/
theorem screenshot_name_shape (i : Nat) (url : String) :
    ∃ ds e : List Char,
      ("screenshot" ++ Itoa (i + 1) ++ unixExt url).data = "screenshot".data ++ ds ++ e ∧
      ds ≠ [] ∧ (∀ c ∈ ds, c.isDigit = true) ∧ decimalValue ds = i + 1 ∧
      (e = [] ∨ ∃ t, e = '.' :: t ∧ '/' ∉ t) := by
  obtain ⟨ds, hds, hne, hdig, hval⟩ := Itoa_nat (i + 1)
  have hcast : ((i : Int) + 1) = ((i + 1 : Nat) : Int) := by push_cast; rfl
  refine ⟨ds, (unixExt url).data, ?_, hne, hdig, hval, unixExt_shape url⟩
  rw [hcast, hds]
  simp only [String.data_append]

theorem plain_of_parts (c : Char) (rest e : List Char)
    (hc : c ≠ '/' ∧ c ≠ '.') (hrest : '/' ∉ rest) (he : e = [] ∨ ∃ t, e = '.' :: t ∧ '/' ∉ t)
    (name : String) (hname : name.data = c :: rest ++ e) : PlainName name := by
  have he' : '/' ∉ e := by
    rcases he with rfl | ⟨t, rfl, ht⟩
    · simp
    · intro h
      rcases List.mem_cons.mp h with h | h
      · cases h
      · exact ht h
  refine ⟨?_, ?_, ?_, ?_⟩
  · rw [hname]
    intro h
    rcases List.mem_append.mp h with h | h
    · rcases List.mem_cons.mp h with h | h
      · exact hc.1 h.symm
      · exact hrest h
    · exact he' h
  · intro h; rw [h] at hname; cases hname
  · intro h; rw [h] at hname
    simp only [List.cons_append] at hname
    have : '.' = c := (List.cons.inj hname).1
    exact hc.2 this.symm
  · intro h; rw [h] at hname
    simp only [List.cons_append] at hname
    have : '.' = c := (List.cons.inj hname).1
    exact hc.2 this.symm

theorem digits_not_sep {ds : List Char} (h : ∀ c ∈ ds, c.isDigit = true) : '/' ∉ ds :=
  fun hin => absurd (h _ hin) (by decide)

theorem screenshot_name_plain (i : Nat) (url : String) :
    PlainName ("screenshot" ++ Itoa (i + 1) ++ unixExt url) := by
  obtain ⟨ds, e, hdata, -, hdig, -, he⟩ := screenshot_name_shape i url
  refine plain_of_parts 's' ("creenshot".data ++ ds) e (by decide) ?_ he _ ?_
  · intro h
    rcases List.mem_append.mp h with h | h
    · revert h; decide
    · exact digits_not_sep hdig h
  · rw [hdata]; simp

theorem cover_name_plain (url : String) : PlainName ("cover" ++ unixExt url) := by
  refine plain_of_parts 'c' "over".data (unixExt url).data (by decide) (by decide)
    (unixExt_shape url) _ ?_
  simp only [String.data_append]

theorem digits_prefix_unique {ds ds' e e' : List Char}
    (hds : ∀ c ∈ ds, c.isDigit = true) (hds' : ∀ c ∈ ds', c.isDigit = true)
    (he : e = [] ∨ ∃ t, e = '.' :: t ∧ '/' ∉ t) (he' : e' = [] ∨ ∃ t, e' = '.' :: t ∧ '/' ∉ t)
    (h : ds ++ e = ds' ++ e') : ds = ds' := by
  have key : ∀ (xs x : List Char), (∀ c ∈ xs, c.isDigit = true) →
      (x = [] ∨ ∃ t, x = '.' :: t ∧ '/' ∉ t) →
      (xs ++ x).takeWhile (fun c => c.isDigit) = xs := by
    intro xs x hxs hx
    rw [List.takeWhile_append_of_pos hxs]
    rcases hx with rfl | ⟨t, rfl, -⟩
    · simp
    · rw [List.takeWhile_cons_of_neg (by decide)]
      simp
  rw [← key ds e hds he, ← key ds' e' hds' he', h]

/-- The file names of two screenshots at different indices differ, whatever
their URLs are. -/
theorem screenshot_names_differ {i j : Nat} (hij : i ≠ j) (url url' : String) :
    "screenshot" ++ Itoa (i + 1) ++ unixExt url ≠ "screenshot" ++ Itoa (j + 1) ++ unixExt url' := by
  intro h
  obtain ⟨ds, e, hdata, -, hdig, hval, he⟩ := screenshot_name_shape i url
  obtain ⟨ds', e', hdata', -, hdig', hval', he'⟩ := screenshot_name_shape j url'
  have hd := congrArg String.data h
  rw [hdata, hdata', List.append_assoc, List.append_assoc] at hd
  have := digits_prefix_unique hdig hdig' he he' (List.append_cancel_left hd)
  rw [this, hval'] at hval
  omega

theorem screenshot_cover_names_differ (i : Nat) (url url' : String) :
    "screenshot" ++ Itoa (i + 1) ++ unixExt url ≠ "cover" ++ unixExt url' := by
  intro h
  have hd := congrArg String.data h
  simp only [String.data_append] at hd
  have : ("screenshot".data ++ (Itoa (i + 1)).data ++ (unixExt url).data).head? =
      ("cover".data ++ (unixExt url').data).head? := by rw [hd]
  simp only [List.append_assoc] at this
  exact absurd this (by
    show ¬ (some 's' = some 'c')
    decide)

theorem unixJoin_plain_inj (dir : String) {a b : String} (ha : PlainName a) (hb : PlainName b)
    (h : unixJoin [dir, a] = unixJoin [dir, b]) : a = b := by
  obtain ⟨lead, hlead⟩ := unixJoin_pair dir
  rw [hlead a ha, hlead b hb] at h
  have := congrArg String.data h
  simp only [String.data_append] at this
  exact String.ext (List.append_cancel_left this)
theorem destsOf_append (t evs : List Event) : destsOf (t ++ evs) = destsOf t ++ destsOf evs := by
  simp [destsOf, downloadCalls]

/-- The paths of two screenshots of one game at different indices differ, and
the path of a screenshot differs from the cover path, on Unix. -/
theorem unix_paths_differ {r : Run} (hfp : r.fp = filepath.unix) (gameID : String) :
    (∀ i j url url', i ≠ j →
      r.screenshotPath gameID i url ≠ r.screenshotPath gameID j url') ∧
    (∀ i url game, r.screenshotPath gameID i url ≠ r.coverPath gameID game) := by
  refine ⟨?_, ?_⟩
  · intro i j url url' hij h
    simp only [Run.screenshotPath, hfp, filepath.unix] at h
    exact screenshot_names_differ hij url url'
      (unixJoin_plain_inj _ (screenshot_name_plain i url) (screenshot_name_plain j url') h)
  · intro i url game h
    simp only [Run.screenshotPath, Run.coverPath, hfp, filepath.unix] at h
    exact screenshot_cover_names_differ i url game.Cover.URL
      (unixJoin_plain_inj _ (screenshot_name_plain i url) (cover_name_plain _) h)

theorem destTrack {r : Run} (hfp : r.fp = filepath.unix) :
    ∀ s, Reachable r s → ∀ i wk, s.workers[i]? = some wk →
      DestTrack r wk.jg wk.pc (own (Caller.game i) s.log) := by
  apply move_invariant (fun _ jg pc t => DestTrack r jg pc t)
  · intro i jg; rfl
  · intro i jg pc pc' evs t hm hq
    have hdiff := unix_paths_differ hfp (Itoa jg.Game.ID)
    cases hm with
    | claim =>
      show destsOf (t ++ []) = []
      rw [List.append_nil]; exact hq
    | build =>
      show destsOf (t ++ []) = []
      rw [List.append_nil]; exact hq
    | fetchFailed game err =>
      show destsOf (t ++ _) = []
      rw [destsOf_append, (hq : destsOf t = [])]; rfl
    | fetched game gameDetails =>
      show destsOf (t ++ _) = []
      rw [destsOf_append, (hq : destsOf t = [])]; rfl
    | saveFailed game err =>
      show (destsOf (t ++ _)).Nodup
      rw [destsOf_append, (hq : destsOf t = [])]; exact List.nodup_nil
    | saved game =>
      show destsOf (t ++ _) = []
      rw [destsOf_append, (hq : destsOf t = [])]; rfl
    | mediaOff game hoff =>
      show (destsOf (t ++ _)).Nodup
      rw [destsOf_append, (hq : destsOf t = [])]; exact List.nodup_nil
    | mediaDirFailed game err hon =>
      show (destsOf (t ++ _)).Nodup
      rw [destsOf_append, (hq : destsOf t = [])]; exact List.nodup_nil
    | mediaDir game hon =>
      show destsOf (t ++ _) = []
      rw [destsOf_append, (hq : destsOf t = [])]; rfl
    | noCover game hc =>
      show (destsOf (t ++ _)).Nodup ∧ _
      rw [destsOf_append, (hq : destsOf t = [])]
      exact ⟨List.nodup_nil, fun p hp => by cases hp⟩
    | cover game err hc =>
      show (destsOf (t ++ _)).Nodup ∧ _
      rw [destsOf_append, (hq : destsOf t = [])]
      refine ⟨List.nodup_singleton _, fun p hp => Or.inl ⟨game, ?_⟩⟩
      simpa [destsOf, downloadCalls, downloadEvent, Call.isDownload, Call.dest?] using hp
    | shot game k screenshot err hk =>
      obtain ⟨hnd, hall⟩ := hq
      have hnew : destsOf [downloadEvent i screenshot
          (r.screenshotPath (Itoa jg.Game.ID) k screenshot) (Outcome.ofError err)] =
          [r.screenshotPath (Itoa jg.Game.ID) k screenshot] := rfl
      show (destsOf (t ++ _)).Nodup ∧ _
      rw [destsOf_append, hnew]
      refine ⟨?_, ?_⟩
      · rw [List.nodup_append]
        refine ⟨hnd, List.nodup_singleton _, ?_⟩
        intro p hp hp'
        rw [List.mem_singleton] at hp'
        subst hp'
        rcases hall _ hp with ⟨g, hg⟩ | ⟨j, url, hj, hp⟩
        · exact hdiff.2 _ _ _ hg
        · exact hdiff.1 k j screenshot url (by omega) hp
      · intro p hp
        rcases List.mem_append.mp hp with hp | hp
        · rcases hall _ hp with hg | ⟨j, url, hj, hp⟩
          · exact Or.inl hg
          · exact Or.inr ⟨j, url, by omega, hp⟩
        · rw [List.mem_singleton] at hp
          exact Or.inr ⟨k, screenshot, by omega, hp⟩
    | shotsDone game k hk =>
      obtain ⟨hnd, -⟩ := hq
      show (destsOf (t ++ [])).Nodup
      rw [List.append_nil]; exact hnd
    | filesOff game hoff =>
      show (destsOf (t ++ [])).Nodup
      rw [List.append_nil]; exact hq
    | filesDir game err hon =>
      show (destsOf (t ++ _)).Nodup
      have hnone : destsOf [createEvent i (r.gameFilesDir (Itoa jg.Game.ID))
          (Outcome.ofError err)] = [] := rfl
      rw [destsOf_append, hnone, List.append_nil]; exact hq
    | release =>
      show (destsOf (t ++ [])).Nodup
      rw [List.append_nil]; exact hq
    | wgDone =>
      show (destsOf (t ++ [])).Nodup
      rw [List.append_nil]; exact hq
theorem shot_dests {r : Run} (hfp : r.fp = filepath.unix) (gameID : String) :
    ∀ (shots : List String) (k : Nat),
      ((shotCalls r gameID k shots).filterMap Call.dest?).Nodup ∧
      ∀ p ∈ (shotCalls r gameID k shots).filterMap Call.dest?,
        ∃ j url, k ≤ j ∧ p = r.screenshotPath gameID j url := by
  intro shots
  induction shots with
  | nil => intro k; exact ⟨List.nodup_nil, fun p hp => by cases hp⟩
  | cons u us ih =>
    intro k
    obtain ⟨hnd, hall⟩ := ih (k + 1)
    have hcons : (shotCalls r gameID k (u :: us)).filterMap Call.dest? =
        r.screenshotPath gameID k u :: (shotCalls r gameID (k + 1) us).filterMap Call.dest? := rfl
    rw [hcons]
    refine ⟨List.nodup_cons.mpr ⟨?_, hnd⟩, ?_⟩
    · intro hin
      obtain ⟨j, url, hj, hp⟩ := hall _ hin
      exact (unix_paths_differ hfp gameID).1 k j u url (by omega) hp
    · intro p hp
      rcases List.mem_cons.mp hp with hp | hp
      · exact ⟨k, u, Nat.le_refl _, hp⟩
      · obtain ⟨j, url, hj, hp⟩ := hall _ hp
        exact ⟨j, url, by omega, hp⟩

/-! ## Calls that share the processor -/

theorem workerStep_cache_swap {r : Run} {i : Nat} {jg : JamGame} {pc pc' : WorkerPC}
    {m s : State} (c : List String) (h : workerStep r i jg pc m = some (pc', s)) :
    ∃ c', workerStep r i jg pc { m with gameCache := c } =
        some (pc', { s with gameCache := c' }) ∧
      ((c' = c ∧ s.gameCache = m.gameCache) ∨
        ∃ g, c' = g :: c ∧ s.gameCache = g :: m.gameCache) := by
  cases pc <;> simp only [workerStep] at h ⊢ <;> (try split at h) <;> (try split at h) <;>
    cases h <;>
    first
    | exact ⟨_ :: c, rfl, Or.inr ⟨_, rfl, rfl⟩⟩
    | exact ⟨c, by simp [State.record, *], Or.inl ⟨rfl, rfl⟩⟩

theorem mainStep_cache_swap {r : Run} {m s : State} (c : List String)
    (hagree : ∀ jg rest, m.main = MainPC.loop (jg :: rest) →
      (Itoa jg.Game.ID ∈ m.gameCache ↔ Itoa jg.Game.ID ∈ c))
    (h : mainStep r m = some s) :
    mainStep r { m with gameCache := c } = some { s with gameCache := c } ∧
      s.gameCache = m.gameCache := by
  unfold mainStep at h ⊢
  split at h <;> rename_i hm <;> simp only [hm] <;> (try split at h) <;> cases h <;>
    simp_all [State.record]

/-- A step of the call does not depend on what else the cache holds: with
another cache that agrees on the id the jam loop is looking up, the same step
is made and writes the same id. -/
theorem step_cache_swap {r : Run} {m s : State} {a : Action} (c : List String)
    (hagree : ∀ jg rest, m.main = MainPC.loop (jg :: rest) →
      (Itoa jg.Game.ID ∈ m.gameCache ↔ Itoa jg.Game.ID ∈ c))
    (h : step r m a = some s) :
    ∃ c', step r { m with gameCache := c } a = some { s with gameCache := c' } ∧
      ((c' = c ∧ s.gameCache = m.gameCache) ∨
        ∃ g, c' = g :: c ∧ s.gameCache = g :: m.gameCache) := by
  cases a with
  | main =>
    obtain ⟨h1, h2⟩ := mainStep_cache_swap c hagree h
    exact ⟨c, h1, Or.inl ⟨rfl, h2⟩⟩
  | worker j =>
    obtain ⟨wk, pc', s'', hwk, hw, rfl⟩ := step_worker_inv h
    obtain ⟨-, hws, -⟩ := workerStep_frame hw
    obtain ⟨c', hw', hc'⟩ := workerStep_cache_swap c hw
    refine ⟨c', ?_, hc'⟩
    have hwk' : ({ m with gameCache := c } : State).workers[j]? = some wk := hwk
    rw [step_worker_of hwk' hw']

theorem sharedExec_append (r : Run) (s : State) (a b : List SharedAction) :
    sharedExec r s (a ++ b) = (sharedExec r s a).bind (fun s' => sharedExec r s' b) := by
  induction a generalizing s with
  | nil => rfl
  | cons x a ih =>
    simp only [List.cons_append, sharedExec]
    cases sharedStep r s x with
    | none => rfl
    | some s' => exact ih s'

theorem sharedExec_own (r : Run) : ∀ (sched : List Action) (s : State),
    sharedExec r s (sched.map SharedAction.own) = exec r s sched := by
  intro sched
  induction sched with
  | nil => intro s; rfl
  | cons a sched ih =>
    intro s
    simp only [List.map_cons, sharedExec, sharedStep, exec]
    cases step r s a with
    | none => rfl
    | some s' => exact ih s'

/-- The entry the jam loop is looking up is an entry of the feed, so the
caches of the call among others and of the call alone agree on its id when
the others claim no id of the feed. -/
theorem lookup_agrees {r : Run} {feed : List JamGame} (hfresh : FreshFeed r feed)
    {others : List String} (hothers : ∀ g ∈ others, g ∉ feedIDs feed)
    {t : State} (ht : Reachable r t)
    (hfeed : ∀ feed', fetchedFeed t.log = some feed' → feed' = feed)
    {c : List String} (hrel : ∀ g, g ∈ c ↔ g ∈ t.gameCache ∨ g ∈ others) :
    ∀ jg rest, t.main = MainPC.loop (jg :: rest) →
      (Itoa jg.Game.ID ∈ c ↔ Itoa jg.Game.ID ∈ t.gameCache) := by
  intro jg rest hm
  obtain ⟨h1, h2⟩ := feedTrack t ht
  have hin : jg ∈ feed := by
    cases hf : fetchedFeed t.log with
    | none =>
      have := (h1 hf).1
      rw [hm] at this
      cases this
    | some feed' =>
      have heq := hfeed feed' hf
      subst heq
      rcases h2 feed' hf with ⟨hp, -⟩ | ⟨pend, hp, heq⟩
      · rw [hm] at hp; cases hp
      · rw [hm] at hp
        cases hp
        rw [← heq hfresh]
        simp
  have hid : Itoa jg.Game.ID ∈ feedIDs feed := List.mem_map.mpr ⟨jg, hin, rfl⟩
  rw [hrel]
  constructor
  · rintro (h | h)
    · exact h
    · exact absurd hid (hothers _ h)
  · exact Or.inl

theorem sharedStep_fetchedFeed {r : Run} {s s' : State} {a : SharedAction}
    (h : sharedStep r s a = some s') {feed : List JamGame}
    (hf : fetchedFeed s.log = some feed) : fetchedFeed s'.log = some feed := by
  cases a with
  | own a => exact step_fetchedFeed h hf
  | other g => cases h; exact hf

/-- The call among other calls that claim no id of its feed goes through the
states of the call alone, up to what the cache holds besides. -/
theorem alone_of_shared {r : Run} {feed : List JamGame} (hfresh : FreshFeed r feed) :
    ∀ (sched : List SharedAction) (s : State),
      sharedExec r (State.start r.p) sched = some s →
      (∀ g ∈ claimedByOthers sched, g ∉ feedIDs feed) →
      (∀ feed', fetchedFeed s.log = some feed' → feed' = feed) →
      ∃ t, Reachable r t ∧ Alone (claimedByOthers sched) s t := by
  intro sched
  induction sched using List.reverseRecOn with
  | nil =>
    intro s h _ _
    cases h
    exact ⟨State.start r.p, reachable_start r, rfl, fun g => by simp [claimedByOthers]⟩
  | append_singleton sched a ih =>
    intro s h hothers hfeed
    rw [sharedExec_append] at h
    cases hmid : sharedExec r (State.start r.p) sched with
    | none => simp [hmid] at h
    | some m =>
      simp only [hmid, Option.some_bind, sharedExec] at h
      cases hst : sharedStep r m a with
      | none => simp [hst] at h
      | some s'' =>
        simp only [hst, Option.some.injEq] at h
        subst h
        have hsplit : claimedByOthers (sched ++ [a]) =
            claimedByOthers sched ++ claimedByOthers [a] := by
          simp [claimedByOthers]
        have hothers' : ∀ g ∈ claimedByOthers sched, g ∉ feedIDs feed :=
          fun g hg => hothers g (by rw [hsplit]; exact List.mem_append_left _ hg)
        have hfeed' : ∀ feed', fetchedFeed m.log = some feed' → feed' = feed :=
          fun feed' hf => hfeed feed' (sharedStep_fetchedFeed hst hf)
        obtain ⟨t, ht, hm, hrel⟩ := ih m hmid hothers' hfeed'
        cases a with
        | other g =>
          cases hst
          refine ⟨t, ht, ?_, ?_⟩
          · show ({ m with gameCache := g :: m.gameCache } : State) =
              { t with gameCache := g :: m.gameCache }
            rw [hm]
          · intro g'
            rw [hsplit]
            simp only [claimedByOthers, List.filterMap_cons, List.filterMap_nil,
              List.mem_append, List.mem_singleton, List.mem_cons]
            rw [hrel g']
            simp only [claimedByOthers]
            tauto
        | own a =>
          have hst' : step r m a = some s'' := hst
          have hlog : t.log = m.log := by rw [hm]
          have hmain : t.main = m.main := by rw [hm]
          have hagree : ∀ jg rest, m.main = MainPC.loop (jg :: rest) →
              (Itoa jg.Game.ID ∈ m.gameCache ↔ Itoa jg.Game.ID ∈ t.gameCache) := by
            intro jg rest hmm
            exact lookup_agrees hfresh hothers' ht (by rw [hlog]; exact hfeed') hrel jg rest
              (by rw [hmain]; exact hmm)
          obtain ⟨c', hstep, hc'⟩ := step_cache_swap t.gameCache hagree hst'
          have hmt : ({ m with gameCache := t.gameCache } : State) = t := by rw [hm]
          rw [hmt] at hstep
          refine ⟨_, reachable_step ht hstep, rfl, ?_⟩
          have hnone : claimedByOthers [SharedAction.own a] = [] := rfl
          intro g'
          rw [hsplit, hnone, List.append_nil]
          rcases hc' with ⟨rfl, hs⟩ | ⟨g, rfl, hs⟩
          · rw [hs]; exact hrel g'
          · rw [hs]
            simp only [List.mem_cons, hrel g']
            tauto

/-- The steps of the call alone can be made by the call among other calls
that claim no id of its feed. -/
theorem shared_of_alone {r : Run} {feed : List JamGame} (hfresh : FreshFeed r feed)
    {others : List String} (hothers : ∀ g ∈ others, g ∉ feedIDs feed) :
    ∀ (sched : List Action) (t s t' : State), Reachable r t → Alone others s t →
      fetchedFeed t.log = some feed → exec r t sched = some t' →
      ∃ s', exec r s sched = some s' ∧ Alone others s' t' := by
  intro sched
  induction sched with
  | nil =>
    intro t s t' _ hal _ h
    cases h
    exact ⟨s, rfl, hal⟩
  | cons a sched ih =>
    intro t s t' ht hal hfeed h
    simp only [exec] at h
    cases hst : step r t a with
    | none => simp [hst] at h
    | some t1 =>
      simp only [hst] at h
      obtain ⟨hs, hrel⟩ := hal
      have hagree : ∀ jg rest, t.main = MainPC.loop (jg :: rest) →
          (Itoa jg.Game.ID ∈ t.gameCache ↔ Itoa jg.Game.ID ∈ s.gameCache) := by
        intro jg rest hm
        exact (lookup_agrees hfresh hothers ht
          (fun feed' hf => by rw [hfeed] at hf; cases hf; rfl) hrel jg rest hm).symm
      obtain ⟨c', hstep, hc'⟩ := step_cache_swap s.gameCache hagree hst
      rw [← hs] at hstep
      have hal1 : Alone others { t1 with gameCache := c' } t1 := by
        refine ⟨rfl, fun g => ?_⟩
        rcases hc' with ⟨rfl, ht1⟩ | ⟨g0, rfl, ht1⟩
        · rw [ht1]; exact hrel g
        · rw [ht1]
          simp only [List.mem_cons, hrel g]
          tauto
      obtain ⟨s', hex, hal'⟩ := ih t1 _ t' (reachable_step ht hst) hal1
        (step_fetchedFeed hst hfeed) h
      exact ⟨s', by simp only [exec, hstep]; exact hex, hal'⟩

theorem savedOnce_of_alone {r : Run} {feed : List JamGame} {others : List String}
    {s t : State} (hal : Alone others s t) (h : SavedOnce r feed t) : SavedOnce r feed s := by
  rw [hal.1]
  exact h

/-! ## The claims -/

/-- C1: `ProcessJam` returns an error exactly when one of the four fatal steps
(creation of the jam directory, `FetchJamMetadata`, `SaveJamMetadata`,
`FetchJamEntries`) has failed, for every jam id, every configuration, every
outcome of the collaborators and every interleaving: in each reachable state
the call has returned an error if and only if the history holds a failed
fatal step.  So a returned error is `nil` whenever no fatal step failed,
whatever else failed (the jam cover, the detail fetches, the saves of game
records, the media downloads).  With a worker limit of at least 1 the call
does return: no reachable state is stuck before the return, every reachable
state can be run on to the return, and no run is infinite. -/
theorem ProcessJam_error_iff_fatal (r : Run) :
    (∀ s, Reachable r s →
      ((∃ err, s.main = MainPC.returned (some err)) ↔ fatalFailed s.log = true)) ∧
    (∀ s, Reachable r s → fatalFailed s.log = false →
      ∀ err, s.main = MainPC.returned err → err = none) ∧
    (1 ≤ r.cfg.Workers → ∀ s, Reachable r s →
      (s.returned ∨ ∃ a s', step r s a = some s') ∧
      ∃ sched s', exec r s sched = some s' ∧ s'.returned) ∧
    WellFounded (Follows r) := by
  refine ⟨?_, ?_, ?_, follows_wf r⟩
  · intro s hs
    rw [← failed_eq_fatalFailed s hs, MainPC.failed_iff]
  · intro s hs hf err hm
    have h := failed_eq_fatalFailed s hs
    rw [hf, hm] at h
    cases err with
    | none => rfl
    | some e => simp [MainPC.failed] at h
  · intro hW s hs
    exact ⟨progress hW s hs, can_return hW s hs⟩

/-- C1, witness: a run in which the jam cover download, a detail fetch, a
save of a game record and the media downloads fail returns `nil`. -/
theorem ProcessJam_error_iff_fatal_witness :
    Reachable (sampleRun lossyScript) lossyFinal ∧
    (1 : Int) ≤ (sampleRun lossyScript).cfg.Workers ∧
    lossyFinal.main = MainPC.returned none ∧
    lossyFinal.log.countP Event.failed = 6 ∧
    fatalFailed lossyFinal.log = false ∧
    ((∃ err, lossyFinal.main = MainPC.returned (some err)) ↔ fatalFailed lossyFinal.log = true) ∧
    ((lossyFinal.returned ∨ ∃ a s', step (sampleRun lossyScript) lossyFinal a = some s') ∧
      ∃ sched s', exec (sampleRun lossyScript) lossyFinal sched = some s' ∧ s'.returned) :=
  ⟨⟨lossySched, by rfl⟩, by decide, by rfl, by rfl, by rfl,
    (ProcessJam_error_iff_fatal (sampleRun lossyScript)).1
      lossyFinal ⟨lossySched, by rfl⟩,
    (ProcessJam_error_iff_fatal (sampleRun lossyScript)).2.2.1
      (by decide) lossyFinal ⟨lossySched, by rfl⟩⟩

/-- C2: a game task whose `FetchGameDetails` call failed still saves its
record exactly once, and the record is the basic submission built from the
feed entry.  In every reachable state, for every started worker with a failed
detail fetch in the history: either the worker stands at the save of the basic
submission and has made no save yet, and its next step is that save; or it is
past the save and the history holds exactly one save by it, of the basic
submission.  Once `ProcessJam` has returned the second case holds.  The basic
submission carries the base fields of the feed entry and empty enrichment
fields. -/
theorem failed_details_record_saved_once (r : Run) (s : State)
    (hs : Reachable r s) (i : Nat) (wk : Worker) (hwk : s.workers[i]? = some wk)
    (e : Event) (he : e ∈ s.log) (hwho : e.who = Caller.game i)
    (hcall : e.call.isDetails = true) (hfailed : e.failed = true) :
    ((wk.pc = WorkerPC.save (baseSubmission wk.jg) ∧ savesOf (Caller.game i) s.log = [] ∧
        ∃ s' out, step r s (Action.worker i) = some s' ∧
          savesOf (Caller.game i) s'.log = [saveEvent r i wk.jg (baseSubmission wk.jg) out]) ∨
      (wk.pc.pastSave = true ∧
        ∃ out, savesOf (Caller.game i) s.log = [saveEvent r i wk.jg (baseSubmission wk.jg) out])) ∧
    (s.returned →
      ∃ out, savesOf (Caller.game i) s.log = [saveEvent r i wk.jg (baseSubmission wk.jg) out]) ∧
    ((baseSubmission wk.jg).ID = Itoa wk.jg.Game.ID ∧
      (baseSubmission wk.jg).Title = wk.jg.Game.Title ∧
      (baseSubmission wk.jg).URL = wk.jg.Game.URL ∧
      (baseSubmission wk.jg).Platforms = wk.jg.Game.Platforms ∧
      (baseSubmission wk.jg).CreatedAt = wk.jg.CreatedAt ∧
      (baseSubmission wk.jg).Coolness = wk.jg.Coolness ∧
      (baseSubmission wk.jg).RatingCount = wk.jg.RatingCount ∧
      (baseSubmission wk.jg).Cover = { URL := wk.jg.Game.Cover, Color := wk.jg.Game.CoverColor }) ∧
    ((baseSubmission wk.jg).Description = "" ∧ (baseSubmission wk.jg).Screenshots = [] ∧
      (baseSubmission wk.jg).Downloads = [] ∧ (baseSubmission wk.jg).Comments = [] ∧
      (baseSubmission wk.jg).CriteriaResponses = []) := by
  have hshape := taskShape s hs i wk hwk
  have hcases := saves_of_failed_details hshape (mem_own he hwho) hcall hfailed
  refine ⟨?_, ?_, ⟨rfl, rfl, rfl, rfl, rfl, rfl, rfl, rfl⟩, ⟨rfl, rfl, rfl, rfl, rfl⟩⟩
  · rcases hcases with ⟨hpc, hnone⟩ | hpast
    · left
      refine ⟨hpc, hnone, ?_⟩
      obtain ⟨⟨pc', s''⟩, hw⟩ := workerStep_enabled r i wk.jg wk.pc s (by simp [hpc]) (by simp [hpc])
        (by simp [hpc])
      have hstep := step_worker_of hwk hw
      have hs' := reachable_step hs hstep
      obtain ⟨evs, hl, hm⟩ := workerStep_move hw
      obtain ⟨-, hws, -⟩ := workerStep_frame hw
      have hi : i < s.workers.length := (List.getElem?_eq_some_iff.mp hwk).1
      have hwk' : (s''.workers.set i { jg := wk.jg, pc := pc' })[i]? =
          some { jg := wk.jg, pc := pc' } := by
        rw [hws, List.getElem?_set_self hi]
      have he' : e ∈ s''.log := by rw [hl]; exact List.mem_append_left _ he
      have hshape' := taskShape _ hs' i _ hwk'
      rcases saves_of_failed_details hshape' (mem_own he' hwho) hcall hfailed with
        ⟨hpc', -⟩ | ⟨-, out, hout⟩
      · rw [hpc] at hm
        cases hm <;> cases hpc'
      · exact ⟨_, out, hstep, hout⟩
    · exact Or.inr hpast
  · intro hret
    have hex := exited_of_returned hs hret hwk
    rcases hcases with ⟨hpc, -⟩ | ⟨-, hsaved⟩
    · rw [hex] at hpc; cases hpc
    · exact hsaved

/-- C2, witness: in the sample run the detail fetch of game 7 fails and the
history of the finished run holds exactly one save by that task, of the basic
submission. -/
theorem failed_details_record_saved_once_witness :
    ∃ out, savesOf (Caller.game 0) lossyFinal.log =
      [saveEvent (sampleRun lossyScript) 0 (sampleGame 7 "" [])
        (baseSubmission (sampleGame 7 "" [])) out] :=
  (failed_details_record_saved_once (sampleRun lossyScript)
    lossyFinal ⟨lossySched, by rfl⟩ 0 { jg := sampleGame 7 "" [], pc := WorkerPC.exited } (by rfl)
    (detailsEvent (sampleRun lossyScript) 0 (sampleGame 7 "" [])
      (Outcome.error "failed to fetch page, status code: 500"))
    (by decide) rfl rfl rfl).2.1 ⟨none, by rfl⟩

/-- C3, at the failing input: the feed holds game id 7 twice and the jam loop
reaches the second entry before the first worker has claimed the id (the
lookup of l.91-93 and the claim of l.111-113 are two steps of two goroutines).
Both entries are admitted, and the run makes two detail fetches and two saves
for id 7.  Under the interleaving in which the first worker claims before the
second lookup, the same feed gives one of each. -/
theorem duplicate_id_processed_twice :
    Reachable (sampleRun twiceScript) raceFinal ∧
    raceFinal.main = MainPC.returned none ∧
    raceFinal.workers.length = 2 ∧
    raceFinal.log.countP (fun e => e.call = Call.FetchGameDetails "demo" "7") = 2 ∧
    raceFinal.log.countP (fun e => e.call.isSave && e.call.gameID? = some "7") = 2 ∧
    Reachable (sampleRun twiceScript) calmFinal ∧
    calmFinal.main = MainPC.returned none ∧
    calmFinal.log.countP (fun e => e.call = Call.FetchGameDetails "demo" "7") = 1 ∧
    calmFinal.log.countP (fun e => e.call.isSave && e.call.gameID? = some "7") = 1 :=
  ⟨⟨raceSched, by rfl⟩, by rfl, by rfl, by decide, by decide,
    ⟨calmSched, by rfl⟩, by rfl, by decide, by decide⟩

/-- C5: a failed fatal step stops everything after it.  If the creation of
the jam directory fails, the first step of `ProcessJam` returns the error, and
in every reachable state no game task is started and the history holds nothing
but that failed creation: no fetcher operation is called and nothing is
persisted.  If the directory is created and `FetchJamMetadata` fails, the
second step returns the error, and in every reachable state no game task is
started and the history holds nothing but the creation and the failed fetch:
`SaveJamMetadata` and `FetchJamEntries` are never called. -/
theorem fatal_step_stops_run (r : Run) (err : String) :
    (r.w.CreateDirectory [] r.jamDir = some err →
      (∃ s, exec r (State.start r.p) [Action.main] = some s ∧
        s.main = MainPC.returned (some ("failed to create jam directory: " ++ err))) ∧
      ∀ s, Reachable r s → s.workers = [] ∧
        ∀ e ∈ s.log, e = jamDirEvent r (Outcome.error err)) ∧
    (r.w.CreateDirectory [] r.jamDir = none →
      r.w.FetchJamMetadata [jamDirEvent r Outcome.ok] r.jamID = Except.error err →
      (∃ s, exec r (State.start r.p) [Action.main, Action.main] = some s ∧
        s.main = MainPC.returned (some ("failed to fetch jam metadata: " ++ err))) ∧
      ∀ s, Reachable r s → s.workers = [] ∧
        ∀ e ∈ s.log, e = jamDirEvent r Outcome.ok ∨ e = metadataEvent r (Outcome.error err)) := by
  constructor
  · intro h
    constructor
    · simp only [exec, step, mainStep, State.start, h]
      exact ⟨_, rfl, rfl⟩
    · intro s hs
      obtain ⟨hw, hcase⟩ := createDir_failed_states h s hs
      refine ⟨hw, ?_⟩
      rcases hcase with ⟨-, hl⟩ | ⟨-, hl⟩ <;> simp [hl]
  · intro h1 h2
    constructor
    · have h2' : r.w.FetchJamMetadata
          [{ who := Caller.jam, call := Call.CreateDirectory r.jamDir, out := Outcome.ok }]
          r.jamID = Except.error err := h2
      simp only [exec, step, mainStep, State.start, State.record, h1, List.nil_append, h2']
      exact ⟨_, rfl, rfl⟩
    · intro s hs
      obtain ⟨hw, hcase⟩ := fetchMetadata_failed_states h1 h2 s hs
      refine ⟨hw, ?_⟩
      rcases hcase with ⟨-, hl⟩ | ⟨-, hl⟩ | ⟨-, hl⟩ <;> simp [hl]

/-- C5, witness: the sample run in which the jam directory cannot be created,
and the sample run in which the metadata fetch fails. -/
theorem fatal_step_stops_run_witness :
    ((∃ s, exec (sampleRun noDirScript) (State.start (sampleRun noDirScript).p) [Action.main] =
          some s ∧
        s.main = MainPC.returned (some ("failed to create jam directory: " ++ "permission denied"))) ∧
      ∀ s, Reachable (sampleRun noDirScript) s → s.workers = [] ∧
        ∀ e ∈ s.log, e = jamDirEvent (sampleRun noDirScript) (Outcome.error "permission denied")) ∧
    ((∃ s, exec (sampleRun noMetadataScript) (State.start (sampleRun noMetadataScript).p)
          [Action.main, Action.main] = some s ∧
        s.main = MainPC.returned (some ("failed to fetch jam metadata: " ++
          "failed to fetch page, status code: 404"))) ∧
      ∀ s, Reachable (sampleRun noMetadataScript) s → s.workers = [] ∧
        ∀ e ∈ s.log, e = jamDirEvent (sampleRun noMetadataScript) Outcome.ok ∨
          e = metadataEvent (sampleRun noMetadataScript)
            (Outcome.error "failed to fetch page, status code: 404")) :=
  ⟨(fatal_step_stops_run (sampleRun noDirScript) "permission denied").1 (by rfl),
    (fatal_step_stops_run (sampleRun noMetadataScript)
      "failed to fetch page, status code: 404").2 (by rfl) (by rfl)⟩

/-- C6: the basic submission built by a game task lists the owner first and
then one author per contributor, in the order of the feed: with `n`
contributors the list has `n + 1` elements, element 0 is the owner and element
`i + 1` has the name and the URL of contributor `i`.  Building it makes no
call: the step of the worker that builds the record leaves the whole state,
the history of calls included, as it was, and hands the record to the detail
fetch; and in every reachable state a worker that is about to fetch the
details holds this record and has made no call yet. -/
theorem base_record_authors (jg : JamGame) :
    (baseSubmission jg).Authors.length = jg.Contributors.length + 1 ∧
    (baseSubmission jg).Authors[0]? = some jg.Game.User ∧
    (∀ i c, jg.Contributors[i]? = some c →
      ∃ a, (baseSubmission jg).Authors[i + 1]? = some a ∧ a.Name = c.Name ∧ a.URL = c.URL) ∧
    (∀ (r : Run) (i : Nat) (s : State),
      workerStep r i jg WorkerPC.build s = some (WorkerPC.fetch (baseSubmission jg), s)) ∧
    (∀ (r : Run) (s : State), Reachable r s → ∀ i wk game, s.workers[i]? = some wk →
      wk.jg = jg → wk.pc = WorkerPC.fetch game →
      game = baseSubmission jg ∧ own (Caller.game i) s.log = []) := by
  have hA : (baseSubmission jg).Authors = baseAuthors jg := rfl
  rw [hA, baseAuthors_eq]
  refine ⟨by simp, by simp, ?_, fun r i s => rfl, ?_⟩
  · intro i c hc
    refine ⟨{ Name := c.Name, ID := 0, URL := c.URL }, ?_, rfl, rfl⟩
    simp [List.getElem?_map, hc]
  · intro r s hs i wk game hwk hjg hpc
    have hshape := taskShape s hs i wk hwk
    rw [hpc, hjg] at hshape
    exact ⟨hshape.2, hshape.1⟩

/-- C6, witness: an entry with two contributors. -/
theorem base_record_authors_witness :
    ∃ a, (baseSubmission teamGame).Authors[1 + 1]? = some a ∧ a.Name = "bob" ∧
      a.URL = "https://bob.itch.io" :=
  (base_record_authors teamGame).2.2.1 1 { Name := "bob", URL := "https://bob.itch.io" } (by rfl)

/-- C7: if the save of a game record fails, the task runs neither the media
stage nor the game-file stage, whatever the two flags are.  In every reachable
state, a worker with a failed `SaveGameSubmission` in the history stands in
its deferred calls or has ended, and the history holds no directory creation
and no `DownloadFile` by it. -/
theorem failed_save_stops_task (r : Run) (s : State) (hs : Reachable r s) (i : Nat)
    (wk : Worker) (hwk : s.workers[i]? = some wk) (e : Event) (he : e ∈ s.log)
    (hwho : e.who = Caller.game i) (hcall : e.call.isSave = true) (hfailed : e.failed = true) :
    (wk.pc = WorkerPC.release ∨ wk.pc = WorkerPC.wgDone ∨ wk.pc = WorkerPC.exited) ∧
    (∀ e' ∈ s.log, e'.who = Caller.game i →
      e'.call.isCreate = false ∧ e'.call.isDownload = false) := by
  obtain ⟨h0, h1, h2⟩ := saveGuard s hs i wk hwk
  have hf : anySaveFailed (own (Caller.game i) s.log) = true := by
    simp only [anySaveFailed, List.any_eq_true]
    exact ⟨e, mem_own he hwho, by simp [hcall, hfailed]⟩
  have hpart : wk.pc.part = 2 := by
    have : wk.pc.part = 0 ∨ wk.pc.part = 1 ∨ wk.pc.part = 2 := by
      cases wk.pc <;> simp [WorkerPC.part]
    rcases this with h | h | h
    · rw [(h0 h).1] at hf; cases hf
    · rw [h1 h] at hf; cases hf
    · exact h
  constructor
  · cases hpc : wk.pc <;> simp [hpc, WorkerPC.part] at hpart ⊢
  · intro e' he' hwho'
    have hn := h2 hpart hf
    simp only [noStageCall, List.all_eq_true] at hn
    simpa using hn e' (mem_own he' hwho')

/-- C7, witness: in the sample run the save of game 8 fails, and the finished
run holds no directory creation and no download by that task. -/
theorem failed_save_stops_task_witness :
    ((WorkerPC.exited = WorkerPC.release ∨ WorkerPC.exited = WorkerPC.wgDone ∨
        WorkerPC.exited = WorkerPC.exited) ∧
      (∀ e' ∈ lossyFinal.log, e'.who = Caller.game 1 →
        e'.call.isCreate = false ∧ e'.call.isDownload = false)) ∧
    lossyFinal.log.countP (fun e => e.who = Caller.game 1) = 2 :=
  ⟨failed_save_stops_task (sampleRun lossyScript) lossyFinal ⟨lossySched, by rfl⟩ 1
    { jg := sampleGame 8 "" [], pc := WorkerPC.exited } (by rfl)
    (saveEvent (sampleRun lossyScript) 1 (sampleGame 8 "" [])
      (enrich (baseSubmission (sampleGame 8 "" [])) sampleDetails) (Outcome.error "disk full"))
    (by decide) rfl rfl rfl, by decide⟩

/-- C8: for a persisted game record, with media download enabled and the media
directory created, `downloadGameMedia` attempts exactly the downloads of
`mediaCalls`: the cover if and only if its URL is not empty, then one download
per screenshot URL in list order, whatever the outcomes of the downloads are.
In every reachable state, for a worker whose save of `game` succeeded and whose
first directory creation (with media download enabled, the one of the media
directory) succeeded: the downloads it has made so far are an initial part of
`mediaCalls`, and they are all of `mediaCalls` once the worker has left the
media stage, in particular once `ProcessJam` has returned. -/
theorem media_downloads_attempted (r : Run) (s : State) (hs : Reachable r s) (i : Nat)
    (wk : Worker) (hwk : s.workers[i]? = some wk) (game : GameSubmission)
    (hsaved : saveEvent r i wk.jg game Outcome.ok ∈ s.log)
    (hon : r.cfg.DownloadMedia = true)
    (hdir : (dirResults (own (Caller.game i) s.log)).head? = some false) :
    (∃ rest, downloadCalls (own (Caller.game i) s.log) ++ rest =
      mediaCalls r (Itoa wk.jg.Game.ID) game) ∧
    (wk.pc.pastMedia = true →
      downloadCalls (own (Caller.game i) s.log) = mediaCalls r (Itoa wk.jg.Game.ID) game) ∧
    (s.returned →
      downloadCalls (own (Caller.game i) s.log) = mediaCalls r (Itoa wk.jg.Game.ID) game) ∧
    (mediaCalls r (Itoa wk.jg.Game.ID) game).filterMap Call.url? =
      (if game.Cover.URL ≠ "" then [game.Cover.URL] else []) ++ game.Screenshots := by
  have htrack := mediaTrack s hs i wk hwk
  have hmem : game ∈ okSaves (own (Caller.game i) s.log) :=
    mem_okSaves (mem_own hsaved rfl) rfl rfl
  have hpast : wk.pc.pastMedia = true →
      downloadCalls (own (Caller.game i) s.log) = mediaCalls r (Itoa wk.jg.Game.ID) game := by
    intro hp
    cases hpc : wk.pc <;> rw [hpc] at htrack hp <;> simp only [WorkerPC.pastMedia] at hp <;>
      try cases hp
    · obtain ⟨h1, h2, -⟩ := htrack
      rw [h1, List.mem_singleton] at hmem
      subst hmem
      exact h2 hon hdir
    · exact htrack game hmem hon hdir
    · exact htrack game hmem hon hdir
    · exact htrack game hmem hon hdir
  refine ⟨?_, hpast, ?_, mediaCalls_urls r _ game⟩
  · have hdone : wk.pc.pastMedia = true → ∃ rest,
        downloadCalls (own (Caller.game i) s.log) ++ rest =
          mediaCalls r (Itoa wk.jg.Game.ID) game :=
      fun hp => ⟨[], by rw [List.append_nil]; exact hpast hp⟩
    cases hpc : wk.pc with
    | claim => rw [hpc] at htrack; obtain ⟨h1, -, -⟩ := htrack; rw [h1] at hmem; cases hmem
    | build => rw [hpc] at htrack; obtain ⟨h1, -, -⟩ := htrack; rw [h1] at hmem; cases hmem
    | fetch g => rw [hpc] at htrack; obtain ⟨h1, -, -⟩ := htrack; rw [h1] at hmem; cases hmem
    | save g => rw [hpc] at htrack; obtain ⟨h1, -, -⟩ := htrack; rw [h1] at hmem; cases hmem
    | media g => rw [hpc] at htrack; obtain ⟨-, h2, -⟩ := htrack; rw [h2] at hdir; cases hdir
    | mediaCover g =>
      rw [hpc] at htrack
      obtain ⟨h1, -, h3⟩ := htrack
      rw [h1, List.mem_singleton] at hmem
      subst hmem
      exact ⟨_, by rw [h3, List.nil_append]⟩
    | mediaShots g k =>
      rw [hpc] at htrack
      obtain ⟨h1, -, h3⟩ := htrack
      rw [h1, List.mem_singleton] at hmem
      subst hmem
      exact ⟨_, h3⟩
    | files g => exact hdone (by rw [hpc]; rfl)
    | release => exact hdone (by rw [hpc]; rfl)
    | wgDone => exact hdone (by rw [hpc]; rfl)
    | exited => exact hdone (by rw [hpc]; rfl)
  · intro hret
    exact hpast (by rw [exited_of_returned hs hret hwk]; rfl)

/-- C8, witness: in the sample run the record of game 9 is saved and its
media directory created; all three downloads fail, and all three are made: the
cover, then the two screenshots in order. -/
theorem media_downloads_attempted_witness :
    downloadCalls (own (Caller.game 2) lossyFinal.log) =
      mediaCalls (sampleRun lossyScript) (Itoa 9)
        (enrich (baseSubmission (sampleGame 9 "https://img.itch.zone/c.png" [])) sampleDetails) :=
  (media_downloads_attempted (sampleRun lossyScript) lossyFinal ⟨lossySched, by rfl⟩ 2
    { jg := sampleGame 9 "https://img.itch.zone/c.png" [], pc := WorkerPC.exited } (by rfl)
    (enrich (baseSubmission (sampleGame 9 "https://img.itch.zone/c.png" [])) sampleDetails)
    (by decide) (by rfl) (by decide)).2.2.1 ⟨none, by rfl⟩

/-- C9: in every reachable state of a run with worker limit at least 1, the
number of game tasks that hold a slot (admitted by the send on the semaphore
at l.101 and not yet past the deferred receive of l.105) is at most the worker
limit.  The channel holds exactly one value per such task: a worker is started
holding the slot the jam loop acquired for it, and every worker that runs its
exit path, after the normal end or after the early return of a failed save,
has given its slot back; while as many tasks as the limit hold a slot the jam
loop cannot pass its send; when `ProcessJam` has returned the channel is
empty. -/
theorem admitted_at_most_workers (r : Run) (hW : 1 ≤ r.cfg.Workers) (s : State)
    (hs : Reachable r s) :
    (admitted s : Int) ≤ r.cfg.Workers ∧
    s.semaphore = admitted s ∧
    (∀ wk ∈ s.workers, wk.pc = WorkerPC.wgDone ∨ wk.pc = WorkerPC.exited ↔
      wk.pc.holdsSlot = false) ∧
    (∀ jg rest, s.main = MainPC.acquire jg rest → (admitted s : Int) = r.cfg.Workers →
      step r s Action.main = none) ∧
    (s.returned → s.semaphore = 0) := by
  obtain ⟨h1, h2, h3⟩ := accounted s hs
  refine ⟨?_, h1, ?_, ?_, ?_⟩
  · rcases h3 with h3 | h3 <;> omega
  · intro wk _
    cases wk.pc <;> simp [WorkerPC.holdsSlot]
  · intro jg rest hm hfull
    have : ¬ (s.semaphore : Int) < r.cfg.Workers := by rw [h1]; omega
    simp [step, mainStep, hm, this]
  · intro hret
    have hall : ∀ wk ∈ s.workers, wk.pc = WorkerPC.exited := by
      intro wk hwk
      obtain ⟨i, hi⟩ := List.mem_iff_getElem?.mp hwk
      exact exited_of_returned hs hret hi
    have hc : s.workers.countP (fun wk => wk.pc.holdsSlot) = 0 := by
      rw [List.countP_eq_zero]
      intro wk hwk
      simp [hall wk hwk, WorkerPC.holdsSlot]
    obtain ⟨err, herr⟩ := hret
    simp only [admitted, hc, herr, MainPC.slot] at h1
    omega

/-- C9, witness: with the default limit of 2 and both workers of the sample
feed started, two tasks hold a slot. -/
theorem admitted_at_most_workers_witness :
    admitted busyState = 2 ∧ ((admitted busyState : Int) ≤ (sampleRun twiceScript).cfg.Workers ∧
      busyState.semaphore = admitted busyState) :=
  ⟨by decide,
    (admitted_at_most_workers (sampleRun twiceScript) (by decide) busyState
      ⟨schedHead ++ List.replicate 6 Action.main, by rfl⟩).1,
    (admitted_at_most_workers (sampleRun twiceScript) (by decide) busyState
      ⟨schedHead ++ List.replicate 6 Action.main, by rfl⟩).2.1⟩

/-- C10, counterexample: for a URL that does not hold `itch.io/jam/` followed
by a slug, `ExtractJamID` sends its request as its first effect; no sleep
precedes it. -/
theorem ExtractJamID_request_unpaced :
    (ExtractJamID sampleNet "https://example.com/my-jam").1 =
      [Effect.Request "https://example.com/my-jam" "ItchJamScraper/1.0"] ∧
    ¬ Paced (NewFetcher sampleConfig.UserAgent sampleConfig.RequestDelay).requestDelay
      (ExtractJamID sampleNet "https://example.com/my-jam").1 := by
  have htr : (ExtractJamID sampleNet "https://example.com/my-jam").1 =
      [Effect.Request "https://example.com/my-jam" "ItchJamScraper/1.0"] := by decide
  refine ⟨htr, ?_⟩
  intro h
  obtain ⟨j, hj, -⟩ := h 0 _ _ (by rw [htr]; rfl)
  exact absurd hj (Nat.not_lt_zero j)

/-- C10, amended: every request issued by a method of `JamFetcher`
(`FetchJamMetadata`, `FetchJamEntries`, `FetchGameDetails`, `DownloadFile`) is
preceded, inside the same operation, by a call of `time.Sleep` with the
request delay of the fetcher.  `NewFetcher` computes that delay as an `int64`
product: it is the configured number of milliseconds when that number is
between 1 and 9223372036854, and 500 ms when the number is not positive; for
larger numbers the product wraps around, and for 9223372036855 the delay is
negative, so that `time.Sleep` returns at once.  The function `ExtractJamID`
is not a method of the fetcher and never sleeps: when the URL does not match,
it issues its page request at once. -/
theorem fetcher_methods_paced (f : JamFetcher) (net : Net) :
    (∀ jamID, Paced f.requestDelay (f.FetchJamMetadata net jamID)) ∧
    (∀ jamID, Paced f.requestDelay (f.FetchJamEntries net jamID)) ∧
    (∀ jamID gameID, Paced f.requestDelay (f.FetchGameDetails net jamID gameID)) ∧
    (∀ url destPath, Paced f.requestDelay (f.DownloadFile net url destPath)) ∧
    (∀ userAgent delayMS, (NewFetcher userAgent delayMS).requestDelay =
      wrapInt64 ((if delayMS ≤ 0 then 500 else delayMS) * 1000000)) ∧
    (∀ userAgent delayMS, 1 ≤ delayMS → delayMS ≤ 9223372036854 →
      (NewFetcher userAgent delayMS).requestDelay = delayMS * 1000000) ∧
    (∀ userAgent delayMS, delayMS ≤ 0 →
      (NewFetcher userAgent delayMS).requestDelay = 500 * 1000000) ∧
    (∀ userAgent, (NewFetcher userAgent 9223372036855).requestDelay = -9223372036854551616) ∧
    (∀ jamURL, ∀ e ∈ (ExtractJamID net jamURL).1, ∀ d, e ≠ Effect.Sleep d) ∧
    (∀ jamURL, findJamSlug jamURL.data = none → net.NewRequest jamURL = true →
      (ExtractJamID net jamURL).1 = [Effect.Request jamURL "ItchJamScraper/1.0"]) := by
  refine ⟨fun _ => paced_of_sleep_first _ _, fun _ => paced_of_sleep_first _ _,
    fun _ _ => paced_of_sleep_first _ _, fun _ _ => paced_of_sleep_first _ _,
    fun _ _ => rfl, ?_, ?_, fun _ => by rfl, ExtractJamID_no_sleep net, ?_⟩
  · intro userAgent delayMS h1 h2
    have hpos : ¬ delayMS ≤ 0 := by omega
    simp only [NewFetcher, hpos, if_false]
    exact wrapInt64_small _ (by omega) (by omega)
  · intro userAgent delayMS h0
    simp only [NewFetcher, h0, if_true]
    exact wrapInt64_small _ (by decide) (by decide)
  · intro jamURL hno hreq
    simp [ExtractJamID, hno, hreq]

/-- C10, witness of the amended claim: the page request of `ExtractJamID` for
a URL that does not match; and the delay of the default configuration,
1500 ms, with the sleep that precedes the request of `FetchGameDetails`. -/
theorem fetcher_methods_paced_witness :
    (ExtractJamID sampleNet "https://example.com/my-jam").1 =
      [Effect.Request "https://example.com/my-jam" "ItchJamScraper/1.0"] ∧
    (NewFetcher "Itchalyser/1.0" 1500).requestDelay = 1500 * 1000000 ∧
    (NewFetcher "Itchalyser/1.0" 1500).FetchGameDetails sampleNet "demo" "7" =
      [Effect.Sleep 1500000000,
        Effect.Request "https://itch.io/jam/demo/rate/7" "Itchalyser/1.0"] ∧
    Paced (NewFetcher "Itchalyser/1.0" 1500).requestDelay
      ((NewFetcher "Itchalyser/1.0" 1500).FetchGameDetails sampleNet "demo" "7") :=
  ⟨(fetcher_methods_paced (NewFetcher "Itchalyser/1.0" 1500) sampleNet).2.2.2.2.2.2.2.2.2
      "https://example.com/my-jam" (by decide) (by rfl),
    (fetcher_methods_paced (NewFetcher "Itchalyser/1.0" 1500) sampleNet).2.2.2.2.2.1
      "Itchalyser/1.0" 1500 (by decide) (by decide),
    by decide,
    (fetcher_methods_paced (NewFetcher "Itchalyser/1.0" 1500) sampleNet).2.2.1 "demo" "7"⟩

/-- C12: the base fields of the record passed to `SaveGameSubmission` are a
function of the feed entry alone.  The update after a successful detail fetch
keeps the base fields and sets `Description`, `Screenshots`, `Downloads`,
`Comments` and `CriteriaResponses`; whatever the detail fetch returns, the
submission holds the base fields the entry gives; in every reachable state of
every run, every save made by a worker started for the entry carries these
base fields; hence the saves of two runs for the same entry carry identical
base fields, whatever the collaborators answer in either run. -/
theorem base_fields_from_entry (jg : JamGame) :
    (∀ submission gameDetails : GameSubmission,
      (enrich submission gameDetails).baseFields = submission.baseFields ∧
      (enrich submission gameDetails).Description = gameDetails.Description ∧
      (enrich submission gameDetails).Screenshots = gameDetails.Screenshots ∧
      (enrich submission gameDetails).Downloads = gameDetails.Downloads ∧
      (enrich submission gameDetails).Comments = gameDetails.Comments ∧
      (enrich submission gameDetails).CriteriaResponses = gameDetails.CriteriaResponses) ∧
    (∀ out, (submissionAfter jg out).baseFields = entryFields jg) ∧
    (∀ (r : Run) (s : State), Reachable r s → ∀ i wk, s.workers[i]? = some wk → wk.jg = jg →
      ∀ e ∈ s.log, e.who = Caller.game i → ∀ jamID gameID game,
        e.call = Call.SaveGameSubmission jamID gameID game → game.baseFields = entryFields jg) ∧
    (∀ (r₁ r₂ : Run) (s₁ s₂ : State), Reachable r₁ s₁ → Reachable r₂ s₂ →
      ∀ i₁ i₂ wk₁ wk₂, s₁.workers[i₁]? = some wk₁ → s₂.workers[i₂]? = some wk₂ →
      wk₁.jg = jg → wk₂.jg = jg →
      ∀ e₁ ∈ s₁.log, ∀ e₂ ∈ s₂.log, e₁.who = Caller.game i₁ → e₂.who = Caller.game i₂ →
      ∀ jamID₁ gameID₁ game₁ jamID₂ gameID₂ game₂,
        e₁.call = Call.SaveGameSubmission jamID₁ gameID₁ game₁ →
        e₂.call = Call.SaveGameSubmission jamID₂ gameID₂ game₂ →
        game₁.baseFields = game₂.baseFields) := by
  have hrun : ∀ (r : Run) (s : State), Reachable r s → ∀ i wk, s.workers[i]? = some wk →
      wk.jg = jg → ∀ e ∈ s.log, e.who = Caller.game i → ∀ jamID gameID game,
        e.call = Call.SaveGameSubmission jamID gameID game →
        game.baseFields = entryFields jg := by
    intro r s hs i wk hwk hjg e he hwho jamID gameID game hcall
    obtain ⟨out, hgame, -⟩ :=
      save_record_of_shape (taskShape s hs i wk hwk) (mem_own he hwho) hcall
    rw [hgame, hjg]
    exact submissionAfter_baseFields jg out
  refine ⟨fun _ _ => ⟨rfl, rfl, rfl, rfl, rfl, rfl⟩, submissionAfter_baseFields jg, hrun, ?_⟩
  intro r₁ r₂ s₁ s₂ h₁ h₂ i₁ i₂ wk₁ wk₂ hw₁ hw₂ hj₁ hj₂ e₁ he₁ e₂ he₂ ho₁ ho₂
    jamID₁ gameID₁ game₁ jamID₂ gameID₂ game₂ hc₁ hc₂
  rw [hrun r₁ s₁ h₁ i₁ wk₁ hw₁ hj₁ e₁ he₁ ho₁ _ _ _ hc₁,
    hrun r₂ s₂ h₂ i₂ wk₂ hw₂ hj₂ e₂ he₂ ho₂ _ _ _ hc₂]

/-- C12, witness: in the sample run the record saved for game 9, whose detail
fetch succeeded, carries the base fields of its feed entry. -/
theorem base_fields_from_entry_witness :
    (enrich (baseSubmission (sampleGame 9 "https://img.itch.zone/c.png" []))
        sampleDetails).baseFields =
      entryFields (sampleGame 9 "https://img.itch.zone/c.png" []) ∧
    (enrich (baseSubmission (sampleGame 9 "https://img.itch.zone/c.png" []))
        sampleDetails).Description = "about the game" :=
  ⟨(base_fields_from_entry (sampleGame 9 "https://img.itch.zone/c.png" [])).2.2.1
      (sampleRun lossyScript) lossyFinal ⟨lossySched, by rfl⟩ 2
      { jg := sampleGame 9 "https://img.itch.zone/c.png" [], pc := WorkerPC.exited } (by rfl) rfl
      (saveEvent (sampleRun lossyScript) 2 (sampleGame 9 "https://img.itch.zone/c.png" [])
        (enrich (baseSubmission (sampleGame 9 "https://img.itch.zone/c.png" [])) sampleDetails)
        Outcome.ok)
      (by decide) rfl _ _ _ rfl,
    rfl⟩

/-- C11, counterexample: a feed of three games with ids 7, 8 and 9, none of
which is in the cache at the entry of the call.  Another call on the same
processor claims id 8 after the feed is fetched and before the jam loop looks
id 8 up: the loop skips the entry (l.91-96), the call returns `nil`, and
`SaveGameSubmission` has been called twice, not three times, and not at all
for id 8. -/
theorem concurrent_claim_drops_entry :
    (sampleRun threeScript).p.gameCache = [] ∧
    feedIDs threeScript.feed = ["7", "8", "9"] ∧
    (∀ log jamID gameID game,
      (sampleRun threeScript).w.SaveGameSubmission log jamID gameID game = none) ∧
    sharedExec (sampleRun threeScript) (State.start (sampleRun threeScript).p) lateClaimSched =
      some lateClaimFinal ∧
    claimedByOthers lateClaimSched = ["8"] ∧
    fetchedFeed lateClaimFinal.log = some threeScript.feed ∧
    lateClaimFinal.main = MainPC.returned none ∧
    lateClaimFinal.workers.map (fun wk => Itoa wk.jg.Game.ID) = ["7", "9"] ∧
    saveCount (fun _ => true) lateClaimFinal.log = 2 ∧
    saveCount (fun g => g == "8") lateClaimFinal.log = 0 :=
  ⟨rfl, by decide, fun _ _ _ _ => rfl, by rfl, by decide, by rfl, by rfl, by decide, by decide,
    by decide⟩

/-- C11, amended: for a feed of `n` entries with pairwise distinct game ids,
none of which is in the cache of the processor at the entry of the call or is
claimed during the call by another call on the same processor, and a storage
whose `SaveGameSubmission` never fails, whatever the other collaborators do
(in particular however many calls of `FetchGameDetails` fail), whatever the
interleaving, and whatever other ids the other calls claim: once `ProcessJam`
has returned, it has returned `nil`, one goroutine was started per entry,
`SaveGameSubmission` was called exactly `n` times, once for the id of each
entry, each call succeeded, and the record of an entry is the basic submission
updated with the five fetched fields when its detail fetch succeeded and the
basic submission, whose five enrichment fields are empty, when it failed.
With a worker limit of at least 1 the call does return: no state it reaches
is stuck, and from every state it reaches its own goroutines can be run on to
such a return. -/
theorem distinct_feed_saved_once (r : Run) (feed : List JamGame)
    (hdistinct : (feed.map (fun jg => jg.Game.ID)).Nodup)
    (hcache : ∀ jg ∈ feed, Itoa jg.Game.ID ∉ r.p.gameCache)
    (hsave : ∀ log jamID gameID game, r.w.SaveGameSubmission log jamID gameID game = none)
    (sched : List SharedAction) (s : State)
    (hs : sharedExec r (State.start r.p) sched = some s)
    (hothers : ∀ jg ∈ feed, Itoa jg.Game.ID ∉ claimedByOthers sched)
    (hfeed : fetchedFeed s.log = some feed) :
    (s.returned → SavedOnce r feed s) ∧
    (1 ≤ r.cfg.Workers →
      (s.returned ∨ ∃ a s', step r s a = some s') ∧
      ∃ sched' s', exec r s sched' = some s' ∧ SavedOnce r feed s') ∧
    (∀ jg gameDetails,
      submissionAfter jg (Outcome.details gameDetails) =
        enrich (baseSubmission jg) gameDetails ∧
      (enrich (baseSubmission jg) gameDetails).Description = gameDetails.Description ∧
      (enrich (baseSubmission jg) gameDetails).Screenshots = gameDetails.Screenshots ∧
      (enrich (baseSubmission jg) gameDetails).Downloads = gameDetails.Downloads ∧
      (enrich (baseSubmission jg) gameDetails).Comments = gameDetails.Comments ∧
      (enrich (baseSubmission jg) gameDetails).CriteriaResponses =
        gameDetails.CriteriaResponses) ∧
    (∀ jg err,
      submissionAfter jg (Outcome.error err) = baseSubmission jg ∧
      (baseSubmission jg).Description = "" ∧ (baseSubmission jg).Screenshots = [] ∧
      (baseSubmission jg).Downloads = [] ∧ (baseSubmission jg).Comments = [] ∧
      (baseSubmission jg).CriteriaResponses = []) := by
  have hfresh := freshFeed_of_distinct (r := r) hdistinct hcache
  have hothers' : ∀ g ∈ claimedByOthers sched, g ∉ feedIDs feed := by
    intro g hg hin
    obtain ⟨jg, hjg, rfl⟩ := List.mem_map.mp hin
    exact hothers jg hjg hg
  obtain ⟨t, ht, hal⟩ := alone_of_shared hfresh sched s hs hothers'
    (fun feed' hf => by rw [hfeed] at hf; cases hf; rfl)
  have hlog : t.log = s.log := by rw [hal.1]
  have hmain : t.main = s.main := by rw [hal.1]
  have hfeedt : fetchedFeed t.log = some feed := by rw [hlog]; exact hfeed
  refine ⟨fun hret => ?_, ?_,
    fun _ _ => ⟨rfl, rfl, rfl, rfl, rfl, rfl⟩, fun _ _ => ⟨rfl, rfl, rfl, rfl, rfl, rfl⟩⟩
  · have hret' : t.returned := by
      obtain ⟨err, herr⟩ := hret
      exact ⟨err, by rw [hmain]; exact herr⟩
    exact savedOnce_of_alone hal (savedOnce_of_returned hfresh hsave ht hfeedt hret')
  · intro hW
    refine ⟨?_, ?_⟩
    · rcases progress hW t ht with ⟨err, herr⟩ | ⟨a, t', hstep⟩
      · exact Or.inl ⟨err, by rw [← hmain]; exact herr⟩
      · right
        obtain ⟨s', hex, -⟩ := shared_of_alone hfresh hothers' [a] t s t' ht hal hfeedt
          (by simp [exec, hstep])
        simp only [exec] at hex
        cases hst : step r s a with
        | none => simp [hst] at hex
        | some s1 => exact ⟨a, s1, hst⟩
    · obtain ⟨sched', t', hex, hret⟩ := can_return hW t ht
      obtain ⟨s', hex', hal'⟩ := shared_of_alone hfresh hothers' sched' t s t' ht hal hfeedt hex
      exact ⟨sched', s', hex', savedOnce_of_alone hal'
        (savedOnce_of_returned hfresh hsave (reachable_exec ht hex)
          (exec_fetchedFeed sched' t t' hex hfeedt) hret)⟩

/-- C11, witness: a feed of three games with ids 7, 8 and 9, a fresh
processor, two slots; the detail fetch of game 7 fails, and another call on
the processor claims id 5 meanwhile.  The run returns `nil` and has made
three saves, one per id: the records of games 8 and 9 are enriched with the
fetched details, the record of game 7 is the basic submission. -/
theorem distinct_feed_saved_once_witness :
    SavedOnce (sampleRun threeScript) threeScript.feed threeSharedFinal ∧
    claimedByOthers threeShared = ["5"] ∧
    (threeSharedFinal.log.filter (fun e => e.call.isSave)).map (fun e => e.call) =
      [Call.SaveGameSubmission "demo" "8"
          (enrich (baseSubmission (sampleGame 8 "" [])) sampleDetails),
        Call.SaveGameSubmission "demo" "7" (baseSubmission (sampleGame 7 "" [])),
        Call.SaveGameSubmission "demo" "9"
          (enrich (baseSubmission (sampleGame 9 "" [])) sampleDetails)] :=
  ⟨(distinct_feed_saved_once (sampleRun threeScript) threeScript.feed (by decide) (by decide)
      (fun _ _ _ _ => rfl) threeShared threeSharedFinal (by rfl) (by decide) (by rfl)).1
      ⟨none, by rfl⟩,
    by decide, by rfl⟩

/-- C13, counterexample: no flags give the jam-level semaphore capacity 1 and
the game-level semaphore capacity 2.  Both channels are made with the one
field `Workers` of the configuration (main.go l.55, processor.go l.83), which
`main` copies from the one flag `-workers`: with `-workers 1` both capacities
are 1, with `-workers 2` both are 2. -/
theorem no_flags_give_different_capacities :
    (¬ ∃ f : Flags, jamCapacity f.config = 1 ∧ f.proc.gameCapacity = 2) ∧
    jamCapacity ({ Flags.default "https://itch.io/jam/demo" with workers := 1 }).config = 1 ∧
    ({ Flags.default "https://itch.io/jam/demo" with workers := 1 }).proc.gameCapacity = 1 ∧
    jamCapacity ({ Flags.default "https://itch.io/jam/demo" with workers := 2 }).config = 2 ∧
    ({ Flags.default "https://itch.io/jam/demo" with workers := 2 }).proc.gameCapacity = 2 := by
  refine ⟨?_, rfl, rfl, rfl, rfl⟩
  rintro ⟨f, h1, h2⟩
  have h3 : jamCapacity f.config = f.proc.gameCapacity := rfl
  rw [h1, h2] at h3
  exact absurd h3 (by decide)

/-- C13, amended: the jam-level and the game-level concurrency bounds are
enforced by two separate semaphores but configured by one value.  For all
flags, the capacity of the semaphore of `main`, which bounds the simultaneous
jam runs, and the capacity of the semaphore of `ProcessJam`, which bounds the
simultaneous game tasks within a jam, are both the value of `-workers`: each
channel holds one value per admitted task of its level, the send that admits
a task can be made if and only if fewer tasks than that value are admitted,
and with a value of at least 1 no more tasks than that value are ever
admitted.  So for every positive `a` there are flags that give both levels
the capacity `a`, and no flags give the two levels different capacities. -/
theorem capacities_share_workers :
    (∀ f : Flags,
      jamCapacity f.config = f.workers ∧ f.proc.gameCapacity = f.workers ∧
      (∀ urls d, DriverReachable f.config urls d →
        d.semaphore = d.admitted ∧
        (1 ≤ f.workers → (d.admitted : Int) ≤ jamCapacity f.config) ∧
        (∀ url rest, d.pc = DriverPC.acquire url rest →
          ((driverStep f.config d Action.main).isSome ↔
            (d.admitted : Int) < jamCapacity f.config))) ∧
      (∀ r : Run, r.p.config = f.config → ∀ s, Reachable r s →
        s.semaphore = admitted s ∧
        (1 ≤ f.workers → (admitted s : Int) ≤ r.p.gameCapacity) ∧
        (∀ jg rest, s.main = MainPC.acquire jg rest →
          ((step r s Action.main).isSome ↔ (admitted s : Int) < r.p.gameCapacity)))) ∧
    (∀ a : Int, 0 < a → ∃ f : Flags, jamCapacity f.config = a ∧ f.proc.gameCapacity = a) ∧
    (∀ (f : Flags) (a b : Int), jamCapacity f.config = a → f.proc.gameCapacity = b → a = b) := by
  refine ⟨fun f => ⟨rfl, rfl, ?_, ?_⟩, ?_, ?_⟩
  · intro urls d hd
    obtain ⟨h1, h2⟩ := driver_accounted d hd
    refine ⟨h1, ?_, ?_⟩
    · intro hW
      have : 1 ≤ jamCapacity f.config := hW
      rcases h2 with h2 | h2 <;> omega
    · intro url rest hpc
      rw [← h1]
      simp only [driverStep, hpc]
      split_ifs with h <;> simp [h]
  · intro r hr s hs
    obtain ⟨h1, -, h3⟩ := accounted s hs
    have hcap : r.p.gameCapacity = r.cfg.Workers := rfl
    have hw : r.cfg.Workers = f.workers := by
      show r.p.config.Workers = _
      rw [hr]; rfl
    refine ⟨h1, ?_, ?_⟩
    · intro hW
      rw [hcap, hw]
      rw [hw] at h3
      rcases h3 with h3 | h3 <;> omega
    · intro jg rest hpc
      rw [← h1, hcap]
      simp only [step, mainStep, hpc]
      split_ifs with h <;> simp [h]
  · intro a _
    exact ⟨{ Flags.default "" with workers := a }, rfl, rfl⟩
  · rintro f a b rfl rfl
    rfl

/-- C13, amended, witness: with the default flags both capacities are 2. -/
theorem capacities_share_workers_witness :
    jamCapacity (Flags.default "https://itch.io/jam/demo").config = 2 ∧
    (Flags.default "https://itch.io/jam/demo").proc.gameCapacity = 2 :=
  ⟨(capacities_share_workers.1 (Flags.default "https://itch.io/jam/demo")).1,
    (capacities_share_workers.1 (Flags.default "https://itch.io/jam/demo")).2.1⟩

/-- C14: for every URL that holds `itch.io/jam/` immediately followed by a
character other than `/`, `ExtractJamID` returns a `nil` error without any
effect on the network (no request is built or sent), and its result is the
longest run of characters other than `/` that follows the leftmost such
place: the URL is `pre`, then `itch.io/jam/`, then the result, then `after`,
where no shorter `pre` is followed by `itch.io/jam/` and a character other
than `/`, the result is not empty and holds no `/`, and `after` is empty or
starts with `/`. -/
theorem ExtractJamID_slug (net : Net) (jamURL : String) (p r : List Char) (c : Char)
    (hc : c ≠ '/') (hurl : jamURL.data = p ++ "itch.io/jam/".data ++ c :: r) :
    ∃ pre slug after : List Char,
      jamURL.data = pre ++ "itch.io/jam/".data ++ slug ++ after ∧
      (∀ p' c' r', jamURL.data = p' ++ "itch.io/jam/".data ++ c' :: r' → c' ≠ '/' →
        pre.length ≤ p'.length) ∧
      (after = [] ∨ after.head? = some '/') ∧
      ExtractJamID net jamURL = ([], Except.ok (String.mk slug)) ∧
      slug ≠ [] ∧ (String.mk slug) ≠ "" ∧ '/' ∉ slug := by
  obtain ⟨pre, slug, after, hcs, hne, hall, hafter, hleft, hfind⟩ :=
    findJamSlug_spec jamURL.data ⟨p, c, r, hurl, hc⟩
  refine ⟨pre, slug, after, hcs, hleft, hafter, ?_, hne, ?_, ?_⟩
  · simp [ExtractJamID, hfind]
  · intro h
    exact hne (congrArg String.data h)
  · intro hin
    exact hall _ hin rfl

/-- C14, witness: the URL `https://itch.io/jam/brackeys-13` gives
`brackeys-13`, with no effect on the network. -/
theorem ExtractJamID_slug_witness :
    ExtractJamID sampleNet "https://itch.io/jam/brackeys-13" = ([], Except.ok "brackeys-13") ∧
    ∃ pre slug after : List Char,
      "https://itch.io/jam/brackeys-13".data = pre ++ "itch.io/jam/".data ++ slug ++ after ∧
      (∀ p' c' r',
        "https://itch.io/jam/brackeys-13".data = p' ++ "itch.io/jam/".data ++ c' :: r' →
        c' ≠ '/' → pre.length ≤ p'.length) ∧
      (after = [] ∨ after.head? = some '/') ∧
      ExtractJamID sampleNet "https://itch.io/jam/brackeys-13" =
        ([], Except.ok (String.mk slug)) ∧
      slug ≠ [] ∧ (String.mk slug) ≠ "" ∧ '/' ∉ slug :=
  ⟨by rfl,
    ExtractJamID_slug sampleNet "https://itch.io/jam/brackeys-13" "https://".data
      "rackeys-13".data 'b' (by decide) (by decide)⟩

/-- C15, counterexample: the question `ϒ ℂ?`, made of the upper-case letters
U+03D2 and U+2102, a space and a question mark.  Neither letter has a
lower-case form, so `strings.ToLower` leaves both as they are: the key is
`ϒ_ℂ`, and it holds two upper-case letters. -/
theorem criteria_key_keeps_capitals :
    criteriaKey unicode.capitals "ϒ ℂ?" = "ϒ_ℂ" ∧
    criteriaResponses unicode.capitals [("ϒ ℂ?", "yes")] = [("ϒ_ℂ", "yes")] ∧
    (∀ c ∈ "ϒℂ".data, unicode.capitals.IsUpper c = true ∧
      c ∈ (criteriaKey unicode.capitals "ϒ ℂ?").data) := by
  decide

/-- C15, amended: for every element of `.field_responses p` whose question
and answer are not empty once trimmed, `FetchGameDetails` stores the trimmed
answer under the key obtained from the trimmed question by lower-casing it
(every character is replaced by its lower-case form, if it has one), deleting
every `?` and replacing every space by `_`, and leaves the other keys of the
map alone; an element whose question or answer is empty once trimmed leaves the
map unchanged.  So at the end of the loop the map holds, for every key, the
answer of the last element stored under it, and holds nothing when every
element has an empty question or answer.  A key holds no `?` and no space; and
when `unicode.ToLower` maps every lower-case form to itself and leaves `_`
unchanged, as the Unicode tables do, every character of a key is its own
lower-case form (no letter that has another lower-case form is in a key; an
upper-case letter that is in a key is one without another lower-case form)
and normalising a key again gives the same key. -/
theorem criteria_key_normalised (u : unicode)
    (hidem : ∀ c, u.ToLower (u.ToLower c) = u.ToLower c) (hunder : u.ToLower '_' = '_') :
    (∀ m strong text, TrimSpace u strong ≠ "" → TrimSpace u text ≠ "" →
      List.lookup (criteriaKey u (TrimSpace u strong)) (criteriaStep u m strong text) =
        some (TrimSpace u text) ∧
      ∀ k, k ≠ criteriaKey u (TrimSpace u strong) →
        List.lookup k (criteriaStep u m strong text) = List.lookup k m) ∧
    (∀ m strong text, TrimSpace u strong = "" ∨ TrimSpace u text = "" →
      criteriaStep u m strong text = m) ∧
    (∀ paragraphs key, List.lookup key (criteriaResponses u paragraphs) =
      (paragraphs.reverse.find? (storedUnder u key)).map (fun p => TrimSpace u p.2)) ∧
    (∀ paragraphs, (∀ p ∈ paragraphs, TrimSpace u p.1 = "" ∨ TrimSpace u p.2 = "") →
      criteriaResponses u paragraphs = []) ∧
    (∀ q, (criteriaKey u q).data =
      ((q.data.map u.ToLower).filter (fun c => c ≠ '?')).map
        (fun c => if c = ' ' then '_' else c)) ∧
    (∀ q, '?' ∉ (criteriaKey u q).data ∧ ' ' ∉ (criteriaKey u q).data ∧
      (∀ c ∈ (criteriaKey u q).data, u.ToLower c = c) ∧
      (∀ c, u.ToLower c ≠ c → c ∉ (criteriaKey u q).data)) ∧
    (∀ q, criteriaKey u (criteriaKey u q) = criteriaKey u q) ∧
    (∀ q, ∀ c ∈ (criteriaKey u q).data, u.IsUpper c = true → u.ToLower c = c) := by
  have hfix : ∀ q, ∀ c ∈ (criteriaKey u q).data, u.ToLower c = c := by
    intro q c hc
    rcases (mem_criteriaKey hc).2.2 with rfl | ⟨d, rfl⟩
    · exact hunder
    · exact hidem d
  refine ⟨?_, criteriaStep_skipped u, lookup_criteriaResponses u, ?_, ?_, ?_, ?_,
    fun q c hc _ => hfix q c hc⟩
  · intro m strong text hq ha
    rw [criteriaStep_stored u m strong text hq ha]
    refine ⟨by rw [lookup_mapSet, if_pos rfl], fun k hk => ?_⟩
    rw [lookup_mapSet, if_neg hk]
  · intro paragraphs
    induction paragraphs using List.reverseRecOn with
    | nil => intro _; rfl
    | append_singleton ps p ih =>
      intro h
      rw [criteriaResponses_append, criteriaStep_skipped u _ _ _ (h p (by simp))]
      exact ih (fun p' hp' => h p' (List.mem_append_left _ hp'))
  · intro q
    rw [criteriaKey_data, replaceAll_delete, replaceAll_single]
  · intro q
    refine ⟨fun h => (mem_criteriaKey h).2.1 rfl, fun h => (mem_criteriaKey h).1 rfl, hfix q, ?_⟩
    intro c hc hin
    exact hc (hfix q c hin)
  · intro q
    apply String.ext
    have h1 : (criteriaKey u q).data.map u.ToLower = (criteriaKey u q).data := by
      conv_rhs => rw [← List.map_id (criteriaKey u q).data]
      exact List.map_congr_left (fun c hc => hfix q c hc)
    have h2 : '?' ∉ (criteriaKey u q).data := fun h => (mem_criteriaKey h).2.1 rfl
    have h3 : ' ' ∉ (criteriaKey u q).data := fun h => (mem_criteriaKey h).1 rfl
    rw [criteriaKey_data u (criteriaKey u q), h1, replaceAll_absent h2, replaceAll_absent h3]

/-- C15, witness: with the ASCII tables, the questions ` Theme? ` and
`Made Solo?` are stored under `theme` and `made_solo`; the later question
`MADE solo` has the same key and its answer replaces the earlier one; the
question without answer and the answer without question are not stored;
normalising `made_solo` again gives `made_solo`; and with the two capitals
without lower-case form, normalising the key of `ϒ ℂ?` again gives that key. -/
theorem criteria_key_normalised_witness :
    criteriaResponses unicode.ascii sampleParagraphs = [("made_solo", "Yes"), ("theme", "yes")] ∧
    criteriaKey unicode.ascii "Made Solo?" = "made_solo" ∧
    criteriaKey unicode.ascii (criteriaKey unicode.ascii "Made Solo?") =
      criteriaKey unicode.ascii "Made Solo?" ∧
    List.lookup "made_solo" (criteriaResponses unicode.ascii sampleParagraphs) =
      (sampleParagraphs.reverse.find? (storedUnder unicode.ascii "made_solo")).map
        (fun p => TrimSpace unicode.ascii p.2) ∧
    criteriaKey unicode.capitals (criteriaKey unicode.capitals "ϒ ℂ?") =
      criteriaKey unicode.capitals "ϒ ℂ?" :=
  ⟨by decide, by decide,
    (criteria_key_normalised unicode.ascii ascii_toLower_idem (by rfl)).2.2.2.2.2.2.1
      "Made Solo?",
    (criteria_key_normalised unicode.ascii ascii_toLower_idem (by rfl)).2.2.1 sampleParagraphs
      "made_solo",
    (criteria_key_normalised unicode.capitals ascii_toLower_idem (by rfl)).2.2.2.2.2.2.1
      "ϒ ℂ?"⟩

/-- C16: on Unix, for every game id, cover URL and list of screenshot URLs,
the destination paths `downloadGameMedia` computes are pairwise distinct: the
path of the screenshot at index `i` (the media directory joined with
`screenshot`, the decimal digits of `i + 1` and the extension of its URL)
differs from the path of the screenshot at any other index and from the cover
path (the media directory joined with `cover` and the extension of the cover
URL), whatever the URLs are.  So the destinations of the downloads
`downloadGameMedia` is to make for a game are pairwise distinct, and in every
reachable state of a run the destinations of the downloads a game task has
made are pairwise distinct. -/
theorem media_paths_distinct (r : Run) (hfp : r.fp = filepath.unix) :
    (∀ gameID i j url url', i ≠ j →
      r.screenshotPath gameID i url ≠ r.screenshotPath gameID j url') ∧
    (∀ gameID i url game, r.screenshotPath gameID i url ≠ r.coverPath gameID game) ∧
    (∀ gameID game, ((mediaCalls r gameID game).filterMap Call.dest?).Nodup) ∧
    (∀ s, Reachable r s → ∀ i wk, s.workers[i]? = some wk →
      (destsOf (own (Caller.game i) s.log)).Nodup) := by
  refine ⟨fun gameID => (unix_paths_differ hfp gameID).1,
    fun gameID => (unix_paths_differ hfp gameID).2, ?_, ?_⟩
  · intro gameID game
    obtain ⟨hnd, hall⟩ := shot_dests hfp gameID game.Screenshots 0
    unfold mediaCalls
    rw [List.filterMap_append]
    split_ifs with hc
    · have hcov : [Call.DownloadFile game.Cover.URL (r.coverPath gameID game)].filterMap
          Call.dest? = [r.coverPath gameID game] := rfl
      rw [hcov, List.singleton_append]
      refine List.nodup_cons.mpr ⟨?_, hnd⟩
      intro hin
      obtain ⟨j, url, -, hp⟩ := hall _ hin
      exact (unix_paths_differ hfp gameID).2 j url game hp.symm
    · simpa using hnd
  · intro s hs i wk hwk
    have h := destTrack hfp s hs i wk hwk
    have hnil : destsOf (own (Caller.game i) s.log) = [] →
        (destsOf (own (Caller.game i) s.log)).Nodup := fun h0 => by rw [h0]; exact List.nodup_nil
    cases hpc : wk.pc <;> rw [hpc] at h
    · exact hnil h
    · exact hnil h
    · exact hnil h
    · exact hnil h
    · exact hnil h
    · exact hnil h
    · exact h.1
    · exact h
    · exact h
    · exact h
    · exact h

/-- C16, witness: in the sample run the task of game 9 downloads its cover
and its two screenshots to three different paths; and two screenshots with
one and the same URL get different paths. -/
theorem media_paths_distinct_witness :
    destsOf (own (Caller.game 2) lossyFinal.log) =
      ["../data/jams/demo/submissions/9/media/cover.png",
        "../data/jams/demo/submissions/9/media/screenshot1.png",
        "../data/jams/demo/submissions/9/media/screenshot2.jpg"] ∧
    (destsOf (own (Caller.game 2) lossyFinal.log)).Nodup ∧
    (sampleRun lossyScript).screenshotPath "9" 0 "https://img.itch.zone/a.png" ≠
      (sampleRun lossyScript).screenshotPath "9" 1 "https://img.itch.zone/a.png" :=
  ⟨by decide,
    (media_paths_distinct (sampleRun lossyScript) rfl).2.2.2 lossyFinal ⟨lossySched, by rfl⟩ 2
      { jg := sampleGame 9 "https://img.itch.zone/c.png" [], pc := WorkerPC.exited } (by rfl),
    (media_paths_distinct (sampleRun lossyScript) rfl).1 "9" 0 1 "https://img.itch.zone/a.png"
      "https://img.itch.zone/a.png" (by decide)⟩

end Itchalyser
